import Mathlib

/-!
Verification of a Thompson-construction regular-expression engine.

The program consists of a recursive-descent parser producing parse trees,
NFA construction primitives that build and mutate a heap of automaton
states, two compilers (tree-driven and postfix stack-machine), and an
active-state-set simulation engine.

The heap of mutable `FA_State` objects is embedded as an arena: a list of
states indexed by allocation order.  Object identity becomes index
equality, object mutation becomes functional update of the arena at an
index, and the arena is threaded through every construction function in
program order.  JavaScript `undefined` values (out-of-bounds lookahead,
missing parse-tree labels, empty stack pops) are embedded as `Option`.
Thrown exceptions are embedded as `Except`/`Option` results.  The two
general-recursive functions of the source (the parser and the
epsilon-closure walk) take an explicit fuel argument chosen large enough
at every call site; sufficiency of the fuel is proved where theorems
need it.
-/

set_option maxHeartbeats 1600000

namespace Automata

/-- A state in Thompson's NFA: an accept flag, a dictionary from symbol
keys to a target state, and a list of epsilon-transition targets.
States live in an arena; `Nat` fields are arena indices. -/
structure FA_State where
  isEnd : Bool
  transition : List (String × Nat)
  epsilonTransitions : List Nat
deriving Repr, DecidableEq

/-- The heap of allocated states, in allocation order. -/
abbrev Arena := List FA_State

/-- An NFA fragment: indices of its start and end (accept) state. -/
structure NFA where
  start : Nat
  endState : Nat
deriving Repr, DecidableEq

/-- Read a state from the arena (out-of-bounds reads a dummy state;
they never occur in actual runs). -/
def getSt (σ : Arena) (i : Nat) : FA_State := (σ[i]?).getD ⟨false, [], []⟩

def epsOf (σ : Arena) (i : Nat) : List Nat := (getSt σ i).epsilonTransitions

def transOf (σ : Arena) (i : Nat) : List (String × Nat) := (getSt σ i).transition

/-- Dictionary lookup `state.transition[symbol]`. -/
def lookupTrans (σ : Arena) (i : Nat) (key : String) : Option Nat :=
  (transOf σ i).lookup key

/-- Functional update of one state in the arena. -/
def modifyState (σ : Arena) (i : Nat) (f : FA_State → FA_State) : Arena :=
  σ.set i (f (getSt σ i))

/-- `createState(isEnd)`: allocate a fresh state, return its index. -/
def createState (σ : Arena) (isEnd : Bool) : Arena × Nat :=
  (σ ++ [⟨isEnd, [], []⟩], σ.length)

/-- `addEpsilonTransition(from, to)`: push `to` onto the source's
epsilon-transition list. -/
def addEpsilonTransition (σ : Arena) (src dst : Nat) : Arena :=
  modifyState σ src (fun s => { s with epsilonTransitions := s.epsilonTransitions ++ [dst] })

/-- `addTransition(from, to, symbol)`: dictionary assignment
`from.transition[symbol] = to` (first-match lookup makes cons a
faithful embedding of key replacement). -/
def addTransition (σ : Arena) (src dst : Nat) (symbol : String) : Arena :=
  modifyState σ src (fun s => { s with transition := (symbol, dst) :: s.transition })

/-- `fromEpsilon()`: an NFA recognizing only the empty string. -/
def fromEpsilon (σ : Arena) : Arena × NFA :=
  let (σ1, start) := createState σ false
  let (σ2, «endSt») := createState σ1 true
  let σ3 := addEpsilonTransition σ2 start «endSt»
  (σ3, ⟨start, «endSt»⟩)

/-- `fromSymbol(symbol)`: an NFA recognizing only that one-symbol string. -/
def fromSymbol (σ : Arena) (symbol : String) : Arena × NFA :=
  let (σ1, start) := createState σ false
  let (σ2, «endSt») := createState σ1 true
  let σ3 := addTransition σ2 start «endSt» symbol
  (σ3, ⟨start, «endSt»⟩)

/-- `concat(first, second)`: concatenation of two NFAs. -/
def concat (σ : Arena) (first second : NFA) : Arena × NFA :=
  let σ1 := addEpsilonTransition σ first.endState second.start
  let σ2 := modifyState σ1 first.endState (fun s => { s with isEnd := false })
  (σ2, ⟨first.start, second.endState⟩)

/-- `union(first, second)`: union of two NFAs. -/
def union (σ : Arena) (first second : NFA) : Arena × NFA :=
  let (σ1, start) := createState σ false
  let σ2 := addEpsilonTransition σ1 start first.start
  let σ3 := addEpsilonTransition σ2 start second.start
  let (σ4, «endSt») := createState σ3 true
  let σ5 := addEpsilonTransition σ4 first.endState «endSt»
  let σ6 := modifyState σ5 first.endState (fun s => { s with isEnd := false })
  let σ7 := addEpsilonTransition σ6 second.endState «endSt»
  let σ8 := modifyState σ7 second.endState (fun s => { s with isEnd := false })
  (σ8, ⟨start, «endSt»⟩)

/-- `closure(nfa)`: Kleene star of an NFA. -/
def closure (σ : Arena) (nfa : NFA) : Arena × NFA :=
  let (σ1, start) := createState σ false
  let (σ2, «endSt») := createState σ1 true
  let σ3 := addEpsilonTransition σ2 start «endSt»
  let σ4 := addEpsilonTransition σ3 start nfa.start
  let σ5 := addEpsilonTransition σ4 nfa.endState «endSt»
  let σ6 := addEpsilonTransition σ5 nfa.endState nfa.start
  let σ7 := modifyState σ6 nfa.endState (fun s => { s with isEnd := false })
  (σ7, ⟨start, «endSt»⟩)

/-- `zeroOrOne(nfa)`. -/
def zeroOrOne (σ : Arena) (nfa : NFA) : Arena × NFA :=
  let (σ1, start) := createState σ false
  let (σ2, «endSt») := createState σ1 true
  let σ3 := addEpsilonTransition σ2 start «endSt»
  let σ4 := addEpsilonTransition σ3 start nfa.start
  let σ5 := addEpsilonTransition σ4 nfa.endState «endSt»
  let σ6 := modifyState σ5 nfa.endState (fun s => { s with isEnd := false })
  (σ6, ⟨start, «endSt»⟩)

/-- `oneOrMore(nfa)`. -/
def oneOrMore (σ : Arena) (nfa : NFA) : Arena × NFA :=
  let (σ1, start) := createState σ false
  let (σ2, «endSt») := createState σ1 true
  let σ3 := addEpsilonTransition σ2 start nfa.start
  let σ4 := addEpsilonTransition σ3 nfa.endState «endSt»
  let σ5 := addEpsilonTransition σ4 nfa.endState nfa.start
  let σ6 := modifyState σ5 nfa.endState (fun s => { s with isEnd := false })
  (σ6, ⟨start, «endSt»⟩)

/-- One step of the postfix stack machine of `toNFA`: quantifier tokens
pop one operand, the alternation and concatenation tokens pop two
(right first); a pop of an empty stack yields `undefined` and the
operator is silently skipped, the popped operands staying discarded.
Any other token pushes `fromSymbol(token)`. -/
def pushToken (acc : Arena × List NFA) (token : Char) : Arena × List NFA :=
  let (σ, stack) := acc
  if token = '*' then
    match stack with
    | s0 :: rest => let (σ1, n) := closure σ s0; (σ1, n :: rest)
    | [] => (σ, [])
  else if token = '?' then
    match stack with
    | s0 :: rest => let (σ1, n) := zeroOrOne σ s0; (σ1, n :: rest)
    | [] => (σ, [])
  else if token = '+' then
    match stack with
    | s0 :: rest => let (σ1, n) := oneOrMore σ s0; (σ1, n :: rest)
    | [] => (σ, [])
  else if token = '|' then
    match stack with
    | right :: left :: rest => let (σ1, n) := union σ left right; (σ1, n :: rest)
    | _ => (σ, [])
  else if token = '.' then
    match stack with
    | right :: left :: rest => let (σ1, n) := concat σ left right; (σ1, n :: rest)
    | _ => (σ, [])
  else
    let (σ1, n) := fromSymbol σ (String.singleton token)
    (σ1, n :: stack)

/-- `toNFA(postfixExp)`: convert a postfix regular expression to a
Thompson NFA via a stack machine; `stack.pop()` on the empty final
stack yields `undefined`, i.e. `none`. -/
def toNFA (σ : Arena) (postfixExp : List Char) : Arena × Option NFA :=
  if postfixExp = [] then
    let (σ1, n) := fromEpsilon σ
    (σ1, some n)
  else
    let (σ1, stack) := postfixExp.foldl pushToken (σ, [])
    (σ1, stack.head?)

/-! ## The parse tree and the recursive-descent parser -/

/-- A parse-tree node: a label (possibly the JavaScript `undefined`,
which `next()` produces when reading past the end of the pattern) and
an optional ordered list of children (`leaf` = children absent). -/
inductive TreeNode where
  | node (label : Option String) (children : List TreeNode)
  | leaf (label : Option String)
deriving Repr

def TreeNode.labelOf : TreeNode → Option String
  | .node l _ => l
  | .leaf l => l

/-- The JavaScript property key written by `transition[label]` when
`label` is `undefined`: key coercion yields the string "undefined". -/
def labelKey (t : TreeNode) : String := t.labelOf.getD "undefined"

/-- Errors thrown by the parser.  The source throws plain `Error`s with
the two message shapes below; `outOfFuel` is an artifact of the fuel
embedding of general recursion and is never produced when the fuel is
at least `7 * pattern.length + 1` (proved for grammar-generated
patterns). -/
inductive ParseError where
  | unexpectedSymbol (ch : Option Char)
  | unexpectedMetaChar (ch : Option Char)
  | outOfFuel
deriving Repr, DecidableEq

/-- The scan state `pattern`/`pos` of the parser, threaded explicitly. -/
structure ParserState where
  pattern : List Char
  pos : Nat
deriving Repr, DecidableEq

/-- `peek()`: `pattern[pos]`, `undefined` past the end. -/
def peek (s : ParserState) : Option Char := s.pattern[s.pos]?

/-- `hasMoreChars()`. -/
def hasMoreChars (s : ParserState) : Bool := s.pos < s.pattern.length

/-- `isMetaChar(ch)`; its argument can be an out-of-bounds `peek()`. -/
def isMetaChar (ch : Option Char) : Bool :=
  ch = some '*' || ch = some '+' || ch = some '?'

/-- `match(ch)`: throws `Unexpected symbol ${ch}` (carrying the expected
character) unless the lookahead equals `ch`, then advances. -/
def matchTok (s : ParserState) (ch : Option Char) : Except ParseError ParserState :=
  if peek s ≠ ch then .error (.unexpectedSymbol ch)
  else .ok { s with pos := s.pos + 1 }

/-- `next()`: read and consume the lookahead.  Past the end of the
pattern this silently consumes nothing and returns `undefined`
(`peek()` and the argument of `match` are both `undefined`, which
compare equal). -/
def next (s : ParserState) : Except ParseError (Option Char × ParserState) := do
  let ch := peek s
  let s1 ← matchTok s ch
  return (ch, s1)

/-- `char()`: `Char -> AnyCharExceptMeta | '\' AnyChar`. -/
def char (s : ParserState) : Except ParseError (TreeNode × ParserState) :=
  if isMetaChar (peek s) then .error (.unexpectedMetaChar (peek s))
  else if peek s = some '\\' then do
    let s1 ← matchTok s (some '\\')
    let (c2, s2) ← next s1
    return (.node (some "Char") [.leaf (some "\\"), .leaf (c2.map String.singleton)], s2)
  else do
    let (c1, s1) ← next s
    return (.node (some "Char") [.leaf (c1.map String.singleton)], s1)

mutual

/-- `expr()`: `Expr -> Term | Term '|' Expr`. -/
def expr : Nat → ParserState → Except ParseError (TreeNode × ParserState)
  | 0, _ => .error .outOfFuel
  | fuel + 1, s => do
    let (trm, s1) ← term fuel s
    if hasMoreChars s1 && (peek s1 = some '|') then do
      let s2 ← matchTok s1 (some '|')
      let (exp, s3) ← expr fuel s2
      return (.node (some "Expr") [trm, .leaf (some "|"), exp], s3)
    else
      return (.node (some "Expr") [trm], s1)

/-- `term()`: `Term -> Factor | Factor Term`. -/
def term : Nat → ParserState → Except ParseError (TreeNode × ParserState)
  | 0, _ => .error .outOfFuel
  | fuel + 1, s => do
    let (factr, s1) ← factor fuel s
    if hasMoreChars s1 && peek s1 ≠ some ')' && peek s1 ≠ some '|' then do
      let (trm, s2) ← term fuel s1
      return (.node (some "Term") [factr, trm], s2)
    else
      return (.node (some "Term") [factr], s1)

/-- `factor()`: `Factor -> Atom | Atom MetaChar`. -/
def factor : Nat → ParserState → Except ParseError (TreeNode × ParserState)
  | 0, _ => .error .outOfFuel
  | fuel + 1, s => do
    let (atm, s1) ← atom fuel s
    if hasMoreChars s1 && isMetaChar (peek s1) then do
      let (meta, s2) ← next s1
      return (.node (some "Factor") [atm, .leaf (meta.map String.singleton)], s2)
    else
      return (.node (some "Factor") [atm], s1)

/-- `atom()`: `Atom -> Char | '(' Expr ')'`. -/
def atom : Nat → ParserState → Except ParseError (TreeNode × ParserState)
  | 0, _ => .error .outOfFuel
  | fuel + 1, s =>
    if peek s = some '(' then do
      let s1 ← matchTok s (some '(')
      let (exp, s2) ← expr fuel s1
      let s3 ← matchTok s2 (some ')')
      return (.node (some "Atom") [.leaf (some "("), exp, .leaf (some ")")], s3)
    else do
      let (ch, s1) ← char s
      return (.node (some "Atom") [ch], s1)

end

/-- `toParseTree(regex)`: set up a fresh scan state and parse an
`Expr`.  Leftover input after the derived `Expr` is ignored, exactly as
in the source. -/
def toParseTree (regex : List Char) : Except ParseError TreeNode := do
  let (t, _) ← expr (7 * regex.length + 1) { pattern := regex, pos := 0 }
  return t

/-! ## The tree-driven compiler -/

/-- `toNFAfromParseTree(root)`: structural recursion on node labels;
a label outside the grammar vocabulary, or a JavaScript `TypeError`
from indexing a missing child, aborts compilation (`none`).  The fuel
is an artifact of embedding the source's general recursion: every
recursive call descends into a strict subtree, so any fuel at least the
tree's depth suffices; `toNFAFromInfixExp` passes `7 * length + 1`,
which is proved sufficient for every tree the parser can produce from
its input (the grammar-derivation lemmas below), so the `none` of
exhausted fuel is never hit from the wrapper. -/
def toNFAfromParseTree : Nat → Arena → TreeNode → Option (Arena × NFA)
  | 0, _, _ => none
  | _ + 1, _, .leaf _ => none
  | fuel + 1, σ, .node l cs =>
    if l = some "Expr" then
      match cs with
      | c0 :: rest => do
        let (σ1, trm) ← toNFAfromParseTree fuel σ c0
        match rest with
        | [_, c2] => do
          let (σ2, n2) ← toNFAfromParseTree fuel σ1 c2
          return union σ2 trm n2
        | _ => return (σ1, trm)
      | [] => none
    else if l = some "Term" then
      match cs with
      | c0 :: rest => do
        let (σ1, factr) ← toNFAfromParseTree fuel σ c0
        match rest with
        | [c1] => do
          let (σ2, n2) ← toNFAfromParseTree fuel σ1 c1
          return concat σ2 factr n2
        | _ => return (σ1, factr)
      | [] => none
    else if l = some "Factor" then
      match cs with
      | c0 :: rest => do
        let (σ1, atm) ← toNFAfromParseTree fuel σ c0
        match rest with
        | [c1] =>
          if c1.labelOf = some "*" then return closure σ1 atm
          else if c1.labelOf = some "+" then return oneOrMore σ1 atm
          else if c1.labelOf = some "?" then return zeroOrOne σ1 atm
          else return (σ1, atm)
        | _ => return (σ1, atm)
      | [] => none
    else if l = some "Atom" then
      match cs with
      | [_, c1, _] => toNFAfromParseTree fuel σ c1
      | c0 :: _ => toNFAfromParseTree fuel σ c0
      | [] => none
    else if l = some "Char" then
      match cs with
      | [_, c1] => return fromSymbol σ (labelKey c1)
      | c0 :: _ => return fromSymbol σ (labelKey c0)
      | [] => none
    else none

/-- `toNFAFromInfixExp(infixExp)`: empty pattern compiles directly to
the epsilon automaton; otherwise parse then compile; any thrown parser
or compiler error yields `none`. -/
def toNFAFromInfixExp (e : List Char) : Option (Arena × NFA) :=
  if e = [] then some (fromEpsilon [])
  else
    match toParseTree e with
    | .ok t => toNFAfromParseTree (7 * e.length + 1) [] t
    | .error _ => none

/-! ## The matching engine -/

mutual

/-- `addNextState(state, nextStates, visited)`: follow epsilon
transitions until reaching states without any, which get appended to
`nextStates`; `visited` guards against epsilon cycles.  The fuel is an
embedding artifact; `arena length + 1` always suffices (proved below
for well-formed arenas). -/
def addNextState (σ : Arena) : Nat → Nat → List Nat → List Nat → List Nat × List Nat
  | 0, _, nextStates, visited => (nextStates, visited)
  | fuel + 1, state, nextStates, visited =>
    if epsOf σ state = [] then (nextStates ++ [state], visited)
    else goEps σ fuel (epsOf σ state) nextStates visited
termination_by fuel _ _ _ => (fuel, 0)

/-- The `for (const st of state.epsilonTransitions)` loop body of
`addNextState`. -/
def goEps (σ : Arena) : Nat → List Nat → List Nat → List Nat → List Nat × List Nat
  | _, [], nextStates, visited => (nextStates, visited)
  | fuel, st :: rest, nextStates, visited =>
    if st ∈ visited then goEps σ fuel rest nextStates visited
    else
      let r := addNextState σ fuel st nextStates (visited ++ [st])
      goEps σ fuel rest r.1 r.2
termination_by fuel l _ _ => (fuel, l.length + 1)

end

/-- The inner loop of `search` for one input symbol: collect, over the
current states, the epsilon closures of the targets of that symbol's
transitions (each closure walk starts with a fresh `visited`). -/
def stepStates (σ : Arena) (currentStates : List Nat) (symbol : Char) : List Nat :=
  currentStates.foldl
    (fun nextStates state =>
      match lookupTrans σ state (String.singleton symbol) with
      | some nextState => (addNextState σ (σ.length + 1) nextState nextStates []).1
      | none => nextStates)
    []

/-- `search(nfa, word)`: active-state-set simulation. -/
def search (σ : Arena) (nfa : NFA) (word : List Char) : Bool :=
  let initial := (addNextState σ (σ.length + 1) nfa.start [] []).1
  let final := word.foldl (stepStates σ) initial
  (final.find? (fun s => (getSt σ s).isEnd)).isSome

/-- `recognize(nfa, word)`. -/
def recognize (σ : Arena) (nfa : NFA) (word : List Char) : Bool :=
  search σ nfa word

/-! ## Arena access lemmas -/

theorem length_modifyState (σ : Arena) (i : Nat) (f : FA_State → FA_State) :
    (modifyState σ i f).length = σ.length := by
  simp [modifyState]

theorem getSt_modify_self {σ : Arena} {i : Nat} (f : FA_State → FA_State)
    (h : i < σ.length) : getSt (modifyState σ i f) i = f (getSt σ i) := by
  simp [modifyState, getSt, List.getElem?_set_self h]

theorem getSt_modify_ne {σ : Arena} {i j : Nat} (f : FA_State → FA_State)
    (h : j ≠ i) : getSt (modifyState σ i f) j = getSt σ j := by
  simp [modifyState, getSt, List.getElem?_set_ne (Ne.symm h)]

theorem getSt_append_lt {σ : Arena} (l : List FA_State) {i : Nat} (h : i < σ.length) :
    getSt (σ ++ l) i = getSt σ i := by
  simp [getSt, List.getElem?_append_left h]

theorem getSt_append_len (σ : Arena) (st : FA_State) :
    getSt (σ ++ [st]) σ.length = st := by
  simp [getSt, List.getElem?_concat_length]

theorem getSt_oob {σ : Arena} {i : Nat} (h : σ.length ≤ i) :
    getSt σ i = ⟨false, [], []⟩ := by
  simp [getSt, List.getElem?_eq_none h]

/-- All transition targets of a state: epsilon targets then symbol targets. -/
def targetsOf (σ : Arena) (i : Nat) : List Nat :=
  epsOf σ i ++ (transOf σ i).map Prod.snd

theorem mem_targets_of_eps {σ : Arena} {i j : Nat} (h : j ∈ epsOf σ i) :
    j ∈ targetsOf σ i := List.mem_append_left _ h

theorem mem_targets_of_lookup {σ : Arena} {i j : Nat} {key : String}
    (h : lookupTrans σ i key = some j) : j ∈ targetsOf σ i := by
  apply List.mem_append_right
  rw [lookupTrans, List.lookup_eq_some_iff] at h
  obtain ⟨l₁, l₂, heq, -⟩ := h
  rw [heq]
  exact List.mem_map.mpr ⟨(key, j), by simp, rfl⟩

theorem eps_eq_of_targets_nil {σ : Arena} {i : Nat} (h : targetsOf σ i = []) :
    epsOf σ i = [] := by
  rcases List.append_eq_nil.mp h with ⟨h1, -⟩
  exact h1

theorem lookup_eq_none_of_targets_nil {σ : Arena} {i : Nat} (h : targetsOf σ i = [])
    (key : String) : lookupTrans σ i key = none := by
  rcases List.append_eq_nil.mp h with ⟨-, h2⟩
  rcases List.map_eq_nil_iff.mp h2 with h3
  simp [lookupTrans, h3]

theorem length_addEps (σ : Arena) (src dst : Nat) :
    (addEpsilonTransition σ src dst).length = σ.length := by
  simp [addEpsilonTransition, length_modifyState]

theorem getSt_addEps_self {σ : Arena} {src : Nat} (dst : Nat) (h : src < σ.length) :
    getSt (addEpsilonTransition σ src dst) src =
      { getSt σ src with
        epsilonTransitions := (getSt σ src).epsilonTransitions ++ [dst] } := by
  rw [addEpsilonTransition, getSt_modify_self _ h]

theorem getSt_addEps_ne {σ : Arena} {src i : Nat} (dst : Nat) (h : i ≠ src) :
    getSt (addEpsilonTransition σ src dst) i = getSt σ i := by
  rw [addEpsilonTransition, getSt_modify_ne _ h]

theorem length_addTrans (σ : Arena) (src dst : Nat) (key : String) :
    (addTransition σ src dst key).length = σ.length := by
  simp [addTransition, length_modifyState]

theorem getSt_addTrans_self {σ : Arena} {src : Nat} (dst : Nat) (key : String)
    (h : src < σ.length) :
    getSt (addTransition σ src dst key) src =
      { getSt σ src with transition := (key, dst) :: (getSt σ src).transition } := by
  rw [addTransition, getSt_modify_self _ h]

theorem getSt_addTrans_ne {σ : Arena} {src i : Nat} (dst : Nat) (key : String)
    (h : i ≠ src) : getSt (addTransition σ src dst key) i = getSt σ i := by
  rw [addTransition, getSt_modify_ne _ h]

theorem getSt_append_two_left (σ : Arena) (a b : FA_State) :
    getSt (σ ++ [a, b]) σ.length = a := by
  simp [getSt, List.getElem?_append_right (Nat.le_refl σ.length)]

theorem getSt_append_two_right (σ : Arena) (a b : FA_State) :
    getSt (σ ++ [a, b]) (σ.length + 1) = b := by
  have h : σ.length ≤ σ.length + 1 := Nat.le_succ _
  simp [getSt, List.getElem?_append_right h]

/-! ## Shape of each construction primitive

For every primitive the lemmas below describe the resulting arena
pointwise: its length, the returned fragment, the two fresh states, and
that every other state is unchanged. -/

theorem fromEpsilon_shape (σ : Arena) :
    (fromEpsilon σ).1.length = σ.length + 2 ∧
    (fromEpsilon σ).2 = ⟨σ.length, σ.length + 1⟩ ∧
    getSt (fromEpsilon σ).1 σ.length = ⟨false, [], [σ.length + 1]⟩ ∧
    getSt (fromEpsilon σ).1 (σ.length + 1) = ⟨true, [], []⟩ ∧
    ∀ i < σ.length, getSt (fromEpsilon σ).1 i = getSt σ i := by
  have hσ : (fromEpsilon σ).1 =
      addEpsilonTransition (σ ++ [⟨false, [], []⟩, ⟨true, [], []⟩])
        σ.length (σ.length + 1) := by
    simp [fromEpsilon, createState]
  have hlen : (σ ++ [(⟨false, [], []⟩ : FA_State), ⟨true, [], []⟩]).length = σ.length + 2 := by
    simp
  refine ⟨?_, ?_, ?_, ?_, ?_⟩
  · rw [hσ, length_addEps, hlen]
  · simp [fromEpsilon, createState]
  · rw [hσ, getSt_addEps_self _ (by omega), getSt_append_two_left]
    rfl
  · rw [hσ, getSt_addEps_ne _ (by omega), getSt_append_two_right]
  · intro i hi
    rw [hσ, getSt_addEps_ne _ (by omega), getSt_append_lt _ hi]

theorem fromSymbol_shape (σ : Arena) (key : String) :
    (fromSymbol σ key).1.length = σ.length + 2 ∧
    (fromSymbol σ key).2 = ⟨σ.length, σ.length + 1⟩ ∧
    getSt (fromSymbol σ key).1 σ.length = ⟨false, [(key, σ.length + 1)], []⟩ ∧
    getSt (fromSymbol σ key).1 (σ.length + 1) = ⟨true, [], []⟩ ∧
    ∀ i < σ.length, getSt (fromSymbol σ key).1 i = getSt σ i := by
  have hσ : (fromSymbol σ key).1 =
      addTransition (σ ++ [⟨false, [], []⟩, ⟨true, [], []⟩])
        σ.length (σ.length + 1) key := by
    simp [fromSymbol, createState]
  refine ⟨?_, ?_, ?_, ?_, ?_⟩
  · rw [hσ, length_addTrans]; simp
  · simp [fromSymbol, createState]
  · rw [hσ, getSt_addTrans_self _ _ (by simp), getSt_append_two_left]
  · rw [hσ, getSt_addTrans_ne _ _ (by omega), getSt_append_two_right]
  · intro i hi
    rw [hσ, getSt_addTrans_ne _ _ (by omega), getSt_append_lt _ hi]

theorem concat_shape (σ : Arena) (A B : NFA) (hAe : A.endState < σ.length) :
    (concat σ A B).1.length = σ.length ∧
    (concat σ A B).2 = ⟨A.start, B.endState⟩ ∧
    getSt (concat σ A B).1 A.endState =
      ⟨false, (getSt σ A.endState).transition,
        (getSt σ A.endState).epsilonTransitions ++ [B.start]⟩ ∧
    ∀ i, i ≠ A.endState → getSt (concat σ A B).1 i = getSt σ i := by
  have hσ : (concat σ A B).1 =
      modifyState (addEpsilonTransition σ A.endState B.start) A.endState
        (fun s => { s with isEnd := false }) := by
    simp [concat]
  refine ⟨?_, ?_, ?_, ?_⟩
  · rw [hσ, length_modifyState, length_addEps]
  · simp [concat]
  · rw [hσ, getSt_modify_self _ (by rw [length_addEps]; exact hAe),
      getSt_addEps_self _ hAe]
  · intro i hi
    rw [hσ, getSt_modify_ne _ hi, getSt_addEps_ne _ hi]

theorem getSt_snoc_len {X : Arena} {m : Nat} (t : FA_State) (h : X.length = m) :
    getSt (X ++ [t]) m = t := by
  subst h; exact getSt_append_len X t

theorem union_shape (σ : Arena) (A B : NFA)
    (hAe : A.endState < σ.length) (hBe : B.endState < σ.length)
    (hne : A.endState ≠ B.endState) :
    (union σ A B).1.length = σ.length + 2 ∧
    (union σ A B).2 = ⟨σ.length, σ.length + 1⟩ ∧
    getSt (union σ A B).1 σ.length = ⟨false, [], [A.start, B.start]⟩ ∧
    getSt (union σ A B).1 (σ.length + 1) = ⟨true, [], []⟩ ∧
    getSt (union σ A B).1 A.endState =
      ⟨false, (getSt σ A.endState).transition,
        (getSt σ A.endState).epsilonTransitions ++ [σ.length + 1]⟩ ∧
    getSt (union σ A B).1 B.endState =
      ⟨false, (getSt σ B.endState).transition,
        (getSt σ B.endState).epsilonTransitions ++ [σ.length + 1]⟩ ∧
    ∀ i < σ.length, i ≠ A.endState → i ≠ B.endState →
      getSt (union σ A B).1 i = getSt σ i := by
  simp only [union, createState]
  refine ⟨?_, ?_, ?_, ?_, ?_, ?_, ?_⟩
  · simp [length_modifyState, length_addEps]
  · simp [length_addEps]
  · rw [getSt_modify_ne _ (by omega), getSt_addEps_ne _ (by omega),
      getSt_modify_ne _ (by omega), getSt_addEps_ne _ (by omega),
      getSt_append_lt _ (by simp [length_addEps]),
      getSt_addEps_self _ (by simp [length_addEps]),
      getSt_addEps_self _ (by simp),
      getSt_append_len]
    simp
  · rw [getSt_modify_ne _ (by omega), getSt_addEps_ne _ (by omega),
      getSt_modify_ne _ (by omega), getSt_addEps_ne _ (by omega),
      getSt_snoc_len _ (by simp [length_addEps])]
  · rw [getSt_modify_ne _ hne, getSt_addEps_ne _ hne,
      getSt_modify_self _ (by simp [length_addEps]; omega),
      getSt_addEps_self _ (by simp [length_addEps]; omega),
      getSt_append_lt _ (by simp [length_addEps]; omega),
      getSt_addEps_ne _ (by omega), getSt_addEps_ne _ (by omega),
      getSt_append_lt _ hAe]
    simp [length_addEps]
  · rw [getSt_modify_self _ (by simp [length_modifyState, length_addEps]; omega),
      getSt_addEps_self _ (by simp [length_modifyState, length_addEps]; omega),
      getSt_modify_ne _ (Ne.symm hne), getSt_addEps_ne _ (Ne.symm hne),
      getSt_append_lt _ (by simp [length_addEps]; omega),
      getSt_addEps_ne _ (by omega), getSt_addEps_ne _ (by omega),
      getSt_append_lt _ hBe]
    simp [length_addEps]
  · intro i hi hiA hiB
    rw [getSt_modify_ne _ hiB, getSt_addEps_ne _ hiB,
      getSt_modify_ne _ hiA, getSt_addEps_ne _ hiA,
      getSt_append_lt _ (by simp [length_addEps]; omega),
      getSt_addEps_ne _ (by omega), getSt_addEps_ne _ (by omega),
      getSt_append_lt _ hi]

theorem closure_shape (σ : Arena) (A : NFA) (hAe : A.endState < σ.length) :
    (closure σ A).1.length = σ.length + 2 ∧
    (closure σ A).2 = ⟨σ.length, σ.length + 1⟩ ∧
    getSt (closure σ A).1 σ.length = ⟨false, [], [σ.length + 1, A.start]⟩ ∧
    getSt (closure σ A).1 (σ.length + 1) = ⟨true, [], []⟩ ∧
    getSt (closure σ A).1 A.endState =
      ⟨false, (getSt σ A.endState).transition,
        (getSt σ A.endState).epsilonTransitions ++ [σ.length + 1, A.start]⟩ ∧
    ∀ i < σ.length, i ≠ A.endState → getSt (closure σ A).1 i = getSt σ i := by
  simp only [closure, createState]
  refine ⟨?_, ?_, ?_, ?_, ?_, ?_⟩
  · simp [length_modifyState, length_addEps]
  · simp [length_addEps]
  · rw [getSt_modify_ne _ (by omega), getSt_addEps_ne _ (by omega),
      getSt_addEps_ne _ (by omega),
      getSt_addEps_self _ (by simp [length_addEps]),
      getSt_addEps_self _ (by simp),
      getSt_append_lt _ (by simp), getSt_append_len]
    simp
  · rw [getSt_modify_ne _ (by omega), getSt_addEps_ne _ (by omega),
      getSt_addEps_ne _ (by omega),
      getSt_addEps_ne _ (by omega), getSt_addEps_ne _ (by omega),
      getSt_snoc_len _ (by simp)]
  · rw [getSt_modify_self _ (by simp [length_addEps]; omega),
      getSt_addEps_self _ (by simp [length_addEps]; omega),
      getSt_addEps_self _ (by simp [length_addEps]; omega),
      getSt_addEps_ne _ (by omega), getSt_addEps_ne _ (by omega),
      getSt_append_lt _ (by simp; omega), getSt_append_lt _ hAe]
    simp
  · intro i hi hiA
    rw [getSt_modify_ne _ hiA, getSt_addEps_ne _ hiA, getSt_addEps_ne _ hiA,
      getSt_addEps_ne _ (by omega), getSt_addEps_ne _ (by omega),
      getSt_append_lt _ (by simp; omega), getSt_append_lt _ hi]

theorem zeroOrOne_shape (σ : Arena) (A : NFA) (hAe : A.endState < σ.length) :
    (zeroOrOne σ A).1.length = σ.length + 2 ∧
    (zeroOrOne σ A).2 = ⟨σ.length, σ.length + 1⟩ ∧
    getSt (zeroOrOne σ A).1 σ.length = ⟨false, [], [σ.length + 1, A.start]⟩ ∧
    getSt (zeroOrOne σ A).1 (σ.length + 1) = ⟨true, [], []⟩ ∧
    getSt (zeroOrOne σ A).1 A.endState =
      ⟨false, (getSt σ A.endState).transition,
        (getSt σ A.endState).epsilonTransitions ++ [σ.length + 1]⟩ ∧
    ∀ i < σ.length, i ≠ A.endState → getSt (zeroOrOne σ A).1 i = getSt σ i := by
  simp only [zeroOrOne, createState]
  refine ⟨?_, ?_, ?_, ?_, ?_, ?_⟩
  · simp [length_modifyState, length_addEps]
  · simp [length_addEps]
  · rw [getSt_modify_ne _ (by omega), getSt_addEps_ne _ (by omega),
      getSt_addEps_self _ (by simp [length_addEps]),
      getSt_addEps_self _ (by simp),
      getSt_append_lt _ (by simp), getSt_append_len]
    simp
  · rw [getSt_modify_ne _ (by omega), getSt_addEps_ne _ (by omega),
      getSt_addEps_ne _ (by omega), getSt_addEps_ne _ (by omega),
      getSt_snoc_len _ (by simp)]
  · rw [getSt_modify_self _ (by simp [length_addEps]; omega),
      getSt_addEps_self _ (by simp [length_addEps]; omega),
      getSt_addEps_ne _ (by omega), getSt_addEps_ne _ (by omega),
      getSt_append_lt _ (by simp; omega), getSt_append_lt _ hAe]
    simp
  · intro i hi hiA
    rw [getSt_modify_ne _ hiA, getSt_addEps_ne _ hiA,
      getSt_addEps_ne _ (by omega), getSt_addEps_ne _ (by omega),
      getSt_append_lt _ (by simp; omega), getSt_append_lt _ hi]

theorem oneOrMore_shape (σ : Arena) (A : NFA) (hAe : A.endState < σ.length) :
    (oneOrMore σ A).1.length = σ.length + 2 ∧
    (oneOrMore σ A).2 = ⟨σ.length, σ.length + 1⟩ ∧
    getSt (oneOrMore σ A).1 σ.length = ⟨false, [], [A.start]⟩ ∧
    getSt (oneOrMore σ A).1 (σ.length + 1) = ⟨true, [], []⟩ ∧
    getSt (oneOrMore σ A).1 A.endState =
      ⟨false, (getSt σ A.endState).transition,
        (getSt σ A.endState).epsilonTransitions ++ [σ.length + 1, A.start]⟩ ∧
    ∀ i < σ.length, i ≠ A.endState → getSt (oneOrMore σ A).1 i = getSt σ i := by
  simp only [oneOrMore, createState]
  refine ⟨?_, ?_, ?_, ?_, ?_, ?_⟩
  · simp [length_modifyState, length_addEps]
  · simp [length_addEps]
  · rw [getSt_modify_ne _ (by omega), getSt_addEps_ne _ (by omega),
      getSt_addEps_ne _ (by omega),
      getSt_addEps_self _ (by simp),
      getSt_append_lt _ (by simp), getSt_append_len]
    simp
  · rw [getSt_modify_ne _ (by omega), getSt_addEps_ne _ (by omega),
      getSt_addEps_ne _ (by omega), getSt_addEps_ne _ (by omega),
      getSt_snoc_len _ (by simp)]
  · rw [getSt_modify_self _ (by simp [length_addEps]; omega),
      getSt_addEps_self _ (by simp [length_addEps]; omega),
      getSt_addEps_self _ (by simp [length_addEps]; omega),
      getSt_addEps_ne _ (by omega),
      getSt_append_lt _ (by simp; omega), getSt_append_lt _ hAe]
    simp
  · intro i hi hiA
    rw [getSt_modify_ne _ hiA, getSt_addEps_ne _ hiA, getSt_addEps_ne _ hiA,
      getSt_addEps_ne _ (by omega),
      getSt_append_lt _ (by simp; omega), getSt_append_lt _ hi]

/-! ## Path semantics

`Path σ R i w j` holds when the automaton in arena `σ` can move from
state `i` to state `j` consuming the word `w`, every state from which a
transition is taken lying in the region `R`.  This is the reference
semantics against which the simulation engine and the construction are
verified. -/

inductive Path (σ : Arena) (R : Nat → Prop) : Nat → List Char → Nat → Prop where
  | refl (i : Nat) : Path σ R i [] i
  | eps {i j k : Nat} {w : List Char} (hR : R i) (hmem : j ∈ epsOf σ i)
      (p : Path σ R j w k) : Path σ R i w k
  | step {i j k : Nat} {w : List Char} (c : Char) (hR : R i)
      (hlk : lookupTrans σ i (String.singleton c) = some j)
      (p : Path σ R j w k) : Path σ R i (c :: w) k

theorem Path.mono {σ : Arena} {R R' : Nat → Prop} {s j : Nat} {w : List Char}
    (hR : ∀ i, R i → R' i) (p : Path σ R s w j) : Path σ R' s w j := by
  induction p with
  | refl i => exact .refl i
  | eps h1 h2 _ ih => exact .eps (hR _ h1) h2 ih
  | step c h1 h2 _ ih => exact .step c (hR _ h1) h2 ih

theorem Path.congrArena {σ σ' : Arena} {R : Nat → Prop} {s j : Nat} {w : List Char}
    (hag : ∀ i, R i → getSt σ' i = getSt σ i) (p : Path σ R s w j) :
    Path σ' R s w j := by
  induction p with
  | refl i => exact .refl i
  | eps h1 h2 _ ih =>
    exact .eps h1 (by rwa [epsOf, hag _ h1]) ih
  | step c h1 h2 _ ih =>
    exact .step c h1 (by rwa [lookupTrans, transOf, hag _ h1]) ih

theorem Path.append {σ : Arena} {R : Nat → Prop} {s m j : Nat} {u v : List Char}
    (p : Path σ R s u m) (q : Path σ R m v j) : Path σ R s (u ++ v) j := by
  induction p with
  | refl i => exact q
  | eps h1 h2 _ ih => exact .eps h1 h2 (ih q)
  | step c h1 h2 _ ih => exact .step c h1 h2 (ih q)

theorem Path.stuck {σ : Arena} {R : Nat → Prop} {j k : Nat} {w : List Char}
    (hout : targetsOf σ j = []) (p : Path σ R j w k) : w = [] ∧ k = j := by
  cases p with
  | refl => exact ⟨rfl, rfl⟩
  | eps h1 h2 p =>
    rw [eps_eq_of_targets_nil hout] at h2
    cases h2
  | step c h1 h2 p =>
    rw [lookup_eq_none_of_targets_nil hout] at h2
    cases h2

theorem Path.nil_of_no_eps {σ : Arena} {R : Nat → Prop} {s j : Nat}
    (heps : epsOf σ s = []) (p : Path σ R s [] j) : j = s := by
  cases p with
  | refl => rfl
  | eps h1 h2 p => rw [heps] at h2; cases h2

/-- Paths starting inside a region closed under transitions stay inside
it: the path holds with the region adjoined to the predicate, and the
final state lies in the region. -/
theorem Path.confine {σ : Arena} {Q R : Nat → Prop} {s j : Nat} {w : List Char}
    (hcl : ∀ i, R i → ∀ t ∈ targetsOf σ i, R t)
    (p : Path σ Q s w j) (hs : R s) :
    Path σ (fun i => Q i ∧ R i) s w j ∧ R j := by
  induction p with
  | refl i => exact ⟨.refl i, hs⟩
  | eps h1 h2 _ ih =>
    rename_i i m k w _
    have hm : R m := hcl i hs m (mem_targets_of_eps h2)
    obtain ⟨p', hj⟩ := ih hm
    exact ⟨.eps ⟨h1, hs⟩ h2 p', hj⟩
  | step c h1 h2 _ ih =>
    rename_i i m k w _
    have hm : R m := hcl i hs m (mem_targets_of_lookup h2)
    obtain ⟨p', hj⟩ := ih hm
    exact ⟨.step c ⟨h1, hs⟩ h2 p', hj⟩

/-- Exit decomposition: if every state of region `R` except `e` has all
its targets inside `R`, then a path from inside `R` to outside `R`
splits at `e`: a path inside `R` never leaving through `e`, followed by
the remaining path from `e`. -/
theorem Path.exit {σ : Arena} {Q R : Nat → Prop} {e s j : Nat} {w : List Char}
    (hcl : ∀ i, R i → i ≠ e → ∀ t ∈ targetsOf σ i, R t)
    (p : Path σ Q s w j) :
    R s → ¬ R j →
    ∃ u v, w = u ++ v ∧ Path σ (fun i => Q i ∧ R i ∧ i ≠ e) s u e ∧ Path σ Q e v j := by
  induction p with
  | refl i => exact fun hs hj => absurd hs hj
  | @eps i m k w h1 h2 sub ih =>
    intro hs hj
    by_cases hie : i = e
    · subst hie
      exact ⟨[], w, rfl, .refl _, .eps h1 h2 sub⟩
    · have hm : R m := hcl i hs hie m (mem_targets_of_eps h2)
      obtain ⟨u, v, rfl, p1, p2⟩ := ih hm hj
      exact ⟨u, v, rfl, .eps ⟨h1, hs, hie⟩ h2 p1, p2⟩
  | @step i m k w c h1 h2 sub ih =>
    intro hs hj
    by_cases hie : i = e
    · subst hie
      exact ⟨[], _, rfl, .refl _, .step c h1 h2 sub⟩
    · have hm : R m := hcl i hs hie m (mem_targets_of_lookup h2)
      obtain ⟨u, v, rfl, p1, p2⟩ := ih hm hj
      exact ⟨c :: u, v, rfl, .step c ⟨h1, hs, hie⟩ h2 p1, p2⟩

/-- Decomposition of a path at its last consumed symbol. -/
theorem Path.snoc_decomp {σ : Arena} {R : Nat → Prop} {s j : Nat} {w : List Char}
    {c : Char} (p : Path σ R s w j) :
    ∀ u, w = u ++ [c] →
    ∃ x y, Path σ R s u x ∧ R x ∧ lookupTrans σ x (String.singleton c) = some y ∧
      Path σ R y [] j := by
  induction p with
  | refl i =>
    intro u hw
    exact absurd hw.symm (List.append_ne_nil_of_right_ne_nil u (by simp))
  | @eps i m k w h1 h2 _ ih =>
    intro u hw
    obtain ⟨x, y, p1, hx, hlk, p2⟩ := ih u hw
    exact ⟨x, y, .eps h1 h2 p1, hx, hlk, p2⟩
  | @step i m k w' c' h1 h2 sub ih =>
    intro u hw
    cases u with
    | nil =>
      simp only [List.nil_append, List.cons.injEq] at hw
      obtain ⟨rfl, rfl⟩ := hw
      exact ⟨i, m, .refl i, h1, h2, sub⟩
    | cons u0 u' =>
      simp only [List.cons_append, List.cons.injEq] at hw
      obtain ⟨rfl, hw'⟩ := hw
      obtain ⟨x, y, p1, hx, hlk, p2⟩ := ih u' hw'
      exact ⟨x, y, .step c' h1 h2 p1, hx, hlk, p2⟩

/-! ## Construction invariants -/

/-- Well-formedness maintained by the construction: all transition
targets are allocated; a state with epsilon transitions carries no
symbol transition; at most two epsilon targets per state. -/
def GoodArena (σ : Arena) : Prop :=
  ∀ i, i < σ.length →
    (∀ j ∈ targetsOf σ i, j < σ.length) ∧
    (epsOf σ i ≠ [] → transOf σ i = []) ∧
    (epsOf σ i).length ≤ 2

instance (σ : Arena) : Decidable (GoodArena σ) := by
  unfold GoodArena; infer_instance

/-- The structural invariant of a constructed fragment whose states
occupy the region `R` of arena indices: start and end lie in `R`, all
transitions out of `R` states stay in `R`, the end state has no
outgoing transitions, and it is the unique accepting state of `R`. -/
def IsFrag (σ : Arena) (R : Finset Nat) (f : NFA) : Prop :=
  (∀ i ∈ R, i < σ.length) ∧
  f.start ∈ R ∧
  f.endState ∈ R ∧
  f.start ≠ f.endState ∧
  (∀ i ∈ R, ∀ j ∈ targetsOf σ i, j ∈ R) ∧
  targetsOf σ f.endState = [] ∧
  (getSt σ f.endState).isEnd = true ∧
  (∀ i ∈ R, (getSt σ i).isEnd = true → i = f.endState)

instance (σ : Arena) (R : Finset Nat) (f : NFA) : Decidable (IsFrag σ R f) := by
  unfold IsFrag; infer_instance

/-- The words on which a fragment moves from its start to its end state
inside its own region. -/
def FragLang (σ : Arena) (R : Finset Nat) (f : NFA) (w : List Char) : Prop :=
  Path σ (fun i => i ∈ R) f.start w f.endState

theorem targetsOf_congr {σ σ' : Arena} {i : Nat} (h : getSt σ' i = getSt σ i) :
    targetsOf σ' i = targetsOf σ i := by
  simp [targetsOf, epsOf, transOf, h]

theorem IsFrag.transportFrag {σ σ' : Arena} {R : Finset Nat} {f : NFA}
    (h : IsFrag σ R f) (hlen : σ.length ≤ σ'.length)
    (hag : ∀ i ∈ R, getSt σ' i = getSt σ i) : IsFrag σ' R f := by
  obtain ⟨hb, hs, he, hne, hcl, hout, hacc, huniq⟩ := h
  refine ⟨fun i hi => lt_of_lt_of_le (hb i hi) hlen, hs, he, hne, ?_, ?_, ?_, ?_⟩
  · intro i hi j hj
    rw [targetsOf_congr (hag i hi)] at hj
    exact hcl i hi j hj
  · rw [targetsOf_congr (hag _ he)]; exact hout
  · rw [hag _ he]; exact hacc
  · intro i hi hiE
    rw [hag i hi] at hiE
    exact huniq i hi hiE

theorem FragLang.transportLang {σ σ' : Arena} {R : Finset Nat} {f : NFA} {w : List Char}
    (hag : ∀ i ∈ R, getSt σ' i = getSt σ i) :
    FragLang σ R f w ↔ FragLang σ' R f w :=
  ⟨Path.congrArena hag, Path.congrArena (fun i hi => (hag i hi).symm)⟩

/-! ## Specification of the primitives -/

theorem fromEpsilon_spec (σ : Arena) (hG : GoodArena σ) :
    (fromEpsilon σ).1.length = σ.length + 2 ∧
    (fromEpsilon σ).2 = ⟨σ.length, σ.length + 1⟩ ∧
    GoodArena (fromEpsilon σ).1 ∧
    (∀ i < σ.length, getSt (fromEpsilon σ).1 i = getSt σ i) ∧
    IsFrag (fromEpsilon σ).1 (Finset.Ico σ.length (σ.length + 2)) (fromEpsilon σ).2 ∧
    ∀ w, FragLang (fromEpsilon σ).1 (Finset.Ico σ.length (σ.length + 2)) (fromEpsilon σ).2 w
      ↔ w = [] := by
  obtain ⟨hlen, hres, hstart, hend, hold⟩ := fromEpsilon_shape σ
  have hts : targetsOf (fromEpsilon σ).1 σ.length = [σ.length + 1] := by
    simp [targetsOf, epsOf, transOf, hstart]
  have hte : targetsOf (fromEpsilon σ).1 (σ.length + 1) = [] := by
    simp [targetsOf, epsOf, transOf, hend]
  refine ⟨hlen, hres, ?_, hold, ?_, ?_⟩
  · intro i hi
    rw [hlen] at hi
    rcases Nat.lt_or_ge i σ.length with h | h
    · have hg := hG i h
      rw [targetsOf_congr (hold i h)]
      rw [epsOf, transOf, hold i h]
      exact ⟨fun j hj => lt_of_lt_of_le (hg.1 j hj) (by omega), hg.2.1, hg.2.2⟩
    · rcases (by omega : i = σ.length ∨ i = σ.length + 1) with rfl | rfl
      · rw [hts, epsOf, transOf, hstart]
        refine ⟨?_, ?_, ?_⟩ <;> simp [hlen]
      · rw [hte, epsOf, transOf, hend]
        refine ⟨?_, ?_, ?_⟩ <;> simp [hlen]
  · rw [hres]
    refine ⟨?_, ?_, ?_, ?_, ?_, ?_, ?_, ?_⟩
    · intro i hi
      rw [Finset.mem_Ico] at hi
      omega
    · simp
    · simp
    · simp
    · intro i hi j hj
      rw [Finset.mem_Ico] at hi
      rcases (by omega : i = σ.length ∨ i = σ.length + 1) with rfl | rfl
      · rw [hts] at hj
        simp only [List.mem_singleton] at hj
        subst hj
        simp [Finset.mem_Ico]
      · rw [hte] at hj
        cases hj
    · exact hte
    · rw [hend]
    · intro i hi hiE
      rw [Finset.mem_Ico] at hi
      rcases (by omega : i = σ.length ∨ i = σ.length + 1) with rfl | rfl
      · rw [hstart] at hiE
        cases hiE
      · rfl
  · intro w
    rw [hres]
    constructor
    · intro p
      generalize he : σ.length + 1 = e at p
      cases p with
      | refl => omega
      | eps h1 h2 sub =>
        rw [epsOf, hstart] at h2
        simp only [List.mem_singleton] at h2
        subst h2
        exact (Path.stuck hte sub).1
      | step c h1 h2 sub =>
        rw [lookupTrans, transOf, hstart] at h2
        cases h2
    · rintro rfl
      refine .eps ?_ ?_ (.refl _)
      · simp [Finset.mem_Ico]
      · rw [epsOf, hstart]; simp

theorem fromSymbol_spec (σ : Arena) (key : String) (hG : GoodArena σ) :
    (fromSymbol σ key).1.length = σ.length + 2 ∧
    (fromSymbol σ key).2 = ⟨σ.length, σ.length + 1⟩ ∧
    GoodArena (fromSymbol σ key).1 ∧
    (∀ i < σ.length, getSt (fromSymbol σ key).1 i = getSt σ i) ∧
    IsFrag (fromSymbol σ key).1 (Finset.Ico σ.length (σ.length + 2)) (fromSymbol σ key).2 ∧
    ∀ w, FragLang (fromSymbol σ key).1 (Finset.Ico σ.length (σ.length + 2))
        (fromSymbol σ key).2 w
      ↔ ∃ c : Char, w = [c] ∧ String.singleton c = key := by
  obtain ⟨hlen, hres, hstart, hend, hold⟩ := fromSymbol_shape σ key
  have hts : targetsOf (fromSymbol σ key).1 σ.length = [σ.length + 1] := by
    simp [targetsOf, epsOf, transOf, hstart]
  have hte : targetsOf (fromSymbol σ key).1 (σ.length + 1) = [] := by
    simp [targetsOf, epsOf, transOf, hend]
  refine ⟨hlen, hres, ?_, hold, ?_, ?_⟩
  · intro i hi
    rw [hlen] at hi
    rcases Nat.lt_or_ge i σ.length with h | h
    · have hg := hG i h
      rw [targetsOf_congr (hold i h)]
      rw [epsOf, transOf, hold i h]
      exact ⟨fun j hj => lt_of_lt_of_le (hg.1 j hj) (by omega), hg.2.1, hg.2.2⟩
    · rcases (by omega : i = σ.length ∨ i = σ.length + 1) with rfl | rfl
      · rw [hts, epsOf, transOf, hstart]
        refine ⟨?_, ?_, ?_⟩ <;> simp [hlen]
      · rw [hte, epsOf, transOf, hend]
        refine ⟨?_, ?_, ?_⟩ <;> simp [hlen]
  · rw [hres]
    refine ⟨?_, ?_, ?_, ?_, ?_, ?_, ?_, ?_⟩
    · intro i hi
      rw [Finset.mem_Ico] at hi
      omega
    · simp
    · simp
    · simp
    · intro i hi j hj
      rw [Finset.mem_Ico] at hi
      rcases (by omega : i = σ.length ∨ i = σ.length + 1) with rfl | rfl
      · rw [hts] at hj
        simp only [List.mem_singleton] at hj
        subst hj
        simp [Finset.mem_Ico]
      · rw [hte] at hj
        cases hj
    · exact hte
    · rw [hend]
    · intro i hi hiE
      rw [Finset.mem_Ico] at hi
      rcases (by omega : i = σ.length ∨ i = σ.length + 1) with rfl | rfl
      · rw [hstart] at hiE
        cases hiE
      · rfl
  · intro w
    rw [hres]
    constructor
    · intro p
      generalize he : σ.length + 1 = e at p
      cases p with
      | refl => omega
      | eps h1 h2 sub =>
        rw [epsOf, hstart] at h2
        cases h2
      | step c h1 h2 sub =>
        rw [lookupTrans, transOf, hstart] at h2
        by_cases hc : key = String.singleton c
        · rw [hc, List.lookup_cons_self] at h2
          injection h2 with h2
          subst h2
          have hw := (Path.stuck hte sub).1
          subst hw
          exact ⟨c, rfl, hc.symm⟩
        · have hbeq : (String.singleton c == key) = false :=
            beq_eq_false_iff_ne.mpr (fun h => hc h.symm)
          rw [show List.lookup (String.singleton c) [(key, σ.length + 1)] = none by
            simp [List.lookup_cons, hbeq]] at h2
          cases h2
    · rintro ⟨c, rfl, hkey⟩
      refine .step c ?_ ?_ (.refl _)
      · simp [Finset.mem_Ico]
      · rw [lookupTrans, transOf, hstart, ← hkey]
        simp

theorem trans_eq_of_targets_nil {σ : Arena} {i : Nat} (h : targetsOf σ i = []) :
    transOf σ i = [] := by
  rcases List.append_eq_nil.mp h with ⟨-, h2⟩
  exact List.map_eq_nil_iff.mp h2

/-- Inversion for a state with a single epsilon transition and no
symbol transitions. -/
theorem Path.single_eps_inv {σ : Arena} {R : Nat → Prop} {i m j : Nat} {w : List Char}
    (heps : epsOf σ i = [m]) (htr : transOf σ i = []) (hne : j ≠ i)
    (p : Path σ R i w j) : R i ∧ Path σ R m w j := by
  cases p with
  | refl => exact absurd rfl hne
  | eps h1 h2 sub =>
    rw [heps] at h2
    simp only [List.mem_singleton] at h2
    subst h2
    exact ⟨h1, sub⟩
  | step c h1 h2 sub =>
    rw [lookupTrans, htr] at h2
    cases h2

/-- A path into a state with no outgoing transitions never uses that
state as a source. -/
theorem Path.avoid_end {σ : Arena} {R : Nat → Prop} {s e : Nat} {w : List Char}
    (p : Path σ R s w e) : targetsOf σ e = [] →
    Path σ (fun i => R i ∧ i ≠ e) s w e := by
  induction p with
  | refl i => exact fun _ => .refl i
  | @eps i m k w h1 h2 sub ih =>
    intro hout
    have hie : i ≠ k := by
      rintro rfl
      rw [eps_eq_of_targets_nil hout] at h2
      cases h2
    exact .eps ⟨h1, hie⟩ h2 (ih hout)
  | @step i m k w c h1 h2 sub ih =>
    intro hout
    have hie : i ≠ k := by
      rintro rfl
      rw [lookup_eq_none_of_targets_nil hout _] at h2
      cases h2
    exact .step c ⟨h1, hie⟩ h2 (ih hout)

theorem concat_spec (σ : Arena) (A B : NFA) {RA RB : Finset Nat}
    (hG : GoodArena σ) (hA : IsFrag σ RA A) (hB : IsFrag σ RB B)
    (hD : Disjoint RA RB) :
    (concat σ A B).1.length = σ.length ∧
    (concat σ A B).2 = ⟨A.start, B.endState⟩ ∧
    GoodArena (concat σ A B).1 ∧
    (∀ i, i ≠ A.endState → getSt (concat σ A B).1 i = getSt σ i) ∧
    IsFrag (concat σ A B).1 (RA ∪ RB) (concat σ A B).2 ∧
    ∀ w, FragLang (concat σ A B).1 (RA ∪ RB) (concat σ A B).2 w ↔
      ∃ u v, w = u ++ v ∧ FragLang σ RA A u ∧ FragLang σ RB B v := by
  obtain ⟨hAb, hAs, hAe, hAne, hAcl, hAout, hAacc, hAuniq⟩ := hA
  obtain ⟨hBb, hBs, hBe, hBne, hBcl, hBout, hBacc, hBuniq⟩ := hB
  have hAeB : A.endState ∉ RB := Finset.disjoint_left.mp hD hAe
  have hBeA : B.endState ∉ RA := Finset.disjoint_right.mp hD hBe
  have hBsA : B.start ∉ RA := Finset.disjoint_right.mp hD hBs
  have hAen : A.endState < σ.length := hAb _ hAe
  obtain ⟨hlen, hres, hEnd, hold⟩ := concat_shape σ A B hAen
  have he0 : (getSt σ A.endState).epsilonTransitions = [] :=
    eps_eq_of_targets_nil hAout
  have ht0 : (getSt σ A.endState).transition = [] :=
    trans_eq_of_targets_nil hAout
  have hEnd' : getSt (concat σ A B).1 A.endState = ⟨false, [], [B.start]⟩ := by
    rw [hEnd, he0, ht0]
    rfl
  have htAe : targetsOf (concat σ A B).1 A.endState = [B.start] := by
    simp [targetsOf, epsOf, transOf, hEnd']
  have hABne : A.endState ≠ B.endState := by
    intro h
    exact hAeB (by rw [h]; exact hBe)
  refine ⟨hlen, hres, ?_, hold, ?_, ?_⟩
  · intro i hi
    rw [hlen] at hi
    by_cases hiA : i = A.endState
    · subst hiA
      rw [htAe, epsOf, transOf, hEnd']
      refine ⟨?_, ?_, ?_⟩ <;> simp [hlen]
      exact lt_of_lt_of_le (hBb _ hBs) (le_refl _)
    · have hg := hG i hi
      rw [targetsOf_congr (hold i hiA), epsOf, transOf, hold i hiA]
      exact ⟨fun j hj => by rw [hlen]; exact hg.1 j hj, hg.2.1, hg.2.2⟩
  · rw [hres]
    refine ⟨?_, ?_, ?_, ?_, ?_, ?_, ?_, ?_⟩
    · intro i hi
      rw [hlen]
      rcases Finset.mem_union.mp hi with h | h
      · exact hAb i h
      · exact hBb i h
    · exact Finset.mem_union_left _ hAs
    · exact Finset.mem_union_right _ hBe
    · intro h
      exact hBeA (by rw [← h]; exact hAs)
    · intro i hi j hj
      rcases Finset.mem_union.mp hi with h | h
      · by_cases hiA : i = A.endState
        · subst hiA
          rw [htAe] at hj
          simp only [List.mem_singleton] at hj
          subst hj
          exact Finset.mem_union_right _ hBs
        · rw [targetsOf_congr (hold i hiA)] at hj
          exact Finset.mem_union_left _ (hAcl i h j hj)
      · have hiA : i ≠ A.endState := by rintro rfl; exact hAeB h
        rw [targetsOf_congr (hold i hiA)] at hj
        exact Finset.mem_union_right _ (hBcl i h j hj)
    · rw [targetsOf_congr (hold _ (Ne.symm hABne))]
      exact hBout
    · rw [hold _ (Ne.symm hABne)]
      exact hBacc
    · intro i hi hiE
      rcases Finset.mem_union.mp hi with h | h
      · by_cases hiA : i = A.endState
        · subst hiA
          rw [hEnd'] at hiE
          cases hiE
        · rw [hold i hiA] at hiE
          exact absurd (hAuniq i h hiE) hiA
      · have hiA : i ≠ A.endState := by rintro rfl; exact hAeB h
        rw [hold i hiA] at hiE
        exact hBuniq i h hiE
  · intro w
    rw [hres]
    constructor
    · intro p
      have hcl' : ∀ i, i ∈ RA → i ≠ A.endState →
          ∀ t ∈ targetsOf (concat σ A B).1 i, t ∈ RA := by
        intro i hi hne t ht
        rw [targetsOf_congr (hold i hne)] at ht
        exact hAcl i hi t ht
      obtain ⟨u, v, rfl, p1, p2⟩ := Path.exit hcl' p hAs hBeA
      refine ⟨u, v, rfl, ?_, ?_⟩
      · have p1' : Path σ (fun i =>
            (i ∈ RA ∪ RB) ∧ i ∈ RA ∧ i ≠ A.endState) A.start u A.endState :=
          Path.congrArena (fun i hi => (hold i hi.2.2).symm) p1
        exact p1'.mono (fun i hi => hi.2.1)
      · obtain ⟨-, p2'⟩ := Path.single_eps_inv
          (by rw [epsOf, hEnd']) (by rw [transOf, hEnd'])
          (by intro h; exact hAeB (by rw [← h]; exact hBe)) p2
        have hclB : ∀ i, i ∈ RB → ∀ t ∈ targetsOf (concat σ A B).1 i, t ∈ RB := by
          intro i hi t ht
          have hne : i ≠ A.endState := by rintro rfl; exact hAeB hi
          rw [targetsOf_congr (hold i hne)] at ht
          exact hBcl i hi t ht
        obtain ⟨p2'', -⟩ := Path.confine hclB p2' hBs
        have p2''' : Path σ (fun i => (i ∈ RA ∪ RB) ∧ i ∈ RB) B.start v B.endState :=
          Path.congrArena (fun i hi =>
            (hold i (by rintro rfl; exact hAeB hi.2)).symm) p2''
        exact p2'''.mono (fun i hi => hi.2)
    · rintro ⟨u, v, rfl, pu, pv⟩
      have pu' := Path.avoid_end pu hAout
      have pu'' : Path (concat σ A B).1
          (fun i => i ∈ RA ∧ i ≠ A.endState) A.start u A.endState :=
        Path.congrArena (fun i hi => hold i hi.2) pu'
      have pv' : Path (concat σ A B).1 (fun i => i ∈ RB) B.start v B.endState :=
        Path.congrArena (fun i hi => hold i (by rintro rfl; exact hAeB hi)) pv
      refine Path.append
        (pu''.mono (fun i hi => Finset.mem_union_left _ hi.1)) ?_
      refine .eps (Finset.mem_union_left _ hAe) ?_
        (pv'.mono (fun i hi => Finset.mem_union_right _ hi))
      simp [epsOf, hEnd']

/-- Inversion for a state with exactly two epsilon transitions and no
symbol transitions. -/
theorem Path.double_eps_inv {σ : Arena} {R : Nat → Prop} {i m1 m2 j : Nat}
    {w : List Char} (heps : epsOf σ i = [m1, m2]) (htr : transOf σ i = [])
    (hne : j ≠ i) (p : Path σ R i w j) :
    R i ∧ (Path σ R m1 w j ∨ Path σ R m2 w j) := by
  cases p with
  | refl => exact absurd rfl hne
  | eps h1 h2 sub =>
    rw [heps] at h2
    simp only [List.mem_cons, List.mem_singleton, List.not_mem_nil, or_false] at h2
    rcases h2 with rfl | rfl
    · exact ⟨h1, Or.inl sub⟩
    · exact ⟨h1, Or.inr sub⟩
  | step c h1 h2 sub =>
    rw [lookupTrans, htr] at h2
    cases h2

theorem union_spec (σ : Arena) (A B : NFA) {RA RB : Finset Nat}
    (hG : GoodArena σ) (hA : IsFrag σ RA A) (hB : IsFrag σ RB B)
    (hD : Disjoint RA RB) :
    (union σ A B).1.length = σ.length + 2 ∧
    (union σ A B).2 = ⟨σ.length, σ.length + 1⟩ ∧
    GoodArena (union σ A B).1 ∧
    (∀ i < σ.length, i ≠ A.endState → i ≠ B.endState →
      getSt (union σ A B).1 i = getSt σ i) ∧
    IsFrag (union σ A B).1 (RA ∪ RB ∪ {σ.length, σ.length + 1}) (union σ A B).2 ∧
    ∀ w, FragLang (union σ A B).1 (RA ∪ RB ∪ {σ.length, σ.length + 1})
        (union σ A B).2 w ↔
      FragLang σ RA A w ∨ FragLang σ RB B w := by
  obtain ⟨hAb, hAs, hAe, hAne, hAcl, hAout, hAacc, hAuniq⟩ := hA
  obtain ⟨hBb, hBs, hBe, hBne, hBcl, hBout, hBacc, hBuniq⟩ := hB
  have hAeB : A.endState ∉ RB := Finset.disjoint_left.mp hD hAe
  have hBeA : B.endState ∉ RA := Finset.disjoint_right.mp hD hBe
  have hABne : A.endState ≠ B.endState := by
    intro h
    exact hAeB (by rw [h]; exact hBe)
  have hAen : A.endState < σ.length := hAb _ hAe
  have hBen : B.endState < σ.length := hBb _ hBe
  obtain ⟨hlen, hres, hNs, hNe, hEA, hEB, hold⟩ := union_shape σ A B hAen hBen hABne
  have heA0 : (getSt σ A.endState).epsilonTransitions = [] :=
    eps_eq_of_targets_nil hAout
  have htA0 : (getSt σ A.endState).transition = [] :=
    trans_eq_of_targets_nil hAout
  have heB0 : (getSt σ B.endState).epsilonTransitions = [] :=
    eps_eq_of_targets_nil hBout
  have htB0 : (getSt σ B.endState).transition = [] :=
    trans_eq_of_targets_nil hBout
  have hEA' : getSt (union σ A B).1 A.endState = ⟨false, [], [σ.length + 1]⟩ := by
    rw [hEA, heA0, htA0]
    rfl
  have hEB' : getSt (union σ A B).1 B.endState = ⟨false, [], [σ.length + 1]⟩ := by
    rw [hEB, heB0, htB0]
    rfl
  have htAe : targetsOf (union σ A B).1 A.endState = [σ.length + 1] := by
    simp [targetsOf, epsOf, transOf, hEA']
  have htBe : targetsOf (union σ A B).1 B.endState = [σ.length + 1] := by
    simp [targetsOf, epsOf, transOf, hEB']
  have htNs : targetsOf (union σ A B).1 σ.length = [A.start, B.start] := by
    simp [targetsOf, epsOf, transOf, hNs]
  have htNe : targetsOf (union σ A B).1 (σ.length + 1) = [] := by
    simp [targetsOf, epsOf, transOf, hNe]
  have hmemR : ∀ i, i ∈ RA ∪ RB ∪ {σ.length, σ.length + 1} ↔
      i ∈ RA ∨ i ∈ RB ∨ i = σ.length ∨ i = σ.length + 1 := by
    intro i
    simp only [Finset.mem_union, Finset.mem_insert, Finset.mem_singleton]
    tauto
  refine ⟨hlen, hres, ?_, hold, ?_, ?_⟩
  · intro i hi
    rw [hlen] at hi
    by_cases hiA : i = A.endState
    · subst hiA
      rw [htAe, epsOf, transOf, hEA']
      refine ⟨?_, ?_, ?_⟩ <;> simp [hlen]
    · by_cases hiB : i = B.endState
      · subst hiB
        rw [htBe, epsOf, transOf, hEB']
        refine ⟨?_, ?_, ?_⟩ <;> simp [hlen]
      · rcases Nat.lt_or_ge i σ.length with h | h
        · have hg := hG i h
          rw [targetsOf_congr (hold i h hiA hiB), epsOf, transOf, hold i h hiA hiB]
          exact ⟨fun j hj => by rw [hlen]; exact lt_of_lt_of_le (hg.1 j hj) (by omega),
            hg.2.1, hg.2.2⟩
        · rcases (by omega : i = σ.length ∨ i = σ.length + 1) with rfl | rfl
          · rw [htNs, epsOf, transOf, hNs]
            refine ⟨?_, ?_, ?_⟩ <;> simp [hlen]
            exact ⟨lt_of_lt_of_le (hAb _ hAs) (by omega),
              lt_of_lt_of_le (hBb _ hBs) (by omega)⟩
          · rw [htNe, epsOf, transOf, hNe]
            refine ⟨?_, ?_, ?_⟩ <;> simp [hlen]
  · rw [hres]
    refine ⟨?_, ?_, ?_, ?_, ?_, ?_, ?_, ?_⟩
    · intro i hi
      rw [hlen]
      rcases (hmemR i).mp hi with h | h | rfl | rfl
      · exact lt_of_lt_of_le (hAb i h) (by omega)
      · exact lt_of_lt_of_le (hBb i h) (by omega)
      · omega
      · omega
    · exact (hmemR _).mpr (Or.inr (Or.inr (Or.inl rfl)))
    · exact (hmemR _).mpr (Or.inr (Or.inr (Or.inr rfl)))
    · simp
    · intro i hi j hj
      rcases (hmemR i).mp hi with h | h | rfl | rfl
      · by_cases hiA : i = A.endState
        · subst hiA
          rw [htAe] at hj
          simp only [List.mem_singleton] at hj
          subst hj
          exact (hmemR _).mpr (Or.inr (Or.inr (Or.inr rfl)))
        · have hiB : i ≠ B.endState := by rintro rfl; exact hBeA h
          rw [targetsOf_congr (hold i (hAb i h) hiA hiB)] at hj
          rw [hmemR]
          exact Or.inl (hAcl i h j hj)
      · by_cases hiB : i = B.endState
        · subst hiB
          rw [htBe] at hj
          simp only [List.mem_singleton] at hj
          subst hj
          exact (hmemR _).mpr (Or.inr (Or.inr (Or.inr rfl)))
        · have hiA : i ≠ A.endState := by rintro rfl; exact hAeB h
          rw [targetsOf_congr (hold i (hBb i h) hiA hiB)] at hj
          rw [hmemR]
          exact Or.inr (Or.inl (hBcl i h j hj))
      · rw [htNs] at hj
        simp only [List.mem_cons, List.mem_singleton, List.not_mem_nil, or_false] at hj
        rcases hj with rfl | rfl
        · rw [hmemR]
          exact Or.inl hAs
        · rw [hmemR]
          exact Or.inr (Or.inl hBs)
      · rw [htNe] at hj
        cases hj
    · exact htNe
    · rw [hNe]
    · intro i hi hiE
      rcases (hmemR i).mp hi with h | h | rfl | rfl
      · by_cases hiA : i = A.endState
        · subst hiA
          rw [hEA'] at hiE
          cases hiE
        · have hiB : i ≠ B.endState := by rintro rfl; exact hBeA h
          rw [hold i (hAb i h) hiA hiB] at hiE
          exact absurd (hAuniq i h hiE) hiA
      · by_cases hiB : i = B.endState
        · subst hiB
          rw [hEB'] at hiE
          cases hiE
        · have hiA : i ≠ A.endState := by rintro rfl; exact hAeB h
          rw [hold i (hBb i h) hiA hiB] at hiE
          exact absurd (hBuniq i h hiE) hiB
      · rw [hNs] at hiE
        cases hiE
      · rfl
  · intro w
    rw [hres]
    show Path (union σ A B).1 (fun i => i ∈ RA ∪ RB ∪ {σ.length, σ.length + 1})
        σ.length w (σ.length + 1) ↔ _
    have hclA : ∀ i, i ∈ RA → i ≠ A.endState →
        ∀ t ∈ targetsOf (union σ A B).1 i, t ∈ RA := by
      intro i hi hne t ht
      have hiB : i ≠ B.endState := by rintro rfl; exact hBeA hi
      rw [targetsOf_congr (hold i (hAb i hi) hne hiB)] at ht
      exact hAcl i hi t ht
    have hclB : ∀ i, i ∈ RB → i ≠ B.endState →
        ∀ t ∈ targetsOf (union σ A B).1 i, t ∈ RB := by
      intro i hi hne t ht
      have hiA : i ≠ A.endState := by rintro rfl; exact hAeB hi
      rw [targetsOf_congr (hold i (hBb i hi) hiA hne)] at ht
      exact hBcl i hi t ht
    constructor
    · intro p
      obtain ⟨-, p'⟩ := @Path.double_eps_inv _ _ _ A.start B.start _ _
        (by simp [epsOf, hNs]) (by simp [transOf, hNs]) (by simp) p
      rcases p' with pA | pB
      · left
        have hnraA : (σ.length + 1) ∉ RA := fun hmem => by
          have := hAb _ hmem; omega
        obtain ⟨u, v, huv, p1, p2⟩ := Path.exit hclA pA hAs hnraA
        obtain ⟨-, p2'⟩ := @Path.single_eps_inv _ _ _ (σ.length + 1) _ _
          (by simp [epsOf, hEA']) (by simp [transOf, hEA'])
          (by omega) p2
        obtain ⟨hv, -⟩ := Path.stuck htNe p2'
        subst hv
        rw [huv, List.append_nil]
        have p1' := Path.congrArena (fun i hi =>
          (hold i (hAb i hi.2.1) hi.2.2
            (by rintro rfl; exact hBeA hi.2.1)).symm) p1
        exact p1'.mono (fun i hi => hi.2.1)
      · right
        have hnraB : (σ.length + 1) ∉ RB := fun hmem => by
          have := hBb _ hmem; omega
        obtain ⟨u, v, huv, p1, p2⟩ := Path.exit hclB pB hBs hnraB
        obtain ⟨-, p2'⟩ := @Path.single_eps_inv _ _ _ (σ.length + 1) _ _
          (by simp [epsOf, hEB']) (by simp [transOf, hEB'])
          (by omega) p2
        obtain ⟨hv, -⟩ := Path.stuck htNe p2'
        subst hv
        rw [huv, List.append_nil]
        have p1' := Path.congrArena (fun i hi =>
          (hold i (hBb i hi.2.1)
            (by rintro rfl; exact hAeB hi.2.1) hi.2.2).symm) p1
        exact p1'.mono (fun i hi => hi.2.1)
    · rintro (pA | pB)
      · have pA' := Path.avoid_end pA hAout
        have pA'' : Path (union σ A B).1 (fun i => i ∈ RA ∧ i ≠ A.endState)
            A.start w A.endState :=
          Path.congrArena (fun i hi => hold i (hAb i hi.1) hi.2
            (by rintro rfl; exact hBeA hi.1)) pA'
        have tail : Path (union σ A B).1
            (fun i => i ∈ RA ∪ RB ∪ {σ.length, σ.length + 1})
            A.endState [] (σ.length + 1) :=
          .eps ((hmemR _).mpr (Or.inl hAe)) (by simp [epsOf, hEA']) (.refl _)
        have mid := (pA''.mono (fun i hi =>
          (hmemR i).mpr (Or.inl hi.1))).append tail
        rw [List.append_nil] at mid
        exact .eps ((hmemR _).mpr (Or.inr (Or.inr (Or.inl rfl)))) (by simp [epsOf, hNs]) mid
      · have pB' := Path.avoid_end pB hBout
        have pB'' : Path (union σ A B).1 (fun i => i ∈ RB ∧ i ≠ B.endState)
            B.start w B.endState :=
          Path.congrArena (fun i hi => hold i (hBb i hi.1)
            (by rintro rfl; exact hAeB hi.1) hi.2) pB'
        have tail : Path (union σ A B).1
            (fun i => i ∈ RA ∪ RB ∪ {σ.length, σ.length + 1})
            B.endState [] (σ.length + 1) :=
          .eps ((hmemR _).mpr (Or.inr (Or.inl hBe))) (by simp [epsOf, hEB']) (.refl _)
        have mid := (pB''.mono (fun i hi =>
          (hmemR i).mpr (Or.inr (Or.inl hi.1)))).append tail
        rw [List.append_nil] at mid
        exact .eps ((hmemR _).mpr (Or.inr (Or.inr (Or.inl rfl)))) (by simp [epsOf, hNs]) mid

theorem zeroOrOne_spec (σ : Arena) (A : NFA) {RA : Finset Nat}
    (hG : GoodArena σ) (hA : IsFrag σ RA A) :
    (zeroOrOne σ A).1.length = σ.length + 2 ∧
    (zeroOrOne σ A).2 = ⟨σ.length, σ.length + 1⟩ ∧
    GoodArena (zeroOrOne σ A).1 ∧
    (∀ i < σ.length, i ≠ A.endState → getSt (zeroOrOne σ A).1 i = getSt σ i) ∧
    IsFrag (zeroOrOne σ A).1 (RA ∪ {σ.length, σ.length + 1}) (zeroOrOne σ A).2 ∧
    ∀ w, FragLang (zeroOrOne σ A).1 (RA ∪ {σ.length, σ.length + 1})
        (zeroOrOne σ A).2 w ↔
      w = [] ∨ FragLang σ RA A w := by
  obtain ⟨hAb, hAs, hAe, hAne, hAcl, hAout, hAacc, hAuniq⟩ := hA
  have hAen : A.endState < σ.length := hAb _ hAe
  obtain ⟨hlen, hres, hNs, hNe, hEA, hold⟩ := zeroOrOne_shape σ A hAen
  have heA0 : (getSt σ A.endState).epsilonTransitions = [] :=
    eps_eq_of_targets_nil hAout
  have htA0 : (getSt σ A.endState).transition = [] :=
    trans_eq_of_targets_nil hAout
  have hEA' : getSt (zeroOrOne σ A).1 A.endState = ⟨false, [], [σ.length + 1]⟩ := by
    rw [hEA, heA0, htA0]
    rfl
  have htAe : targetsOf (zeroOrOne σ A).1 A.endState = [σ.length + 1] := by
    simp [targetsOf, epsOf, transOf, hEA']
  have htNs : targetsOf (zeroOrOne σ A).1 σ.length = [σ.length + 1, A.start] := by
    simp [targetsOf, epsOf, transOf, hNs]
  have htNe : targetsOf (zeroOrOne σ A).1 (σ.length + 1) = [] := by
    simp [targetsOf, epsOf, transOf, hNe]
  have hmemR : ∀ i, i ∈ RA ∪ {σ.length, σ.length + 1} ↔
      i ∈ RA ∨ i = σ.length ∨ i = σ.length + 1 := by
    intro i
    simp only [Finset.mem_union, Finset.mem_insert, Finset.mem_singleton]
  refine ⟨hlen, hres, ?_, hold, ?_, ?_⟩
  · intro i hi
    rw [hlen] at hi
    by_cases hiA : i = A.endState
    · subst hiA
      rw [htAe, epsOf, transOf, hEA']
      refine ⟨?_, ?_, ?_⟩ <;> simp [hlen]
    · rcases Nat.lt_or_ge i σ.length with h | h
      · have hg := hG i h
        rw [targetsOf_congr (hold i h hiA), epsOf, transOf, hold i h hiA]
        exact ⟨fun j hj => by rw [hlen]; exact lt_of_lt_of_le (hg.1 j hj) (by omega),
          hg.2.1, hg.2.2⟩
      · rcases (by omega : i = σ.length ∨ i = σ.length + 1) with rfl | rfl
        · rw [htNs, epsOf, transOf, hNs]
          refine ⟨?_, ?_, ?_⟩ <;> simp [hlen]
          exact lt_of_lt_of_le (hAb _ hAs) (by omega)
        · rw [htNe, epsOf, transOf, hNe]
          refine ⟨?_, ?_, ?_⟩ <;> simp [hlen]
  · rw [hres]
    refine ⟨?_, ?_, ?_, ?_, ?_, ?_, ?_, ?_⟩
    · intro i hi
      rw [hlen]
      rcases (hmemR i).mp hi with h | rfl | rfl
      · exact lt_of_lt_of_le (hAb i h) (by omega)
      · omega
      · omega
    · exact (hmemR _).mpr (Or.inr (Or.inl rfl))
    · exact (hmemR _).mpr (Or.inr (Or.inr rfl))
    · simp
    · intro i hi j hj
      rcases (hmemR i).mp hi with h | rfl | rfl
      · by_cases hiA : i = A.endState
        · subst hiA
          rw [htAe] at hj
          simp only [List.mem_singleton] at hj
          subst hj
          exact (hmemR _).mpr (Or.inr (Or.inr rfl))
        · rw [targetsOf_congr (hold i (hAb i h) hiA)] at hj
          exact (hmemR _).mpr (Or.inl (hAcl i h j hj))
      · rw [htNs] at hj
        simp only [List.mem_cons, List.mem_singleton, List.not_mem_nil, or_false] at hj
        rcases hj with rfl | rfl
        · exact (hmemR _).mpr (Or.inr (Or.inr rfl))
        · exact (hmemR _).mpr (Or.inl hAs)
      · rw [htNe] at hj
        cases hj
    · exact htNe
    · rw [hNe]
    · intro i hi hiE
      rcases (hmemR i).mp hi with h | rfl | rfl
      · by_cases hiA : i = A.endState
        · subst hiA
          rw [hEA'] at hiE
          cases hiE
        · rw [hold i (hAb i h) hiA] at hiE
          exact absurd (hAuniq i h hiE) hiA
      · rw [hNs] at hiE
        cases hiE
      · rfl
  · intro w
    rw [hres]
    show Path (zeroOrOne σ A).1 (fun i => i ∈ RA ∪ {σ.length, σ.length + 1})
        σ.length w (σ.length + 1) ↔ _
    have hclA : ∀ i, i ∈ RA → i ≠ A.endState →
        ∀ t ∈ targetsOf (zeroOrOne σ A).1 i, t ∈ RA := by
      intro i hi hne t ht
      rw [targetsOf_congr (hold i (hAb i hi) hne)] at ht
      exact hAcl i hi t ht
    constructor
    · intro p
      obtain ⟨-, p'⟩ := @Path.double_eps_inv _ _ _ (σ.length + 1) A.start _ _
        (by simp [epsOf, hNs]) (by simp [transOf, hNs]) (by simp) p
      rcases p' with pE | pA
      · exact Or.inl (Path.stuck htNe pE).1
      · right
        have hnraA : (σ.length + 1) ∉ RA := fun hmem => by
          have := hAb _ hmem; omega
        obtain ⟨u, v, huv, p1, p2⟩ := Path.exit hclA pA hAs hnraA
        obtain ⟨-, p2'⟩ := @Path.single_eps_inv _ _ _ (σ.length + 1) _ _
          (by simp [epsOf, hEA']) (by simp [transOf, hEA'])
          (by omega) p2
        obtain ⟨hv, -⟩ := Path.stuck htNe p2'
        subst hv
        rw [huv, List.append_nil]
        have p1' := Path.congrArena (fun i hi =>
          (hold i (hAb i hi.2.1) hi.2.2).symm) p1
        exact p1'.mono (fun i hi => hi.2.1)
    · rintro (rfl | pA)
      · exact .eps ((hmemR _).mpr (Or.inr (Or.inl rfl)))
          (by simp [epsOf, hNs]) (.refl _)
      · have pA' := Path.avoid_end pA hAout
        have pA'' : Path (zeroOrOne σ A).1 (fun i => i ∈ RA ∧ i ≠ A.endState)
            A.start w A.endState :=
          Path.congrArena (fun i hi => hold i (hAb i hi.1) hi.2) pA'
        have tail : Path (zeroOrOne σ A).1
            (fun i => i ∈ RA ∪ {σ.length, σ.length + 1})
            A.endState [] (σ.length + 1) :=
          .eps ((hmemR _).mpr (Or.inl hAe)) (by simp [epsOf, hEA']) (.refl _)
        have mid := (pA''.mono (fun i hi =>
          (hmemR i).mpr (Or.inl hi.1))).append tail
        rw [List.append_nil] at mid
        exact .eps ((hmemR _).mpr (Or.inr (Or.inl rfl))) (by simp [epsOf, hNs]) mid

/-- Decomposition of paths through a looped fragment: with the end
state `Ae` of a fragment epsilon-linked to an outer accept state and
back to the fragment start `As`, a path ending at the outer accept
state decomposes into a first pass through the fragment followed by
zero or more further full passes. -/
theorem Path.loop_decomp {σ' : Arena} {Q : Nat → Prop} {RA : Finset Nat}
    {As Ae : Nat} {i j : Nat} {w : List Char}
    (p : Path σ' Q i w j) :
    (∀ x, x ∈ RA → x ≠ Ae → ∀ t ∈ targetsOf σ' x, t ∈ RA) →
    epsOf σ' Ae = [j, As] → transOf σ' Ae = [] → targetsOf σ' j = [] →
    As ∈ RA → Ae ∈ RA → j ∉ RA →
    ((i = j → w = []) ∧
     (i ∈ RA → ∃ u v, w = u ++ v ∧
       Path σ' (fun x => Q x ∧ x ∈ RA ∧ x ≠ Ae) i u Ae ∧
       ∃ parts : List (List Char), v = parts.join ∧
         ∀ x ∈ parts, Path σ' (fun y => Q y ∧ y ∈ RA ∧ y ≠ Ae) As x Ae)) := by
  induction p with
  | refl i =>
    intro hcl heps htr hout hAs hAe hjR
    exact ⟨fun _ => rfl, fun hiR => absurd hiR hjR⟩
  | @eps i m k w h1 h2 sub ih =>
    intro hcl heps htr hout hAs hAe hjR
    obtain ⟨ih1, ih2⟩ := ih hcl heps htr hout hAs hAe hjR
    constructor
    · rintro rfl
      rw [eps_eq_of_targets_nil hout] at h2
      cases h2
    · intro hiR
      by_cases hiAe : i = Ae
      · subst hiAe
        rw [heps] at h2
        simp only [List.mem_cons, List.mem_singleton, List.not_mem_nil, or_false] at h2
        rcases h2 with rfl | rfl
        · have hw := ih1 rfl
          subst hw
          exact ⟨[], [], rfl, .refl _, [], rfl, by simp⟩
        · obtain ⟨u, v, rfl, pu, parts, rfl, hparts⟩ := ih2 hAs
          refine ⟨[], u ++ parts.join, rfl, .refl _, u :: parts, by simp, ?_⟩
          intro x hx
          rcases List.mem_cons.mp hx with rfl | hx
          · exact pu
          · exact hparts x hx
      · have hmR : m ∈ RA := hcl i hiR hiAe m (mem_targets_of_eps h2)
        obtain ⟨u, v, rfl, pu, parts, rfl, hparts⟩ := ih2 hmR
        exact ⟨u, parts.join, rfl, .eps ⟨h1, hiR, hiAe⟩ h2 pu, parts, rfl, hparts⟩
  | @step i m k w c h1 h2 sub ih =>
    intro hcl heps htr hout hAs hAe hjR
    obtain ⟨ih1, ih2⟩ := ih hcl heps htr hout hAs hAe hjR
    constructor
    · rintro rfl
      rw [lookup_eq_none_of_targets_nil hout] at h2
      cases h2
    · intro hiR
      by_cases hiAe : i = Ae
      · subst hiAe
        rw [lookupTrans, htr] at h2
        cases h2
      · have hmR : m ∈ RA := hcl i hiR hiAe m (mem_targets_of_lookup h2)
        obtain ⟨u, v, rfl, pu, parts, rfl, hparts⟩ := ih2 hmR
        exact ⟨c :: u, parts.join, rfl, .step c ⟨h1, hiR, hiAe⟩ h2 pu, parts, rfl, hparts⟩

theorem oneOrMore_spec (σ : Arena) (A : NFA) {RA : Finset Nat}
    (hG : GoodArena σ) (hA : IsFrag σ RA A) :
    (oneOrMore σ A).1.length = σ.length + 2 ∧
    (oneOrMore σ A).2 = ⟨σ.length, σ.length + 1⟩ ∧
    GoodArena (oneOrMore σ A).1 ∧
    (∀ i < σ.length, i ≠ A.endState → getSt (oneOrMore σ A).1 i = getSt σ i) ∧
    IsFrag (oneOrMore σ A).1 (RA ∪ {σ.length, σ.length + 1}) (oneOrMore σ A).2 ∧
    ∀ w, FragLang (oneOrMore σ A).1 (RA ∪ {σ.length, σ.length + 1})
        (oneOrMore σ A).2 w ↔
      ∃ parts : List (List Char), parts ≠ [] ∧ w = parts.join ∧
        ∀ u ∈ parts, FragLang σ RA A u := by
  obtain ⟨hAb, hAs, hAe, hAne, hAcl, hAout, hAacc, hAuniq⟩ := hA
  have hAen : A.endState < σ.length := hAb _ hAe
  obtain ⟨hlen, hres, hNs, hNe, hEA, hold⟩ := oneOrMore_shape σ A hAen
  have heA0 : (getSt σ A.endState).epsilonTransitions = [] :=
    eps_eq_of_targets_nil hAout
  have htA0 : (getSt σ A.endState).transition = [] :=
    trans_eq_of_targets_nil hAout
  have hEA' : getSt (oneOrMore σ A).1 A.endState =
      ⟨false, [], [σ.length + 1, A.start]⟩ := by
    rw [hEA, heA0, htA0]
    rfl
  have htAe : targetsOf (oneOrMore σ A).1 A.endState = [σ.length + 1, A.start] := by
    simp [targetsOf, epsOf, transOf, hEA']
  have htNs : targetsOf (oneOrMore σ A).1 σ.length = [A.start] := by
    simp [targetsOf, epsOf, transOf, hNs]
  have htNe : targetsOf (oneOrMore σ A).1 (σ.length + 1) = [] := by
    simp [targetsOf, epsOf, transOf, hNe]
  have hmemR : ∀ i, i ∈ RA ∪ {σ.length, σ.length + 1} ↔
      i ∈ RA ∨ i = σ.length ∨ i = σ.length + 1 := by
    intro i
    simp only [Finset.mem_union, Finset.mem_insert, Finset.mem_singleton]
  have hclA : ∀ i, i ∈ RA → i ≠ A.endState →
      ∀ t ∈ targetsOf (oneOrMore σ A).1 i, t ∈ RA := by
    intro i hi hne t ht
    rw [targetsOf_congr (hold i (hAb i hi) hne)] at ht
    exact hAcl i hi t ht
  refine ⟨hlen, hres, ?_, hold, ?_, ?_⟩
  · intro i hi
    rw [hlen] at hi
    by_cases hiA : i = A.endState
    · subst hiA
      rw [htAe, epsOf, transOf, hEA']
      refine ⟨?_, ?_, ?_⟩ <;> simp [hlen]
      exact lt_of_lt_of_le (hAb _ hAs) (by omega)
    · rcases Nat.lt_or_ge i σ.length with h | h
      · have hg := hG i h
        rw [targetsOf_congr (hold i h hiA), epsOf, transOf, hold i h hiA]
        exact ⟨fun j hj => by rw [hlen]; exact lt_of_lt_of_le (hg.1 j hj) (by omega),
          hg.2.1, hg.2.2⟩
      · rcases (by omega : i = σ.length ∨ i = σ.length + 1) with rfl | rfl
        · rw [htNs, epsOf, transOf, hNs]
          refine ⟨?_, ?_, ?_⟩ <;> simp [hlen]
          exact lt_of_lt_of_le (hAb _ hAs) (by omega)
        · rw [htNe, epsOf, transOf, hNe]
          refine ⟨?_, ?_, ?_⟩ <;> simp [hlen]
  · rw [hres]
    refine ⟨?_, ?_, ?_, ?_, ?_, ?_, ?_, ?_⟩
    · intro i hi
      rw [hlen]
      rcases (hmemR i).mp hi with h | rfl | rfl
      · exact lt_of_lt_of_le (hAb i h) (by omega)
      · omega
      · omega
    · exact (hmemR _).mpr (Or.inr (Or.inl rfl))
    · exact (hmemR _).mpr (Or.inr (Or.inr rfl))
    · simp
    · intro i hi j hj
      rcases (hmemR i).mp hi with h | rfl | rfl
      · by_cases hiA : i = A.endState
        · subst hiA
          rw [htAe] at hj
          simp only [List.mem_cons, List.mem_singleton, List.not_mem_nil, or_false] at hj
          rcases hj with rfl | rfl
          · exact (hmemR _).mpr (Or.inr (Or.inr rfl))
          · exact (hmemR _).mpr (Or.inl hAs)
        · rw [targetsOf_congr (hold i (hAb i h) hiA)] at hj
          exact (hmemR _).mpr (Or.inl (hAcl i h j hj))
      · rw [htNs] at hj
        simp only [List.mem_singleton] at hj
        subst hj
        exact (hmemR _).mpr (Or.inl hAs)
      · rw [htNe] at hj
        cases hj
    · exact htNe
    · rw [hNe]
    · intro i hi hiE
      rcases (hmemR i).mp hi with h | rfl | rfl
      · by_cases hiA : i = A.endState
        · subst hiA
          rw [hEA'] at hiE
          cases hiE
        · rw [hold i (hAb i h) hiA] at hiE
          exact absurd (hAuniq i h hiE) hiA
      · rw [hNs] at hiE
        cases hiE
      · rfl
  · intro w
    rw [hres]
    show Path (oneOrMore σ A).1 (fun i => i ∈ RA ∪ {σ.length, σ.length + 1})
        σ.length w (σ.length + 1) ↔ _
    have toFrag : ∀ x, Path (oneOrMore σ A).1
        (fun y => (y ∈ RA ∪ {σ.length, σ.length + 1}) ∧ y ∈ RA ∧ y ≠ A.endState)
        A.start x A.endState → FragLang σ RA A x := by
      intro x px
      have px' := Path.congrArena (fun i hi =>
        (hold i (hAb i hi.2.1) hi.2.2).symm) px
      exact px'.mono (fun i hi => hi.2.1)
    have lift : ∀ x, FragLang σ RA A x →
        Path (oneOrMore σ A).1 (fun i => i ∈ RA ∪ {σ.length, σ.length + 1})
          A.start x A.endState := by
      intro x px
      have px' := Path.avoid_end px hAout
      have px'' : Path (oneOrMore σ A).1 (fun i => i ∈ RA ∧ i ≠ A.endState)
          A.start x A.endState :=
        Path.congrArena (fun i hi => hold i (hAb i hi.1) hi.2) px'
      exact px''.mono (fun i hi => (hmemR i).mpr (Or.inl hi.1))
    constructor
    · intro p
      obtain ⟨-, p'⟩ := @Path.single_eps_inv _ _ _ A.start _ _
        (by simp [epsOf, hNs]) (by simp [transOf, hNs]) (by simp) p
      obtain ⟨-, hdec⟩ := Path.loop_decomp p' hclA
        (by simp [epsOf, hEA']) (by simp [transOf, hEA']) htNe
        hAs hAe (fun hmem => by have := hAb _ hmem; omega)
      obtain ⟨u, v, rfl, pu, parts, rfl, hparts⟩ := hdec hAs
      refine ⟨u :: parts, by simp, by simp, ?_⟩
      intro x hx
      rcases List.mem_cons.mp hx with rfl | hx
      · exact toFrag x pu
      · exact toFrag x (hparts x hx)
    · rintro ⟨parts, hne, rfl, hparts⟩
      have starPath : ∀ ps : List (List Char),
          (∀ x ∈ ps, FragLang σ RA A x) → ps ≠ [] →
          Path (oneOrMore σ A).1 (fun i => i ∈ RA ∪ {σ.length, σ.length + 1})
            A.start ps.join (σ.length + 1) := by
        intro ps
        induction ps with
        | nil => exact fun _ h => absurd rfl h
        | cons p0 rest ih =>
          intro hall _
          have hp0 := lift p0 (hall p0 (by simp))
          cases rest with
          | nil =>
            have tail : Path (oneOrMore σ A).1
                (fun i => i ∈ RA ∪ {σ.length, σ.length + 1})
                A.endState [] (σ.length + 1) :=
              .eps ((hmemR _).mpr (Or.inl hAe)) (by simp [epsOf, hEA']) (.refl _)
            have h := hp0.append tail
            simpa using h
          | cons r1 rs =>
            have ihp := ih (fun x hx => hall x (by simp [hx])) (by simp)
            have loopstep : Path (oneOrMore σ A).1
                (fun i => i ∈ RA ∪ {σ.length, σ.length + 1})
                A.endState ((r1 :: rs).join) (σ.length + 1) :=
              .eps ((hmemR _).mpr (Or.inl hAe)) (by simp [epsOf, hEA']) ihp
            have h := hp0.append loopstep
            simpa using h
      exact .eps ((hmemR _).mpr (Or.inr (Or.inl rfl))) (by simp [epsOf, hNs])
        (starPath parts hparts hne)

theorem closure_spec (σ : Arena) (A : NFA) {RA : Finset Nat}
    (hG : GoodArena σ) (hA : IsFrag σ RA A) :
    (closure σ A).1.length = σ.length + 2 ∧
    (closure σ A).2 = ⟨σ.length, σ.length + 1⟩ ∧
    GoodArena (closure σ A).1 ∧
    (∀ i < σ.length, i ≠ A.endState → getSt (closure σ A).1 i = getSt σ i) ∧
    IsFrag (closure σ A).1 (RA ∪ {σ.length, σ.length + 1}) (closure σ A).2 ∧
    ∀ w, FragLang (closure σ A).1 (RA ∪ {σ.length, σ.length + 1})
        (closure σ A).2 w ↔
      w = [] ∨ ∃ parts : List (List Char), parts ≠ [] ∧ w = parts.join ∧
        ∀ u ∈ parts, FragLang σ RA A u := by
  obtain ⟨hAb, hAs, hAe, hAne, hAcl, hAout, hAacc, hAuniq⟩ := hA
  have hAen : A.endState < σ.length := hAb _ hAe
  obtain ⟨hlen, hres, hNs, hNe, hEA, hold⟩ := closure_shape σ A hAen
  have heA0 : (getSt σ A.endState).epsilonTransitions = [] :=
    eps_eq_of_targets_nil hAout
  have htA0 : (getSt σ A.endState).transition = [] :=
    trans_eq_of_targets_nil hAout
  have hEA' : getSt (closure σ A).1 A.endState =
      ⟨false, [], [σ.length + 1, A.start]⟩ := by
    rw [hEA, heA0, htA0]
    rfl
  have htAe : targetsOf (closure σ A).1 A.endState = [σ.length + 1, A.start] := by
    simp [targetsOf, epsOf, transOf, hEA']
  have htNs : targetsOf (closure σ A).1 σ.length = [σ.length + 1, A.start] := by
    simp [targetsOf, epsOf, transOf, hNs]
  have htNe : targetsOf (closure σ A).1 (σ.length + 1) = [] := by
    simp [targetsOf, epsOf, transOf, hNe]
  have hmemR : ∀ i, i ∈ RA ∪ {σ.length, σ.length + 1} ↔
      i ∈ RA ∨ i = σ.length ∨ i = σ.length + 1 := by
    intro i
    simp only [Finset.mem_union, Finset.mem_insert, Finset.mem_singleton]
  have hclA : ∀ i, i ∈ RA → i ≠ A.endState →
      ∀ t ∈ targetsOf (closure σ A).1 i, t ∈ RA := by
    intro i hi hne t ht
    rw [targetsOf_congr (hold i (hAb i hi) hne)] at ht
    exact hAcl i hi t ht
  refine ⟨hlen, hres, ?_, hold, ?_, ?_⟩
  · intro i hi
    rw [hlen] at hi
    by_cases hiA : i = A.endState
    · subst hiA
      rw [htAe, epsOf, transOf, hEA']
      refine ⟨?_, ?_, ?_⟩ <;> simp [hlen]
      exact lt_of_lt_of_le (hAb _ hAs) (by omega)
    · rcases Nat.lt_or_ge i σ.length with h | h
      · have hg := hG i h
        rw [targetsOf_congr (hold i h hiA), epsOf, transOf, hold i h hiA]
        exact ⟨fun j hj => by rw [hlen]; exact lt_of_lt_of_le (hg.1 j hj) (by omega),
          hg.2.1, hg.2.2⟩
      · rcases (by omega : i = σ.length ∨ i = σ.length + 1) with rfl | rfl
        · rw [htNs, epsOf, transOf, hNs]
          refine ⟨?_, ?_, ?_⟩ <;> simp [hlen]
          exact lt_of_lt_of_le (hAb _ hAs) (by omega)
        · rw [htNe, epsOf, transOf, hNe]
          refine ⟨?_, ?_, ?_⟩ <;> simp [hlen]
  · rw [hres]
    refine ⟨?_, ?_, ?_, ?_, ?_, ?_, ?_, ?_⟩
    · intro i hi
      rw [hlen]
      rcases (hmemR i).mp hi with h | rfl | rfl
      · exact lt_of_lt_of_le (hAb i h) (by omega)
      · omega
      · omega
    · exact (hmemR _).mpr (Or.inr (Or.inl rfl))
    · exact (hmemR _).mpr (Or.inr (Or.inr rfl))
    · simp
    · intro i hi j hj
      rcases (hmemR i).mp hi with h | rfl | rfl
      · by_cases hiA : i = A.endState
        · subst hiA
          rw [htAe] at hj
          simp only [List.mem_cons, List.mem_singleton, List.not_mem_nil, or_false] at hj
          rcases hj with rfl | rfl
          · exact (hmemR _).mpr (Or.inr (Or.inr rfl))
          · exact (hmemR _).mpr (Or.inl hAs)
        · rw [targetsOf_congr (hold i (hAb i h) hiA)] at hj
          exact (hmemR _).mpr (Or.inl (hAcl i h j hj))
      · rw [htNs] at hj
        simp only [List.mem_cons, List.mem_singleton, List.not_mem_nil, or_false] at hj
        rcases hj with rfl | rfl
        · exact (hmemR _).mpr (Or.inr (Or.inr rfl))
        · exact (hmemR _).mpr (Or.inl hAs)
      · rw [htNe] at hj
        cases hj
    · exact htNe
    · rw [hNe]
    · intro i hi hiE
      rcases (hmemR i).mp hi with h | rfl | rfl
      · by_cases hiA : i = A.endState
        · subst hiA
          rw [hEA'] at hiE
          cases hiE
        · rw [hold i (hAb i h) hiA] at hiE
          exact absurd (hAuniq i h hiE) hiA
      · rw [hNs] at hiE
        cases hiE
      · rfl
  · intro w
    rw [hres]
    show Path (closure σ A).1 (fun i => i ∈ RA ∪ {σ.length, σ.length + 1})
        σ.length w (σ.length + 1) ↔ _
    have toFrag : ∀ x, Path (closure σ A).1
        (fun y => (y ∈ RA ∪ {σ.length, σ.length + 1}) ∧ y ∈ RA ∧ y ≠ A.endState)
        A.start x A.endState → FragLang σ RA A x := by
      intro x px
      have px' := Path.congrArena (fun i hi =>
        (hold i (hAb i hi.2.1) hi.2.2).symm) px
      exact px'.mono (fun i hi => hi.2.1)
    have lift : ∀ x, FragLang σ RA A x →
        Path (closure σ A).1 (fun i => i ∈ RA ∪ {σ.length, σ.length + 1})
          A.start x A.endState := by
      intro x px
      have px' := Path.avoid_end px hAout
      have px'' : Path (closure σ A).1 (fun i => i ∈ RA ∧ i ≠ A.endState)
          A.start x A.endState :=
        Path.congrArena (fun i hi => hold i (hAb i hi.1) hi.2) px'
      exact px''.mono (fun i hi => (hmemR i).mpr (Or.inl hi.1))
    constructor
    · intro p
      obtain ⟨-, p'⟩ := @Path.double_eps_inv _ _ _ (σ.length + 1) A.start _ _
        (by simp [epsOf, hNs]) (by simp [transOf, hNs]) (by simp) p
      rcases p' with pE | pA
      · exact Or.inl (Path.stuck htNe pE).1
      · right
        obtain ⟨-, hdec⟩ := Path.loop_decomp pA hclA
          (by simp [epsOf, hEA']) (by simp [transOf, hEA']) htNe
          hAs hAe (fun hmem => by have := hAb _ hmem; omega)
        obtain ⟨u, v, rfl, pu, parts, rfl, hparts⟩ := hdec hAs
        refine ⟨u :: parts, by simp, by simp, ?_⟩
        intro x hx
        rcases List.mem_cons.mp hx with rfl | hx
        · exact toFrag x pu
        · exact toFrag x (hparts x hx)
    · rintro (rfl | ⟨parts, hne, rfl, hparts⟩)
      · exact .eps ((hmemR _).mpr (Or.inr (Or.inl rfl)))
          (by simp [epsOf, hNs]) (.refl _)
      · have starPath : ∀ ps : List (List Char),
            (∀ x ∈ ps, FragLang σ RA A x) → ps ≠ [] →
            Path (closure σ A).1 (fun i => i ∈ RA ∪ {σ.length, σ.length + 1})
              A.start ps.join (σ.length + 1) := by
          intro ps
          induction ps with
          | nil => exact fun _ h => absurd rfl h
          | cons p0 rest ih =>
            intro hall _
            have hp0 := lift p0 (hall p0 (by simp))
            cases rest with
            | nil =>
              have tail : Path (closure σ A).1
                  (fun i => i ∈ RA ∪ {σ.length, σ.length + 1})
                  A.endState [] (σ.length + 1) :=
                .eps ((hmemR _).mpr (Or.inl hAe)) (by simp [epsOf, hEA']) (.refl _)
              have h := hp0.append tail
              simpa using h
            | cons r1 rs =>
              have ihp := ih (fun x hx => hall x (by simp [hx])) (by simp)
              have loopstep : Path (closure σ A).1
                  (fun i => i ∈ RA ∪ {σ.length, σ.length + 1})
                  A.endState ((r1 :: rs).join) (σ.length + 1) :=
                .eps ((hmemR _).mpr (Or.inl hAe)) (by simp [epsOf, hEA']) ihp
              have h := hp0.append loopstep
              simpa using h
        exact .eps ((hmemR _).mpr (Or.inr (Or.inl rfl))) (by simp [epsOf, hNs])
          (starPath parts hparts hne)

/-! ## Correctness of the matching engine -/

/-- Epsilon reachability: a path consuming no input. -/
def epsReach (σ : Arena) (i j : Nat) : Prop := Path σ (fun _ => True) i [] j

/-- The epsilon-closure set computed by `addNextState` as `search`
invokes it. -/
def closureL (σ : Arena) (i : Nat) : List Nat :=
  (addNextState σ (σ.length + 1) i [] []).1

theorem nodup_bounded_length {l : List Nat} {n : Nat} (hd : l.Nodup)
    (hb : ∀ v ∈ l, v < n) : l.length ≤ n := by
  classical
  have hsub : l.toFinset ⊆ Finset.range n := fun x hx =>
    Finset.mem_range.mpr (hb x (List.mem_toFinset.mp hx))
  have hcard := Finset.card_le_card hsub
  rwa [List.toFinset_card_of_nodup hd, Finset.card_range] at hcard

/-- Accumulator independence of `addNextState`: the `nextStates` list is
only appended to, never read. -/
theorem ans_acc (σ : Arena) : ∀ fuel,
    (∀ i nx vis, (addNextState σ fuel i nx vis).1
        = nx ++ (addNextState σ fuel i [] vis).1 ∧
      (addNextState σ fuel i nx vis).2 = (addNextState σ fuel i [] vis).2) ∧
    (∀ l nx vis, (goEps σ fuel l nx vis).1
        = nx ++ (goEps σ fuel l [] vis).1 ∧
      (goEps σ fuel l nx vis).2 = (goEps σ fuel l [] vis).2) := by
  intro fuel
  induction fuel with
  | zero =>
    constructor
    · intro i nx vis
      simp [addNextState]
    · intro l
      induction l with
      | nil =>
        intro nx vis
        simp [goEps]
      | cons st rest ih =>
        intro nx vis
        by_cases hst : st ∈ vis
        · simp only [goEps]
          rw [if_pos hst, if_pos hst]
          exact ih nx vis
        · simp only [goEps]
          rw [if_neg hst, if_neg hst]
          simp only [addNextState]
          exact ih nx (vis ++ [st])
  | succ fuel ih =>
    have hA : ∀ i nx vis, (addNextState σ (fuel + 1) i nx vis).1
        = nx ++ (addNextState σ (fuel + 1) i [] vis).1 ∧
        (addNextState σ (fuel + 1) i nx vis).2
        = (addNextState σ (fuel + 1) i [] vis).2 := by
      intro i nx vis
      by_cases he : epsOf σ i = []
      · simp [addNextState, he]
      · simp only [addNextState]
        rw [if_neg he, if_neg he]
        exact ih.2 (epsOf σ i) nx vis
    refine ⟨hA, ?_⟩
    intro l
    induction l with
    | nil =>
      intro nx vis
      simp [goEps]
    | cons st rest ihl =>
      intro nx vis
      by_cases hst : st ∈ vis
      · simp only [goEps]
        rw [if_pos hst, if_pos hst]
        exact ihl nx vis
      · simp only [goEps]
        rw [if_neg hst, if_neg hst]
        obtain ⟨ha1, ha2⟩ := hA st nx (vis ++ [st])
        rw [ha1, ha2]
        obtain ⟨hg1, hg2⟩ :=
          ihl (nx ++ (addNextState σ (fuel + 1) st [] (vis ++ [st])).1)
            ((addNextState σ (fuel + 1) st [] (vis ++ [st])).2)
        obtain ⟨hg1', hg2'⟩ :=
          ihl ((addNextState σ (fuel + 1) st [] (vis ++ [st])).1)
            ((addNextState σ (fuel + 1) st [] (vis ++ [st])).2)
        exact ⟨by rw [hg1, hg1', List.append_assoc], by rw [hg2, hg2']⟩

/-- Soundness: every state `addNextState` adds is epsilon-reachable
from the walked state and has no epsilon transitions. -/
theorem ans_sound (σ : Arena) : ∀ fuel,
    (∀ i nx vis j, j ∈ (addNextState σ fuel i nx vis).1 →
      j ∈ nx ∨ (epsReach σ i j ∧ epsOf σ j = [])) ∧
    (∀ l nx vis j, j ∈ (goEps σ fuel l nx vis).1 →
      j ∈ nx ∨ ∃ st ∈ l, epsReach σ st j ∧ epsOf σ j = []) := by
  intro fuel
  induction fuel with
  | zero =>
    constructor
    · intro i nx vis j hj
      simp only [addNextState] at hj
      exact Or.inl hj
    · intro l
      induction l with
      | nil =>
        intro nx vis j hj
        simp only [goEps] at hj
        exact Or.inl hj
      | cons st rest ih =>
        intro nx vis j hj
        simp only [goEps] at hj
        by_cases hst : st ∈ vis
        · rw [if_pos hst] at hj
          rcases ih nx vis j hj with h | ⟨st', hmem, hr⟩
          · exact Or.inl h
          · exact Or.inr ⟨st', by simp [hmem], hr⟩
        · rw [if_neg hst] at hj
          simp only [addNextState] at hj
          rcases ih nx (vis ++ [st]) j hj with h | ⟨st', hmem, hr⟩
          · exact Or.inl h
          · exact Or.inr ⟨st', by simp [hmem], hr⟩
  | succ fuel ih =>
    have hA : ∀ i nx vis j, j ∈ (addNextState σ (fuel + 1) i nx vis).1 →
        j ∈ nx ∨ (epsReach σ i j ∧ epsOf σ j = []) := by
      intro i nx vis j hj
      simp only [addNextState] at hj
      by_cases he : epsOf σ i = []
      · rw [if_pos he] at hj
        rcases List.mem_append.mp hj with h | h
        · exact Or.inl h
        · simp only [List.mem_singleton] at h
          subst h
          exact Or.inr ⟨.refl _, he⟩
      · rw [if_neg he] at hj
        rcases ih.2 (epsOf σ i) nx vis j hj with h | ⟨st, hmem, hr, hj0⟩
        · exact Or.inl h
        · exact Or.inr ⟨.eps trivial hmem hr, hj0⟩
    refine ⟨hA, ?_⟩
    intro l
    induction l with
    | nil =>
      intro nx vis j hj
      simp only [goEps] at hj
      exact Or.inl hj
    | cons st rest ihl =>
      intro nx vis j hj
      simp only [goEps] at hj
      by_cases hst : st ∈ vis
      · rw [if_pos hst] at hj
        rcases ihl nx vis j hj with h | ⟨st', hmem, hr⟩
        · exact Or.inl h
        · exact Or.inr ⟨st', by simp [hmem], hr⟩
      · rw [if_neg hst] at hj
        rcases ihl _ _ j hj with h | ⟨st', hmem, hr⟩
        · rcases hA st nx (vis ++ [st]) j h with h' | ⟨hr, hj0⟩
          · exact Or.inl h'
          · exact Or.inr ⟨st, by simp, hr, hj0⟩
        · exact Or.inr ⟨st', by simp [hmem], hr⟩

/-- A state is handled by a closure walk when, if it carries no epsilon
transitions it has been added to `nextStates`, and all its epsilon
targets have been visited. -/
def handled (σ : Arena) (nx vis : List Nat) (x : Nat) : Prop :=
  (epsOf σ x = [] → x ∈ nx) ∧ (∀ t ∈ epsOf σ x, t ∈ vis)

theorem handled_mono {σ : Arena} {nx vis nx' vis' : List Nat} {x : Nat}
    (h : handled σ nx vis x) (hn : ∃ d, nx' = nx ++ d) (hv : ∃ d, vis' = vis ++ d) :
    handled σ nx' vis' x := by
  obtain ⟨h1, h2⟩ := h
  obtain ⟨d, rfl⟩ := hn
  obtain ⟨d', rfl⟩ := hv
  exact ⟨fun he => List.mem_append_left _ (h1 he),
    fun t ht => List.mem_append_left _ (h2 t ht)⟩

/-- The main invariant of the fueled epsilon-closure walk: with enough
fuel, the walk visits only allocated states, never revisits, and leaves
the walked state and every newly visited state handled. -/
theorem ans_inv (σ : Arena) (hG : GoodArena σ) : ∀ fuel,
    (∀ i nx vis, σ.length - vis.length < fuel → vis.Nodup →
      (∀ v ∈ vis, v < σ.length) → i < σ.length →
      (∃ d, (addNextState σ fuel i nx vis).2 = vis ++ d) ∧
      (addNextState σ fuel i nx vis).2.Nodup ∧
      (∀ v ∈ (addNextState σ fuel i nx vis).2, v < σ.length) ∧
      (∃ d, (addNextState σ fuel i nx vis).1 = nx ++ d) ∧
      handled σ (addNextState σ fuel i nx vis).1 (addNextState σ fuel i nx vis).2 i ∧
      (∀ v ∈ (addNextState σ fuel i nx vis).2, v ∉ vis →
        handled σ (addNextState σ fuel i nx vis).1 (addNextState σ fuel i nx vis).2 v)) ∧
    (∀ l nx vis, σ.length - vis.length ≤ fuel → vis.Nodup →
      (∀ v ∈ vis, v < σ.length) → (∀ st ∈ l, st < σ.length) →
      (∃ d, (goEps σ fuel l nx vis).2 = vis ++ d) ∧
      (goEps σ fuel l nx vis).2.Nodup ∧
      (∀ v ∈ (goEps σ fuel l nx vis).2, v < σ.length) ∧
      (∃ d, (goEps σ fuel l nx vis).1 = nx ++ d) ∧
      (∀ st ∈ l, st ∈ (goEps σ fuel l nx vis).2) ∧
      (∀ v ∈ (goEps σ fuel l nx vis).2, v ∉ vis →
        handled σ (goEps σ fuel l nx vis).1 (goEps σ fuel l nx vis).2 v)) := by
  intro fuel
  induction fuel with
  | zero =>
    constructor
    · intro i nx vis hfuel _ _ _
      omega
    · intro l
      induction l with
      | nil =>
        intro nx vis _ hnd hbd _
        simp only [goEps]
        exact ⟨⟨[], by simp⟩, hnd, hbd, ⟨[], by simp⟩, by simp, fun v hv hv' => absurd hv hv'⟩
      | cons st rest ih =>
        intro nx vis hfuel hnd hbd hl
        by_cases hst : st ∈ vis
        · have hrest := ih nx vis hfuel hnd hbd (fun x hx => hl x (by simp [hx]))
          obtain ⟨⟨d2, hpre2⟩, hnd', hbd', hpre1, hmem, hhand⟩ := hrest
          simp only [goEps]
          rw [if_pos hst]
          refine ⟨⟨d2, hpre2⟩, hnd', hbd', hpre1, ?_, hhand⟩
          intro x hx
          rcases List.mem_cons.mp hx with rfl | hx
          · rw [hpre2]; exact List.mem_append_left _ hst
          · exact hmem x hx
        · exfalso
          have hb1 : (vis ++ [st]).Nodup := by
            simp [List.nodup_append, hnd, hst]
          have hb2 : ∀ v ∈ vis ++ [st], v < σ.length := by
            intro v hv
            rcases List.mem_append.mp hv with h | h
            · exact hbd v h
            · simp only [List.mem_singleton] at h
              have := hl st (by simp)
              omega
          have hlen := nodup_bounded_length hb1 hb2
          simp only [List.length_append, List.length_singleton] at hlen
          omega
  | succ fuel ih =>
    have hA : ∀ i nx vis, σ.length - vis.length < fuel + 1 → vis.Nodup →
        (∀ v ∈ vis, v < σ.length) → i < σ.length →
        (∃ d, (addNextState σ (fuel + 1) i nx vis).2 = vis ++ d) ∧
        (addNextState σ (fuel + 1) i nx vis).2.Nodup ∧
        (∀ v ∈ (addNextState σ (fuel + 1) i nx vis).2, v < σ.length) ∧
        (∃ d, (addNextState σ (fuel + 1) i nx vis).1 = nx ++ d) ∧
        handled σ (addNextState σ (fuel + 1) i nx vis).1
          (addNextState σ (fuel + 1) i nx vis).2 i ∧
        (∀ v ∈ (addNextState σ (fuel + 1) i nx vis).2, v ∉ vis →
          handled σ (addNextState σ (fuel + 1) i nx vis).1
            (addNextState σ (fuel + 1) i nx vis).2 v) := by
      intro i nx vis hfuel hnd hbd hi
      by_cases he : epsOf σ i = []
      · simp only [addNextState]
        rw [if_pos he]
        refine ⟨⟨[], by simp⟩, hnd, hbd, ⟨[i], rfl⟩, ⟨fun _ => by simp, ?_⟩,
          fun v hv hv' => absurd hv hv'⟩
        rw [he]
        intro t ht
        cases ht
      · simp only [addNextState]
        rw [if_neg he]
        have hl : ∀ st ∈ epsOf σ i, st < σ.length := by
          intro st hst
          exact (hG i hi).1 st (mem_targets_of_eps hst)
        obtain ⟨hpre2, hnd', hbd', hpre1, hmem, hhand⟩ :=
          ih.2 (epsOf σ i) nx vis (by omega) hnd hbd hl
        exact ⟨hpre2, hnd', hbd', hpre1, ⟨fun h0 => absurd h0 he, hmem⟩, hhand⟩
    refine ⟨hA, ?_⟩
    intro l
    induction l with
    | nil =>
      intro nx vis _ hnd hbd _
      simp only [goEps]
      exact ⟨⟨[], by simp⟩, hnd, hbd, ⟨[], by simp⟩, by simp, fun v hv hv' => absurd hv hv'⟩
    | cons st rest ihl =>
      intro nx vis hfuel hnd hbd hl
      by_cases hst : st ∈ vis
      · have hrest := ihl nx vis hfuel hnd hbd (fun x hx => hl x (by simp [hx]))
        obtain ⟨⟨d2, hpre2⟩, hnd', hbd', hpre1, hmem, hhand⟩ := hrest
        simp only [goEps]
        rw [if_pos hst]
        refine ⟨⟨d2, hpre2⟩, hnd', hbd', hpre1, ?_, hhand⟩
        intro x hx
        rcases List.mem_cons.mp hx with rfl | hx
        · rw [hpre2]; exact List.mem_append_left _ hst
        · exact hmem x hx
      · simp only [goEps]
        rw [if_neg hst]
        have hvb1 : (vis ++ [st]).Nodup := by
          simp [List.nodup_append, hnd, hst]
        have hvb2 : ∀ v ∈ vis ++ [st], v < σ.length := by
          intro v hv
          rcases List.mem_append.mp hv with h | h
          · exact hbd v h
          · simp only [List.mem_singleton] at h
            have := hl st (by simp)
            omega
        have hlenvb := nodup_bounded_length hvb1 hvb2
        simp only [List.length_append, List.length_singleton] at hlenvb
        have hfuelA : σ.length - (vis ++ [st]).length < fuel + 1 := by
          simp only [List.length_append, List.length_singleton]
          omega
        obtain ⟨⟨dA2, hApre2⟩, hAnd, hAbd, ⟨dA1, hApre1⟩, hAroot, hAhand⟩ :=
          hA st nx (vis ++ [st]) hfuelA hvb1 hvb2 (hl st (by simp))
        set ansr := addNextState σ (fuel + 1) st nx (vis ++ [st]) with hansr
        have hlenansr : ansr.2.length = vis.length + 1 + dA2.length := by
          rw [hApre2]
          simp
          omega
        obtain ⟨⟨dG2, hGpre2⟩, hGnd, hGbd, ⟨dG1, hGpre1⟩, hGmem, hGhand⟩ :=
          ihl ansr.1 ansr.2 (by omega) hAnd hAbd (fun x hx => hl x (by simp [hx]))
        refine ⟨?_, hGnd, hGbd, ?_, ?_, ?_⟩
        · refine ⟨[st] ++ dA2 ++ dG2, ?_⟩
          rw [hGpre2, hApre2]
          simp [List.append_assoc]
        · refine ⟨dA1 ++ dG1, ?_⟩
          rw [hGpre1, hApre1]
          simp [List.append_assoc]
        · intro x hx
          rcases List.mem_cons.mp hx with rfl | hx
          · rw [hGpre2, hApre2]
            refine List.mem_append_left _ (List.mem_append_left _ ?_)
            simp
          · exact hGmem x hx
        · intro v hv hvnotvis
          by_cases hva : v ∈ ansr.2
          · have hhandA : handled σ ansr.1 ansr.2 v := by
              by_cases hvv : v ∈ vis ++ [st]
              · have : v = st := by
                  rcases List.mem_append.mp hvv with h | h
                  · exact absurd h hvnotvis
                  · simpa using h
                subst this
                exact hAroot
              · exact hAhand v hva hvv
            exact handled_mono hhandA ⟨dG1, hGpre1⟩ ⟨dG2, hGpre2⟩
          · exact hGhand v hv hva

/-- Completeness of the closure walk as `search` invokes it: every
epsilon-reachable state without epsilon transitions is collected. -/
theorem ans_complete (σ : Arena) (hG : GoodArena σ) {i : Nat} (hi : i < σ.length) :
    ∀ j, epsReach σ i j → epsOf σ j = [] →
      j ∈ (addNextState σ (σ.length + 1) i [] []).1 := by
  obtain ⟨⟨d2, hpre2⟩, hnd, hbd, ⟨d1, hpre1⟩, hroot, hall⟩ :=
    (ans_inv σ hG (σ.length + 1)).1 i [] []
      (by simp only [List.length_nil]; omega) List.nodup_nil (by simp) hi
  intro j hr hj
  have key : ∀ x ww j', Path σ (fun _ => True) x ww j' → ww = [] →
      (x = i ∨ x ∈ (addNextState σ (σ.length + 1) i [] []).2) →
      epsOf σ j' = [] → j' ∈ (addNextState σ (σ.length + 1) i [] []).1 := by
    intro x ww j' p
    induction p with
    | refl a =>
      intro _ hx he
      rcases hx with rfl | hx
      · exact hroot.1 he
      · exact (hall a hx (by simp)).1 he
    | @eps a m k ww h1 h2 sub ihp =>
      intro hw hx he
      have hm : m ∈ (addNextState σ (σ.length + 1) i [] []).2 := by
        rcases hx with rfl | hx
        · exact hroot.2 m h2
        · exact (hall a hx (by simp)).2 m h2
      exact ihp hw (Or.inr hm) he
    | @step a m k ww c h1 h2 sub ihp =>
      intro hw
      simp at hw
  exact key i [] j hr rfl (Or.inl rfl) hj

/-- The closure set computed by `addNextState` contains exactly the
epsilon-reachable states without epsilon transitions. -/
theorem mem_closureL {σ : Arena} (hG : GoodArena σ) {i : Nat} (hi : i < σ.length)
    (j : Nat) : j ∈ closureL σ i ↔ (epsReach σ i j ∧ epsOf σ j = []) := by
  constructor
  · intro hj
    rcases (ans_sound σ (σ.length + 1)).1 i [] [] j hj with h | h
    · cases h
    · exact h
  · rintro ⟨hr, he⟩
    exact ans_complete σ hG hi j hr he

/-- Membership in one simulation step. -/
theorem mem_stepStates {σ : Arena} (S : List Nat) (c : Char) (j : Nat) :
    j ∈ stepStates σ S c ↔ ∃ x ∈ S, ∃ y,
      lookupTrans σ x (String.singleton c) = some y ∧ j ∈ closureL σ y := by
  suffices h : ∀ acc, j ∈ S.foldl
      (fun nextStates state =>
        match lookupTrans σ state (String.singleton c) with
        | some nextState => (addNextState σ (σ.length + 1) nextState nextStates []).1
        | none => nextStates) acc ↔
      j ∈ acc ∨ ∃ x ∈ S, ∃ y,
        lookupTrans σ x (String.singleton c) = some y ∧ j ∈ closureL σ y by
    have hh := h []
    simp only [List.not_mem_nil, false_or] at hh
    exact hh
  intro acc
  induction S generalizing acc with
  | nil => simp
  | cons s0 rest ih =>
    simp only [List.foldl_cons]
    cases hlk : lookupTrans σ s0 (String.singleton c) with
    | none =>
      simp only [hlk]
      rw [ih]
      constructor
      · rintro (h | ⟨x, hx, y, hy, hj⟩)
        · exact Or.inl h
        · exact Or.inr ⟨x, by simp [hx], y, hy, hj⟩
      · rintro (h | ⟨x, hx, y, hy, hj⟩)
        · exact Or.inl h
        · rcases List.mem_cons.mp hx with rfl | hx
          · rw [hlk] at hy
            cases hy
          · exact Or.inr ⟨x, hx, y, hy, hj⟩
    | some y0 =>
      simp only [hlk]
      rw [ih]
      have hacc := ((ans_acc σ (σ.length + 1)).1 y0 acc []).1
      constructor
      · rintro (h | ⟨x, hx, y, hy, hj⟩)
        · rw [hacc] at h
          rcases List.mem_append.mp h with h | h
          · exact Or.inl h
          · exact Or.inr ⟨s0, by simp, y0, hlk, h⟩
        · exact Or.inr ⟨x, by simp [hx], y, hy, hj⟩
      · rintro (h | ⟨x, hx, y, hy, hj⟩)
        · refine Or.inl ?_
          rw [hacc]
          exact List.mem_append_left _ h
        · rcases List.mem_cons.mp hx with rfl | hx
          · rw [hlk] at hy
            injection hy with hy
            subst hy
            refine Or.inl ?_
            rw [hacc]
            exact List.mem_append_right _ hj
          · exact Or.inr ⟨x, hx, y, hy, hj⟩

/-- Correctness of the active-state-set simulation: `search` accepts a
word exactly when the automaton has an accepting path, here stated for
a well-formed fragment whose unique accepting state is its end state. -/
theorem search_iff {σ : Arena} {R : Finset Nat} {f : NFA} (hG : GoodArena σ)
    (hF : IsFrag σ R f) (w : List Char) :
    search σ f w = true ↔ Path σ (fun i => i ∈ R) f.start w f.endState := by
  obtain ⟨hb, hs, he, hne, hcl, hout, hacc, huniq⟩ := hF
  have endR : ∀ {s ww j}, s ∈ R → Path σ (fun i => i ∈ R) s ww j → j ∈ R := by
    intro s ww j hsR p
    exact (Path.confine hcl (p.mono (fun _ _ => trivial)) hsR).2
  have hInit : ∀ j, j ∈ closureL σ f.start ↔
      (Path σ (fun i => i ∈ R) f.start [] j ∧ epsOf σ j = []) := by
    intro j
    rw [mem_closureL hG (hb _ hs) j]
    constructor
    · rintro ⟨hr, hje⟩
      exact ⟨((Path.confine hcl hr hs).1).mono (fun i hi => hi.2), hje⟩
    · rintro ⟨hp, hje⟩
      exact ⟨hp.mono (fun _ _ => trivial), hje⟩
  have hStep : ∀ S u c, (∀ j, j ∈ S ↔
        (Path σ (fun i => i ∈ R) f.start u j ∧ epsOf σ j = [])) →
      ∀ j, j ∈ stepStates σ S c ↔
        (Path σ (fun i => i ∈ R) f.start (u ++ [c]) j ∧ epsOf σ j = []) := by
    intro S u c hS j
    rw [mem_stepStates]
    constructor
    · rintro ⟨x, hxS, y, hlk, hjy⟩
      obtain ⟨hpx, hxe⟩ := (hS x).mp hxS
      have hxR : x ∈ R := endR hs hpx
      have hyR : y ∈ R := hcl x hxR y (mem_targets_of_lookup hlk)
      rw [mem_closureL hG (hb _ hyR) j] at hjy
      obtain ⟨hry, hje⟩ := hjy
      have pyj : Path σ (fun i => i ∈ R) y [] j :=
        ((Path.confine hcl hry hyR).1).mono (fun i hi => hi.2)
      exact ⟨hpx.append (.step c hxR hlk pyj), hje⟩
    · rintro ⟨hp, hje⟩
      obtain ⟨x, y, hpu, hxR, hlk, hpyj⟩ := hp.snoc_decomp u rfl
      have hxe : epsOf σ x = [] := by
        have hxn : x < σ.length := hb _ hxR
        have htne : transOf σ x ≠ [] := by
          intro h0
          rw [lookupTrans, h0] at hlk
          cases hlk
        by_contra hne0
        exact htne ((hG x hxn).2.1 hne0)
      have hxS : x ∈ S := (hS x).mpr ⟨hpu, hxe⟩
      have hyR : y ∈ R := hcl x hxR y (mem_targets_of_lookup hlk)
      refine ⟨x, hxS, y, hlk, ?_⟩
      rw [mem_closureL hG (hb _ hyR) j]
      exact ⟨hpyj.mono (fun _ _ => trivial), hje⟩
  have hFold : ∀ ww S u, (∀ j, j ∈ S ↔
        (Path σ (fun i => i ∈ R) f.start u j ∧ epsOf σ j = [])) →
      ∀ j, j ∈ ww.foldl (stepStates σ) S ↔
        (Path σ (fun i => i ∈ R) f.start (u ++ ww) j ∧ epsOf σ j = []) := by
    intro ww
    induction ww with
    | nil =>
      intro S u hS j
      simpa using hS j
    | cons c rest ih =>
      intro S u hS j
      rw [List.foldl_cons]
      have hstep := hStep S u c hS
      have := ih (stepStates σ S c) (u ++ [c]) hstep j
      rw [this]
      simp
  have hsearch : search σ f w =
      ((w.foldl (stepStates σ) (closureL σ f.start)).find?
        (fun s => (getSt σ s).isEnd)).isSome := rfl
  have hFin := hFold w (closureL σ f.start) [] hInit
  rw [hsearch]
  constructor
  · intro hfind
    obtain ⟨j, hjmem, hjend⟩ := List.find?_isSome.mp hfind
    obtain ⟨hpj, -⟩ := (hFin j).mp hjmem
    simp only [List.nil_append] at hpj
    have hjR : j ∈ R := endR hs hpj
    have : j = f.endState := huniq j hjR (by simpa using hjend)
    rwa [this] at hpj
  · intro hp
    have hje : epsOf σ f.endState = [] := eps_eq_of_targets_nil hout
    have hmem : f.endState ∈ w.foldl (stepStates σ) (closureL σ f.start) := by
      rw [hFin f.endState]
      simp only [List.nil_append]
      exact ⟨hp, hje⟩
    apply List.find?_isSome.mpr
    exact ⟨f.endState, hmem, by simpa using hacc⟩

/-! ## Structural soundness of the tree compiler -/

theorem Ico_snoc_two (a b : Nat) (hab : a ≤ b) :
    Finset.Ico a b ∪ {b, b + 1} = Finset.Ico a (b + 2) := by
  ext i
  simp only [Finset.mem_union, Finset.mem_Ico, Finset.mem_insert, Finset.mem_singleton]
  omega

theorem Ico_disjoint_consec (a b c : Nat) :
    Disjoint (Finset.Ico a b) (Finset.Ico b c) := by
  rw [Finset.disjoint_left]
  intro x hx hx'
  rw [Finset.mem_Ico] at hx hx'
  omega

theorem frag_transport_Ico {σ1 σ2 : Arena} {f : NFA} {a : Nat}
    (hF : IsFrag σ1 (Finset.Ico a σ1.length) f)
    (hlen : σ1.length ≤ σ2.length)
    (hu : ∀ i < σ1.length, getSt σ2 i = getSt σ1 i) :
    IsFrag σ2 (Finset.Ico a σ1.length) f :=
  hF.transportFrag hlen (fun i hi => hu i ((Finset.mem_Ico.mp hi).2))

theorem toNFAfromParseTree_zero (σ : Arena) (t : TreeNode) :
    toNFAfromParseTree 0 σ t = none := rfl

theorem toNFAfromParseTree_leaf (fuel : Nat) (σ : Arena) (l : Option String) :
    toNFAfromParseTree (fuel + 1) σ (.leaf l) = none := rfl

theorem toNFAfromParseTree_node_nil (fuel : Nat) (σ : Arena) (l : Option String) :
    toNFAfromParseTree (fuel + 1) σ (.node l []) = none := by
  have h : toNFAfromParseTree (fuel + 1) σ (.node l []) =
      (if l = some "Expr" then none
       else if l = some "Term" then none
       else if l = some "Factor" then none
       else if l = some "Atom" then none
       else if l = some "Char" then none
       else none) := rfl
  rw [h]
  split_ifs <;> rfl

theorem toNFAfromParseTree_node_cons (fuel : Nat) (σ : Arena) (l : Option String)
    (c0 : TreeNode) (rest : List TreeNode) :
    toNFAfromParseTree (fuel + 1) σ (.node l (c0 :: rest)) =
    (if l = some "Expr" then
      (do
        let (σ1, trm) ← toNFAfromParseTree fuel σ c0
        match rest with
        | [_, c2] => do
          let (σ2, n2) ← toNFAfromParseTree fuel σ1 c2
          return union σ2 trm n2
        | _ => return (σ1, trm))
    else if l = some "Term" then
      (do
        let (σ1, factr) ← toNFAfromParseTree fuel σ c0
        match rest with
        | [c1] => do
          let (σ2, n2) ← toNFAfromParseTree fuel σ1 c1
          return concat σ2 factr n2
        | _ => return (σ1, factr))
    else if l = some "Factor" then
      (do
        let (σ1, atm) ← toNFAfromParseTree fuel σ c0
        match rest with
        | [c1] =>
          if c1.labelOf = some "*" then return closure σ1 atm
          else if c1.labelOf = some "+" then return oneOrMore σ1 atm
          else if c1.labelOf = some "?" then return zeroOrOne σ1 atm
          else return (σ1, atm)
        | _ => return (σ1, atm))
    else if l = some "Atom" then
      (match c0 :: rest with
        | [_, c1, _] => toNFAfromParseTree fuel σ c1
        | c0 :: _ => toNFAfromParseTree fuel σ c0
        | [] => none)
    else if l = some "Char" then
      (match c0 :: rest with
        | [_, c1] => return fromSymbol σ (labelKey c1)
        | c0 :: _ => return fromSymbol σ (labelKey c0)
        | [] => none)
    else none) := rfl

/-- Structural soundness of the tree compiler on every tree it accepts:
from a well-formed arena, compilation extends the arena by at least the
two states of one primitive, keeps it well-formed, leaves pre-existing
states untouched, and the returned fragment occupies exactly the
freshly allocated region. -/
theorem compile_frag : ∀ (fuel : Nat) (t : TreeNode) (σ : Arena), GoodArena σ →
    ∀ (p : Arena × NFA), toNFAfromParseTree fuel σ t = some p →
    σ.length + 2 ≤ p.1.length ∧ GoodArena p.1 ∧
    (∀ i < σ.length, getSt p.1 i = getSt σ i) ∧
    IsFrag p.1 (Finset.Ico σ.length p.1.length) p.2 := by
  intro fuel
  induction fuel with
  | zero =>
    intro t σ hG p hp
    rw [toNFAfromParseTree_zero] at hp
    exact Option.noConfusion hp
  | succ n ih =>
    intro t σ hG p hp
    cases t with
    | leaf l =>
      rw [toNFAfromParseTree_leaf] at hp
      exact Option.noConfusion hp
    | node l cs =>
      cases cs with
      | nil =>
        rw [toNFAfromParseTree_node_nil] at hp
        exact Option.noConfusion hp
      | cons c0 rest =>
        rw [toNFAfromParseTree_node_cons] at hp
        by_cases hE : l = some "Expr"
        · rw [if_pos hE] at hp
          cases hc0 : toNFAfromParseTree n σ c0 with
          | none => rw [hc0] at hp; exact Option.noConfusion hp
          | some q0 =>
            obtain ⟨σ1, trm⟩ := q0
            rw [hc0] at hp
            obtain ⟨hL0x, hG0x, hU0x, hF0x⟩ := ih c0 σ hG (σ1, trm) hc0
            have hL0 : σ.length + 2 ≤ σ1.length := hL0x
            have hG0 : GoodArena σ1 := hG0x
            have hU0 : ∀ i < σ.length, getSt σ1 i = getSt σ i := hU0x
            have hF0 : IsFrag σ1 (Finset.Ico σ.length σ1.length) trm := hF0x
            rcases rest with _ | ⟨a, _ | ⟨c2, _ | ⟨c3, rest'⟩⟩⟩
            · have hp2 : some (σ1, trm) = some p := hp
              obtain rfl := Option.some.inj hp2
              exact ⟨hL0, hG0, hU0, hF0⟩
            · have hp2 : some (σ1, trm) = some p := hp
              obtain rfl := Option.some.inj hp2
              exact ⟨hL0, hG0, hU0, hF0⟩
            · have hp2 : (do
                  let (σ2, n2) ← toNFAfromParseTree n σ1 c2
                  return union σ2 trm n2) = some p := hp
              cases hc2 : toNFAfromParseTree n σ1 c2 with
              | none => rw [hc2] at hp2; exact Option.noConfusion hp2
              | some q2 =>
                obtain ⟨σ2, n2⟩ := q2
                rw [hc2] at hp2
                have hp3 : some (union σ2 trm n2) = some p := hp2
                obtain rfl := Option.some.inj hp3
                obtain ⟨hL2x, hG2x, hU2x, hF2x⟩ := ih c2 σ1 hG0 (σ2, n2) hc2
                have hL2 : σ1.length + 2 ≤ σ2.length := hL2x
                have hG2 : GoodArena σ2 := hG2x
                have hU2 : ∀ i < σ1.length, getSt σ2 i = getSt σ1 i := hU2x
                have hF2 : IsFrag σ2 (Finset.Ico σ1.length σ2.length) n2 := hF2x
                have hF0' : IsFrag σ2 (Finset.Ico σ.length σ1.length) trm :=
                  frag_transport_Ico hF0 (by omega) hU2
                obtain ⟨huL, huRes, huG, huU, huF, _⟩ :=
                  union_spec σ2 trm n2 hG2 hF0' hF2 (Ico_disjoint_consec _ _ _)
                have hreg : Finset.Ico σ.length σ1.length ∪
                    Finset.Ico σ1.length σ2.length ∪ {σ2.length, σ2.length + 1} =
                    Finset.Ico σ.length (σ2.length + 2) := by
                  rw [Finset.Ico_union_Ico_eq_Ico (by omega) (by omega),
                    Ico_snoc_two _ _ (by omega)]
                rw [hreg] at huF
                have hAend := hF0.2.2.1
                have hBend := hF2.2.2.1
                rw [Finset.mem_Ico] at hAend hBend
                refine ⟨by omega, huG, ?_, ?_⟩
                · intro i hi
                  rw [huU i (by omega) (by omega) (by omega),
                    hU2 i (by omega), hU0 i hi]
                · rw [huL]
                  exact huF
            · have hp2 : some (σ1, trm) = some p := hp
              obtain rfl := Option.some.inj hp2
              exact ⟨hL0, hG0, hU0, hF0⟩
        · rw [if_neg hE] at hp
          by_cases hT : l = some "Term"
          · rw [if_pos hT] at hp
            cases hc0 : toNFAfromParseTree n σ c0 with
            | none => rw [hc0] at hp; exact Option.noConfusion hp
            | some q0 =>
              obtain ⟨σ1, factr⟩ := q0
              rw [hc0] at hp
              obtain ⟨hL0x, hG0x, hU0x, hF0x⟩ := ih c0 σ hG (σ1, factr) hc0
              have hL0 : σ.length + 2 ≤ σ1.length := hL0x
              have hG0 : GoodArena σ1 := hG0x
              have hU0 : ∀ i < σ.length, getSt σ1 i = getSt σ i := hU0x
              have hF0 : IsFrag σ1 (Finset.Ico σ.length σ1.length) factr := hF0x
              rcases rest with _ | ⟨c1, _ | ⟨c2, rest'⟩⟩
              · have hp2 : some (σ1, factr) = some p := hp
                obtain rfl := Option.some.inj hp2
                exact ⟨hL0, hG0, hU0, hF0⟩
              · have hp2 : (do
                    let (σ2, n2) ← toNFAfromParseTree n σ1 c1
                    return concat σ2 factr n2) = some p := hp
                cases hc1 : toNFAfromParseTree n σ1 c1 with
                | none => rw [hc1] at hp2; exact Option.noConfusion hp2
                | some q1 =>
                  obtain ⟨σ2, n2⟩ := q1
                  rw [hc1] at hp2
                  have hp3 : some (concat σ2 factr n2) = some p := hp2
                  obtain rfl := Option.some.inj hp3
                  obtain ⟨hL2x, hG2x, hU2x, hF2x⟩ := ih c1 σ1 hG0 (σ2, n2) hc1
                  have hL2 : σ1.length + 2 ≤ σ2.length := hL2x
                  have hG2 : GoodArena σ2 := hG2x
                  have hU2 : ∀ i < σ1.length, getSt σ2 i = getSt σ1 i := hU2x
                  have hF2 : IsFrag σ2 (Finset.Ico σ1.length σ2.length) n2 := hF2x
                  have hF0' : IsFrag σ2 (Finset.Ico σ.length σ1.length) factr :=
                    frag_transport_Ico hF0 (by omega) hU2
                  obtain ⟨hcL, hcRes, hcG, hcU, hcF, _⟩ :=
                    concat_spec σ2 factr n2 hG2 hF0' hF2 (Ico_disjoint_consec _ _ _)
                  have hreg : Finset.Ico σ.length σ1.length ∪
                      Finset.Ico σ1.length σ2.length =
                      Finset.Ico σ.length σ2.length :=
                    Finset.Ico_union_Ico_eq_Ico (by omega) (by omega)
                  rw [hreg] at hcF
                  have hAend := hF0.2.2.1
                  rw [Finset.mem_Ico] at hAend
                  refine ⟨by omega, hcG, ?_, ?_⟩
                  · intro i hi
                    rw [hcU i (by omega), hU2 i (by omega), hU0 i hi]
                  · rw [hcL]
                    exact hcF
              · have hp2 : some (σ1, factr) = some p := hp
                obtain rfl := Option.some.inj hp2
                exact ⟨hL0, hG0, hU0, hF0⟩
          · rw [if_neg hT] at hp
            by_cases hFc : l = some "Factor"
            · rw [if_pos hFc] at hp
              cases hc0 : toNFAfromParseTree n σ c0 with
              | none => rw [hc0] at hp; exact Option.noConfusion hp
              | some q0 =>
                obtain ⟨σ1, atm⟩ := q0
                rw [hc0] at hp
                obtain ⟨hL0x, hG0x, hU0x, hF0x⟩ := ih c0 σ hG (σ1, atm) hc0
                have hL0 : σ.length + 2 ≤ σ1.length := hL0x
                have hG0 : GoodArena σ1 := hG0x
                have hU0 : ∀ i < σ.length, getSt σ1 i = getSt σ i := hU0x
                have hF0 : IsFrag σ1 (Finset.Ico σ.length σ1.length) atm := hF0x
                have hAend := hF0.2.2.1
                rw [Finset.mem_Ico] at hAend
                rcases rest with _ | ⟨c1, _ | ⟨c2, rest'⟩⟩
                · have hp2 : some (σ1, atm) = some p := hp
                  obtain rfl := Option.some.inj hp2
                  exact ⟨hL0, hG0, hU0, hF0⟩
                · have hp2 : (if c1.labelOf = some "*" then some (closure σ1 atm)
                      else if c1.labelOf = some "+" then some (oneOrMore σ1 atm)
                      else if c1.labelOf = some "?" then some (zeroOrOne σ1 atm)
                      else some (σ1, atm)) = some p := hp
                  by_cases hm1 : c1.labelOf = some "*"
                  · rw [if_pos hm1] at hp2
                    obtain rfl := Option.some.inj hp2
                    obtain ⟨hoL, hoRes, hoG, hoU, hoF, _⟩ :=
                      closure_spec σ1 atm hG0 hF0
                    rw [Ico_snoc_two _ _ (by omega)] at hoF
                    refine ⟨by omega, hoG, ?_, ?_⟩
                    · intro i hi
                      rw [hoU i (by omega) (by omega), hU0 i hi]
                    · rw [hoL]
                      exact hoF
                  · rw [if_neg hm1] at hp2
                    by_cases hm2 : c1.labelOf = some "+"
                    · rw [if_pos hm2] at hp2
                      obtain rfl := Option.some.inj hp2
                      obtain ⟨hoL, hoRes, hoG, hoU, hoF, _⟩ :=
                        oneOrMore_spec σ1 atm hG0 hF0
                      rw [Ico_snoc_two _ _ (by omega)] at hoF
                      refine ⟨by omega, hoG, ?_, ?_⟩
                      · intro i hi
                        rw [hoU i (by omega) (by omega), hU0 i hi]
                      · rw [hoL]
                        exact hoF
                    · rw [if_neg hm2] at hp2
                      by_cases hm3 : c1.labelOf = some "?"
                      · rw [if_pos hm3] at hp2
                        obtain rfl := Option.some.inj hp2
                        obtain ⟨hoL, hoRes, hoG, hoU, hoF, _⟩ :=
                          zeroOrOne_spec σ1 atm hG0 hF0
                        rw [Ico_snoc_two _ _ (by omega)] at hoF
                        refine ⟨by omega, hoG, ?_, ?_⟩
                        · intro i hi
                          rw [hoU i (by omega) (by omega), hU0 i hi]
                        · rw [hoL]
                          exact hoF
                      · rw [if_neg hm3] at hp2
                        obtain rfl := Option.some.inj hp2
                        exact ⟨hL0, hG0, hU0, hF0⟩
                · have hp2 : some (σ1, atm) = some p := hp
                  obtain rfl := Option.some.inj hp2
                  exact ⟨hL0, hG0, hU0, hF0⟩
            · rw [if_neg hFc] at hp
              by_cases hA : l = some "Atom"
              · rw [if_pos hA] at hp
                rcases rest with _ | ⟨a1, _ | ⟨a2, _ | ⟨a3, rest'⟩⟩⟩
                · exact ih c0 σ hG p hp
                · exact ih c0 σ hG p hp
                · exact ih a1 σ hG p hp
                · exact ih c0 σ hG p hp
              · rw [if_neg hA] at hp
                by_cases hC : l = some "Char"
                · rw [if_pos hC] at hp
                  rcases rest with _ | ⟨a1, _ | ⟨a2, rest'⟩⟩
                  · have hp2 : some (fromSymbol σ (labelKey c0)) = some p := hp
                    obtain rfl := Option.some.inj hp2
                    obtain ⟨fsL, fsRes, fsG, fsU, fsF, _⟩ :=
                      fromSymbol_spec σ (labelKey c0) hG
                    exact ⟨by omega, fsG, fsU, by rw [fsL]; exact fsF⟩
                  · have hp2 : some (fromSymbol σ (labelKey a1)) = some p := hp
                    obtain rfl := Option.some.inj hp2
                    obtain ⟨fsL, fsRes, fsG, fsU, fsF, _⟩ :=
                      fromSymbol_spec σ (labelKey a1) hG
                    exact ⟨by omega, fsG, fsU, by rw [fsL]; exact fsF⟩
                  · have hp2 : some (fromSymbol σ (labelKey c0)) = some p := hp
                    obtain rfl := Option.some.inj hp2
                    obtain ⟨fsL, fsRes, fsG, fsU, fsF, _⟩ :=
                      fromSymbol_spec σ (labelKey c0) hG
                    exact ⟨by omega, fsG, fsU, by rw [fsL]; exact fsF⟩
                · rw [if_neg hC] at hp
                  exact Option.noConfusion hp

/-! ## Structural soundness of the postfix stack machine -/

theorem forall2_transport_off {σ σ' : Arena} {e : Nat}
    (hlen : σ.length ≤ σ'.length)
    (hu : ∀ i < σ.length, i ≠ e → getSt σ' i = getSt σ i) :
    ∀ {Rs : List (Finset Nat)} {stack : List NFA},
    List.Forall₂ (IsFrag σ) Rs stack → (∀ R ∈ Rs, e ∉ R) →
    List.Forall₂ (IsFrag σ') Rs stack := by
  intro Rs stack h
  induction h with
  | nil => intro _; exact .nil
  | @cons R f Rs1 rest1 h1 h2 ih =>
    intro hnot
    refine .cons (h1.transportFrag hlen ?_) (ih (fun R' hR' => hnot R' (by simp [hR'])))
    intro i hi
    exact hu i (h1.1 i hi) (fun he => hnot R (by simp) (he ▸ hi))

theorem forall2_transport_off2 {σ σ' : Arena} {e1 e2 : Nat}
    (hlen : σ.length ≤ σ'.length)
    (hu : ∀ i < σ.length, i ≠ e1 → i ≠ e2 → getSt σ' i = getSt σ i) :
    ∀ {Rs : List (Finset Nat)} {stack : List NFA},
    List.Forall₂ (IsFrag σ) Rs stack → (∀ R ∈ Rs, e1 ∉ R ∧ e2 ∉ R) →
    List.Forall₂ (IsFrag σ') Rs stack := by
  intro Rs stack h
  induction h with
  | nil => intro _; exact .nil
  | @cons R f Rs1 rest1 h1 h2 ih =>
    intro hnot
    refine .cons (h1.transportFrag hlen ?_) (ih (fun R' hR' => hnot R' (by simp [hR'])))
    intro i hi
    exact hu i (h1.1 i hi)
      (fun he => (hnot R (by simp)).1 (he ▸ hi))
      (fun he => (hnot R (by simp)).2 (he ▸ hi))

theorem forall2_bound {σ : Arena} {Rs : List (Finset Nat)} {stack : List NFA}
    (h : List.Forall₂ (IsFrag σ) Rs stack) :
    ∀ R ∈ Rs, ∀ i ∈ R, i < σ.length := by
  induction h with
  | nil => intro R hR; cases hR
  | @cons R0 f Rs1 rest1 h1 h2 ih =>
    intro R hR
    rcases List.mem_cons.mp hR with rfl | hR'
    · exact h1.1
    · exact ih R hR'

theorem disjoint_snoc_two {R0 R : Finset Nat} {m : Nat}
    (hb : ∀ i ∈ R, i < m) (hD : Disjoint R0 R) :
    Disjoint (R0 ∪ {m, m + 1}) R := by
  rw [Finset.disjoint_left]
  intro x hx hxR
  rcases Finset.mem_union.mp hx with h | h
  · exact Finset.disjoint_left.mp hD h hxR
  · have := hb x hxR
    simp only [Finset.mem_insert, Finset.mem_singleton] at h
    omega

theorem disjoint_Ico_fresh {R : Finset Nat} {m k : Nat} (hb : ∀ i ∈ R, i < m) :
    Disjoint (Finset.Ico m k) R := by
  rw [Finset.disjoint_left]
  intro x hx hxR
  rw [Finset.mem_Ico] at hx
  exact absurd (hb x hxR) (by omega)

/-- A unary operator consumed the top fragment: the rest of the stack
transports and the new top's region stays disjoint from the rest. -/
theorem stack_unary {σ σ' : Arena} {s0 f' : NFA} {rest : List NFA}
    {R0 : Finset Nat} {Rs0 : List (Finset Nat)}
    (hF0 : IsFrag σ R0 s0) (hFr : List.Forall₂ (IsFrag σ) Rs0 rest)
    (hD : (R0 :: Rs0).Pairwise Disjoint)
    (hlen : σ.length ≤ σ'.length)
    (hu : ∀ i < σ.length, i ≠ s0.endState → getSt σ' i = getSt σ i)
    (hF' : IsFrag σ' (R0 ∪ {σ.length, σ.length + 1}) f') :
    List.Forall₂ (IsFrag σ') ((R0 ∪ {σ.length, σ.length + 1}) :: Rs0) (f' :: rest) ∧
    ((R0 ∪ {σ.length, σ.length + 1}) :: Rs0).Pairwise Disjoint := by
  have hse : s0.endState ∈ R0 := hF0.2.2.1
  have hDrest : ∀ R ∈ Rs0, Disjoint R0 R := (List.pairwise_cons.mp hD).1
  constructor
  · refine .cons hF' (forall2_transport_off hlen hu hFr ?_)
    intro R hR he
    exact Finset.disjoint_left.mp (hDrest R hR) hse he
  · rw [List.pairwise_cons]
    refine ⟨?_, (List.pairwise_cons.mp hD).2⟩
    intro R hR
    exact disjoint_snoc_two (forall2_bound hFr R hR) (hDrest R hR)

/-- `union` consumed the two top fragments. -/
theorem stack_binary_union {σ σ' : Arena} {left right f' : NFA} {rest : List NFA}
    {Rr Rl : Finset Nat} {Rs0 : List (Finset Nat)}
    (hFl : IsFrag σ Rl left) (hFr2 : IsFrag σ Rr right)
    (hFr : List.Forall₂ (IsFrag σ) Rs0 rest)
    (hD : (Rr :: Rl :: Rs0).Pairwise Disjoint)
    (hlen : σ.length ≤ σ'.length)
    (hu : ∀ i < σ.length, i ≠ left.endState → i ≠ right.endState →
      getSt σ' i = getSt σ i)
    (hF' : IsFrag σ' (Rl ∪ Rr ∪ {σ.length, σ.length + 1}) f') :
    List.Forall₂ (IsFrag σ') ((Rl ∪ Rr ∪ {σ.length, σ.length + 1}) :: Rs0) (f' :: rest) ∧
    ((Rl ∪ Rr ∪ {σ.length, σ.length + 1}) :: Rs0).Pairwise Disjoint := by
  have hsl : left.endState ∈ Rl := hFl.2.2.1
  have hsr : right.endState ∈ Rr := hFr2.2.2.1
  have hDr : ∀ R ∈ Rl :: Rs0, Disjoint Rr R := (List.pairwise_cons.mp hD).1
  have hDl : ∀ R ∈ Rs0, Disjoint Rl R :=
    (List.pairwise_cons.mp (List.pairwise_cons.mp hD).2).1
  constructor
  · refine .cons hF' (forall2_transport_off2 hlen hu hFr ?_)
    intro R hR
    constructor
    · exact fun he => Finset.disjoint_left.mp (hDl R hR) hsl he
    · exact fun he => Finset.disjoint_left.mp (hDr R (by simp [hR])) hsr he
  · rw [List.pairwise_cons]
    refine ⟨?_, (List.pairwise_cons.mp (List.pairwise_cons.mp hD).2).2⟩
    intro R hR
    refine disjoint_snoc_two (forall2_bound hFr R hR) ?_
    exact Finset.disjoint_union_left.mpr ⟨hDl R hR, hDr R (by simp [hR])⟩

/-- `concat` consumed the two top fragments; the arena keeps its length. -/
theorem stack_binary_concat {σ σ' : Arena} {left right f' : NFA} {rest : List NFA}
    {Rr Rl : Finset Nat} {Rs0 : List (Finset Nat)}
    (hFl : IsFrag σ Rl left) (hFr2 : IsFrag σ Rr right)
    (hFr : List.Forall₂ (IsFrag σ) Rs0 rest)
    (hD : (Rr :: Rl :: Rs0).Pairwise Disjoint)
    (hlen : σ.length ≤ σ'.length)
    (hu : ∀ i < σ.length, i ≠ left.endState → getSt σ' i = getSt σ i)
    (hF' : IsFrag σ' (Rl ∪ Rr) f') :
    List.Forall₂ (IsFrag σ') ((Rl ∪ Rr) :: Rs0) (f' :: rest) ∧
    ((Rl ∪ Rr) :: Rs0).Pairwise Disjoint := by
  have hsl : left.endState ∈ Rl := hFl.2.2.1
  have hDr : ∀ R ∈ Rl :: Rs0, Disjoint Rr R := (List.pairwise_cons.mp hD).1
  have hDl : ∀ R ∈ Rs0, Disjoint Rl R :=
    (List.pairwise_cons.mp (List.pairwise_cons.mp hD).2).1
  constructor
  · refine .cons hF' (forall2_transport_off hlen hu hFr ?_)
    intro R hR he
    exact Finset.disjoint_left.mp (hDl R hR) hsl he
  · rw [List.pairwise_cons]
    refine ⟨?_, (List.pairwise_cons.mp (List.pairwise_cons.mp hD).2).2⟩
    intro R hR
    exact Finset.disjoint_union_left.mpr ⟨hDl R hR, hDr R (by simp [hR])⟩

/-- One step of the postfix stack machine preserves arena
well-formedness and the stack-of-fragments invariant: every stack entry
is a well-formed fragment over its own region, the regions pairwise
disjoint. -/
theorem pushToken_ok (σ : Arena) (stack : List NFA) (Rs : List (Finset Nat)) (t : Char)
    (hG : GoodArena σ) (hF : List.Forall₂ (IsFrag σ) Rs stack)
    (hD : Rs.Pairwise Disjoint) :
    ∃ Rs', GoodArena (pushToken (σ, stack) t).1 ∧
      List.Forall₂ (IsFrag (pushToken (σ, stack) t).1) Rs' (pushToken (σ, stack) t).2 ∧
      Rs'.Pairwise Disjoint := by
  by_cases h1 : t = '*'
  · subst h1
    cases stack with
    | nil =>
      cases hF
      exact ⟨[], hG, .nil, .nil⟩
    | cons s0 rest =>
      cases hF with
      | cons hF0 hFr =>
        rename_i R0 Rs0
        have heq : pushToken (σ, s0 :: rest) '*' =
            ((closure σ s0).1, (closure σ s0).2 :: rest) := rfl
        rw [heq]
        obtain ⟨hoL, hoRes, hoG, hoU, hoF, _⟩ := closure_spec σ s0 hG hF0
        obtain ⟨hfa, hpw⟩ := stack_unary hF0 hFr hD (by omega) hoU hoF
        exact ⟨_, hoG, hfa, hpw⟩
  · by_cases h2 : t = '?'
    · subst h2
      cases stack with
      | nil =>
        cases hF
        exact ⟨[], hG, .nil, .nil⟩
      | cons s0 rest =>
        cases hF with
        | cons hF0 hFr =>
          rename_i R0 Rs0
          have heq : pushToken (σ, s0 :: rest) '?' =
              ((zeroOrOne σ s0).1, (zeroOrOne σ s0).2 :: rest) := rfl
          rw [heq]
          obtain ⟨hoL, hoRes, hoG, hoU, hoF, _⟩ := zeroOrOne_spec σ s0 hG hF0
          obtain ⟨hfa, hpw⟩ := stack_unary hF0 hFr hD (by omega) hoU hoF
          exact ⟨_, hoG, hfa, hpw⟩
    · by_cases h3 : t = '+'
      · subst h3
        cases stack with
        | nil =>
          cases hF
          exact ⟨[], hG, .nil, .nil⟩
        | cons s0 rest =>
          cases hF with
          | cons hF0 hFr =>
            rename_i R0 Rs0
            have heq : pushToken (σ, s0 :: rest) '+' =
                ((oneOrMore σ s0).1, (oneOrMore σ s0).2 :: rest) := rfl
            rw [heq]
            obtain ⟨hoL, hoRes, hoG, hoU, hoF, _⟩ := oneOrMore_spec σ s0 hG hF0
            obtain ⟨hfa, hpw⟩ := stack_unary hF0 hFr hD (by omega) hoU hoF
            exact ⟨_, hoG, hfa, hpw⟩
      · by_cases h4 : t = '|'
        · subst h4
          cases stack with
          | nil =>
            cases hF
            exact ⟨[], hG, .nil, .nil⟩
          | cons right rest1 =>
            cases rest1 with
            | nil =>
              cases hF with
              | cons hFr2 hFnil =>
                cases hFnil
                exact ⟨[], hG, .nil, .nil⟩
            | cons left rest =>
              cases hF with
              | cons hFr2 hFtl =>
                rename_i Rr Rs1
                cases hFtl with
                | cons hFl hFr =>
                  rename_i Rl Rs0
                  have heq : pushToken (σ, right :: left :: rest) '|' =
                      ((union σ left right).1, (union σ left right).2 :: rest) := rfl
                  rw [heq]
                  have hDlr : Disjoint Rl Rr :=
                    ((List.pairwise_cons.mp hD).1 Rl (by simp)).symm
                  obtain ⟨huL, huRes, huG, huU, huF, _⟩ :=
                    union_spec σ left right hG hFl hFr2 hDlr
                  obtain ⟨hfa, hpw⟩ :=
                    stack_binary_union hFl hFr2 hFr hD (by omega) huU huF
                  exact ⟨_, huG, hfa, hpw⟩
        · by_cases h5 : t = '.'
          · subst h5
            cases stack with
            | nil =>
              cases hF
              exact ⟨[], hG, .nil, .nil⟩
            | cons right rest1 =>
              cases rest1 with
              | nil =>
                cases hF with
                | cons hFr2 hFnil =>
                  cases hFnil
                  exact ⟨[], hG, .nil, .nil⟩
              | cons left rest =>
                cases hF with
                | cons hFr2 hFtl =>
                  rename_i Rr Rs1
                  cases hFtl with
                  | cons hFl hFr =>
                    rename_i Rl Rs0
                    have heq : pushToken (σ, right :: left :: rest) '.' =
                        ((concat σ left right).1, (concat σ left right).2 :: rest) := rfl
                    rw [heq]
                    have hDlr : Disjoint Rl Rr :=
                      ((List.pairwise_cons.mp hD).1 Rl (by simp)).symm
                    obtain ⟨hcL, hcRes, hcG, hcU, hcF, _⟩ :=
                      concat_spec σ left right hG hFl hFr2 hDlr
                    obtain ⟨hfa, hpw⟩ :=
                      stack_binary_concat hFl hFr2 hFr hD (by omega)
                        (fun i _ hne => hcU i hne) hcF
                    exact ⟨_, hcG, hfa, hpw⟩
          · have heq : pushToken (σ, stack) t =
                ((fromSymbol σ (String.singleton t)).1,
                 (fromSymbol σ (String.singleton t)).2 :: stack) := by
              simp only [pushToken, if_neg h1, if_neg h2, if_neg h3, if_neg h4, if_neg h5]
            rw [heq]
            obtain ⟨fsL, fsRes, fsG, fsU, fsF, _⟩ :=
              fromSymbol_spec σ (String.singleton t) hG
            refine ⟨Finset.Ico σ.length (σ.length + 2) :: Rs, fsG, ?_, ?_⟩
            · refine .cons fsF (forall2_transport_off (e := σ.length) (by omega)
                (fun i hi _ => fsU i hi) hF ?_)
              intro R hR he
              exact absurd (forall2_bound hF R hR _ he) (by omega)
            · rw [List.pairwise_cons]
              exact ⟨fun R hR => disjoint_Ico_fresh (forall2_bound hF R hR), hD⟩

/-- The whole postfix fold preserves the stack invariant. -/
theorem foldl_pushToken_ok :
    ∀ (s : List Char) (σ : Arena) (stack : List NFA) (Rs : List (Finset Nat)),
    GoodArena σ → List.Forall₂ (IsFrag σ) Rs stack → Rs.Pairwise Disjoint →
    ∃ Rs', GoodArena (s.foldl pushToken (σ, stack)).1 ∧
      List.Forall₂ (IsFrag (s.foldl pushToken (σ, stack)).1) Rs'
        (s.foldl pushToken (σ, stack)).2 ∧
      Rs'.Pairwise Disjoint := by
  intro s
  induction s with
  | nil =>
    intro σ stack Rs hG hF hD
    exact ⟨Rs, hG, hF, hD⟩
  | cons t s' ih =>
    intro σ stack Rs hG hF hD
    obtain ⟨Rs1, hG1, hF1, hD1⟩ := pushToken_ok σ stack Rs t hG hF hD
    rw [List.foldl_cons]
    rcases hres : pushToken (σ, stack) t with ⟨σ', stack'⟩
    rw [hres] at hG1 hF1
    exact ih σ' stack' Rs1 hG1 hF1 hD1
/-! ## The accepted regex surface and its standard semantics

`RE` is the abstract syntax of the surface language the grammar
accepts: literals, alternation, concatenation, the three quantifiers.
`RSem` is the standard denotation.  `Gen cat s r t` says that the
grammar category `cat` derives the surface string `s`, denoting `r`,
with `t` the parse tree the recursive-descent parser is specified to
build for it — the constructors follow the grammar
`Expr -> Term | Term '|' Expr`, `Term -> Factor | Factor Term`,
`Factor -> Atom | Atom ('*'|'+'|'?')`, `Atom -> Char | '(' Expr ')'`,
`Char -> AnyCharExceptMeta | '\' AnyChar`. -/

inductive RE where
  | lit (c : Char)
  | alt (r1 r2 : RE)
  | cat (r1 r2 : RE)
  | star (r : RE)
  | plus (r : RE)
  | opt (r : RE)

def RSem : RE → List Char → Prop
  | .lit c, w => w = [c]
  | .alt r1 r2, w => RSem r1 w ∨ RSem r2 w
  | .cat r1 r2, w => ∃ u v, w = u ++ v ∧ RSem r1 u ∧ RSem r2 v
  | .star r, w => w = [] ∨ ∃ parts : List (List Char), parts ≠ [] ∧ w = parts.join ∧
      ∀ u ∈ parts, RSem r u
  | .plus r, w => ∃ parts : List (List Char), parts ≠ [] ∧ w = parts.join ∧
      ∀ u ∈ parts, RSem r u
  | .opt r, w => w = [] ∨ RSem r w

/-- The characters a bare (unescaped) literal may not be. -/
def specials : List Char := ['*', '+', '?', '(', ')', '|', '\\']

inductive RCat where
  | expr | term | factor | atom | chr

inductive Gen : RCat → List Char → RE → TreeNode → Prop where
  | exprSingle {s r t} : Gen .term s r t →
      Gen .expr s r (.node (some "Expr") [t])
  | exprAlt {s1 r1 t1 s2 r2 t2} :
      Gen .term s1 r1 t1 → Gen .expr s2 r2 t2 →
      Gen .expr (s1 ++ '|' :: s2) (.alt r1 r2)
        (.node (some "Expr") [t1, .leaf (some "|"), t2])
  | termSingle {s r t} : Gen .factor s r t →
      Gen .term s r (.node (some "Term") [t])
  | termCat {s1 r1 t1 s2 r2 t2} :
      Gen .factor s1 r1 t1 → Gen .term s2 r2 t2 →
      Gen .term (s1 ++ s2) (.cat r1 r2) (.node (some "Term") [t1, t2])
  | factorSingle {s r t} : Gen .atom s r t →
      Gen .factor s r (.node (some "Factor") [t])
  | factorStar {s r t} : Gen .atom s r t →
      Gen .factor (s ++ ['*']) (.star r) (.node (some "Factor") [t, .leaf (some "*")])
  | factorPlus {s r t} : Gen .atom s r t →
      Gen .factor (s ++ ['+']) (.plus r) (.node (some "Factor") [t, .leaf (some "+")])
  | factorOpt {s r t} : Gen .atom s r t →
      Gen .factor (s ++ ['?']) (.opt r) (.node (some "Factor") [t, .leaf (some "?")])
  | atomChar {s r t} : Gen .chr s r t →
      Gen .atom s r (.node (some "Atom") [t])
  | atomGroup {s r t} : Gen .expr s r t →
      Gen .atom ('(' :: s ++ [')']) r
        (.node (some "Atom") [.leaf (some "("), t, .leaf (some ")")])
  | chrLit {c : Char} : c ∉ specials →
      Gen .chr [c] (.lit c) (.node (some "Char") [.leaf (some (String.singleton c))])
  | chrEsc (c : Char) :
      Gen .chr ['\\', c] (.lit c)
        (.node (some "Char") [.leaf (some "\\"), .leaf (some (String.singleton c))])

/-- Every generated surface string is nonempty and starts with a
character that is not a quantifier, not ')' and not '|'. -/
theorem gen_first {cat s r t} (g : Gen cat s r t) :
    ∃ c s', s = c :: s' ∧ c ≠ '*' ∧ c ≠ '+' ∧ c ≠ '?' ∧ c ≠ ')' ∧ c ≠ '|' := by
  induction g with
  | exprSingle g ih => exact ih
  | exprAlt g1 g2 ih1 ih2 =>
    obtain ⟨c, s', rfl, h⟩ := ih1
    exact ⟨c, _, rfl, h⟩
  | termSingle g ih => exact ih
  | termCat g1 g2 ih1 ih2 =>
    obtain ⟨c, s', rfl, h⟩ := ih1
    exact ⟨c, _, rfl, h⟩
  | factorSingle g ih => exact ih
  | factorStar g ih =>
    obtain ⟨c, s', rfl, h⟩ := ih
    exact ⟨c, _, rfl, h⟩
  | factorPlus g ih =>
    obtain ⟨c, s', rfl, h⟩ := ih
    exact ⟨c, _, rfl, h⟩
  | factorOpt g ih =>
    obtain ⟨c, s', rfl, h⟩ := ih
    exact ⟨c, _, rfl, h⟩
  | atomChar g ih => exact ih
  | atomGroup g ih => exact ⟨'(', _, rfl, by decide, by decide, by decide, by decide, by decide⟩
  | chrLit hc =>
    rename_i c
    refine ⟨c, [], rfl, ?_, ?_, ?_, ?_, ?_⟩ <;>
      (intro he; subst he; revert hc; decide)
  | chrEsc c => exact ⟨'\\', _, rfl, by decide, by decide, by decide, by decide, by decide⟩

/-- The postfix form of a surface regex, '.' the explicit concatenation
operator. -/
def postfixOf : RE → List Char
  | .lit c => [c]
  | .alt r1 r2 => postfixOf r1 ++ postfixOf r2 ++ ['|']
  | .cat r1 r2 => postfixOf r1 ++ postfixOf r2 ++ ['.']
  | .star r => postfixOf r ++ ['*']
  | .plus r => postfixOf r ++ ['+']
  | .opt r => postfixOf r ++ ['?']

/-- No literal of the regex is itself a postfix operator token: the
precondition for the postfix form to be readable back unambiguously. -/
def RE.okLits : RE → Prop
  | .lit c => c ≠ '*' ∧ c ≠ '+' ∧ c ≠ '?' ∧ c ≠ '|' ∧ c ≠ '.'
  | .alt r1 r2 => r1.okLits ∧ r2.okLits
  | .cat r1 r2 => r1.okLits ∧ r2.okLits
  | .star r => r.okLits
  | .plus r => r.okLits
  | .opt r => r.okLits

theorem singleton_inj {a b : Char} (h : String.singleton a = String.singleton b) :
    a = b := by
  have h2 := congrArg String.data h
  simpa [String.singleton] using h2

/-! ## Completeness of the recursive-descent parser on the grammar -/

theorem expr_succ (fuel : Nat) (s : ParserState) :
    expr (fuel + 1) s = do
      let (trm, s1) ← term fuel s
      if hasMoreChars s1 && (peek s1 = some '|') then do
        let s2 ← matchTok s1 (some '|')
        let (exp, s3) ← expr fuel s2
        return (.node (some "Expr") [trm, .leaf (some "|"), exp], s3)
      else
        return (.node (some "Expr") [trm], s1) := rfl

theorem term_succ (fuel : Nat) (s : ParserState) :
    term (fuel + 1) s = do
      let (factr, s1) ← factor fuel s
      if hasMoreChars s1 && peek s1 ≠ some ')' && peek s1 ≠ some '|' then do
        let (trm, s2) ← term fuel s1
        return (.node (some "Term") [factr, trm], s2)
      else
        return (.node (some "Term") [factr], s1) := rfl

theorem factor_succ (fuel : Nat) (s : ParserState) :
    factor (fuel + 1) s = do
      let (atm, s1) ← atom fuel s
      if hasMoreChars s1 && isMetaChar (peek s1) then do
        let (meta, s2) ← next s1
        return (.node (some "Factor") [atm, .leaf (meta.map String.singleton)], s2)
      else
        return (.node (some "Factor") [atm], s1) := rfl

theorem atom_succ (fuel : Nat) (s : ParserState) :
    atom (fuel + 1) s =
    (if peek s = some '(' then do
      let s1 ← matchTok s (some '(')
      let (exp, s2) ← expr fuel s1
      let s3 ← matchTok s2 (some ')')
      return (.node (some "Atom") [.leaf (some "("), exp, .leaf (some ")")], s3)
    else do
      let (ch, s1) ← char s
      return (.node (some "Atom") [ch], s1)) := rfl

theorem peek_at (pre : List Char) (c : Char) (s rest : List Char) :
    peek ⟨pre ++ (c :: s) ++ rest, pre.length⟩ = some c := by
  show (pre ++ (c :: s) ++ rest)[pre.length]? = some c
  rw [List.append_assoc, List.getElem?_append_right (le_refl pre.length)]
  simp

theorem peek_end (pre : List Char) : peek ⟨pre, pre.length⟩ = none := by
  simp [peek]

theorem hasMore_at (pre : List Char) (c : Char) (s rest : List Char) :
    hasMoreChars ⟨pre ++ (c :: s) ++ rest, pre.length⟩ = true := by
  simp only [hasMoreChars, List.length_append, List.length_cons,
    decide_eq_true_eq]
  omega

theorem hasMore_end (pre : List Char) : hasMoreChars ⟨pre, pre.length⟩ = false := by
  simp [hasMoreChars]

theorem matchTok_at (pre : List Char) (c : Char) (s rest : List Char) :
    matchTok ⟨pre ++ (c :: s) ++ rest, pre.length⟩ (some c) =
      .ok ⟨pre ++ (c :: s) ++ rest, pre.length + 1⟩ := by
  rw [matchTok, if_neg]
  rw [peek_at]
  simp

theorem next_at (pre : List Char) (c : Char) (s rest : List Char) :
    next ⟨pre ++ (c :: s) ++ rest, pre.length⟩ =
      .ok (some c, ⟨pre ++ (c :: s) ++ rest, pre.length + 1⟩) := by
  rw [next, peek_at, matchTok_at]
  rfl

theorem state_shift (pre : List Char) (c : Char) (s rest : List Char) :
    (⟨pre ++ (c :: s) ++ rest, pre.length + 1⟩ : ParserState) =
    ⟨(pre ++ [c]) ++ s ++ rest, (pre ++ [c]).length⟩ := by
  simp

theorem not_meta_of_not_special {c : Char} (hc : c ∉ specials) :
    isMetaChar (some c) = false := by
  simp only [isMetaChar, Bool.or_eq_false_iff, decide_eq_false_iff_not]
  refine ⟨⟨?_, ?_⟩, ?_⟩ <;>
    (intro h; injection h with h; subst h; exact hc (by decide))

theorem peek_at2 (pre : List Char) (c : Char) (s : List Char) :
    peek ⟨pre ++ c :: s, pre.length⟩ = some c := by
  show (pre ++ c :: s)[pre.length]? = some c
  rw [List.getElem?_append_right (le_refl pre.length)]
  simp

theorem hasMore_at2 (pre : List Char) (c : Char) (s : List Char) :
    hasMoreChars ⟨pre ++ c :: s, pre.length⟩ = true := by
  simp only [hasMoreChars, List.length_append, List.length_cons, decide_eq_true_eq]
  omega

theorem matchTok_at2 (pre : List Char) (c : Char) (s : List Char) :
    matchTok ⟨pre ++ c :: s, pre.length⟩ (some c) =
      .ok ⟨pre ++ c :: s, pre.length + 1⟩ := by
  rw [matchTok, if_neg]
  rw [peek_at2]
  simp

theorem next_at2 (pre : List Char) (c : Char) (s : List Char) :
    next ⟨pre ++ c :: s, pre.length⟩ =
      .ok (some c, ⟨pre ++ c :: s, pre.length + 1⟩) := by
  rw [next, peek_at2, matchTok_at2]
  rfl

theorem exc_bind_ok {ε α β : Type} (a : α) (f : α → Except ε β) :
    (Except.ok a >>= f : Except ε β) = f a := rfl

theorem exc_pure_def {ε α : Type} (a : α) : (pure a : Except ε α) = .ok a := rfl

theorem isMeta_false_of {c : Char} (h1 : c ≠ '*') (h2 : c ≠ '+') (h3 : c ≠ '?') :
    isMetaChar (some c) = false := by
  simp only [isMetaChar, Bool.or_eq_false_iff, decide_eq_false_iff_not]
  exact ⟨⟨by simp [h1], by simp [h2]⟩, by simp [h3]⟩

theorem gen_chr_first {s r t} (g : Gen .chr s r t) :
    ∃ c s', s = c :: s' ∧ c ≠ '(' := by
  cases g with
  | chrLit hc => exact ⟨_, [], rfl, fun he => hc (by rw [he]; decide)⟩
  | chrEsc c => exact ⟨'\\', [c], rfl, by decide⟩

theorem pstate_eq {l1 l2 : List Char} {p1 p2 : Nat} (hl : l1 = l2) (hp : p1 = p2) :
    (⟨l1, p1⟩ : ParserState) = ⟨l2, p2⟩ := by rw [hl, hp]

theorem ok_pair_eq {t1 t2 : TreeNode} {s1 s2 : ParserState}
    (ht : t1 = t2) (hs : s1 = s2) :
    (Except.ok (t1, s1) : Except ParseError (TreeNode × ParserState)) = .ok (t2, s2) := by
  rw [ht, hs]

/-- What completeness of each parser entry point says: starting
anywhere in the pattern at the front of a grammar-generated string, the
parser returns exactly the generated tree and consumes exactly that
string, provided the fuel covers the string and the following input
satisfies the category's follow condition. -/
def ParseOK : RCat → List Char → TreeNode → Prop
  | .expr, s, t => ∀ (pre rest : List Char) (fuel : Nat), 4 * s.length ≤ fuel →
      (∀ c, rest.head? = some c → c = ')') →
      expr fuel ⟨pre ++ s ++ rest, pre.length⟩ =
        .ok (t, ⟨pre ++ s ++ rest, pre.length + s.length⟩)
  | .term, s, t => ∀ (pre rest : List Char) (fuel : Nat), 4 * s.length - 1 ≤ fuel →
      (∀ c, rest.head? = some c → c = ')' ∨ c = '|') →
      term fuel ⟨pre ++ s ++ rest, pre.length⟩ =
        .ok (t, ⟨pre ++ s ++ rest, pre.length + s.length⟩)
  | .factor, s, t => ∀ (pre rest : List Char) (fuel : Nat), 4 * s.length - 2 ≤ fuel →
      (∀ c, rest.head? = some c → c ≠ '*' ∧ c ≠ '+' ∧ c ≠ '?') →
      factor fuel ⟨pre ++ s ++ rest, pre.length⟩ =
        .ok (t, ⟨pre ++ s ++ rest, pre.length + s.length⟩)
  | .atom, s, t => ∀ (pre rest : List Char) (fuel : Nat), 4 * s.length - 3 ≤ fuel →
      atom fuel ⟨pre ++ s ++ rest, pre.length⟩ =
        .ok (t, ⟨pre ++ s ++ rest, pre.length + s.length⟩)
  | .chr, s, t => ∀ (pre rest : List Char),
      char ⟨pre ++ s ++ rest, pre.length⟩ =
        .ok (t, ⟨pre ++ s ++ rest, pre.length + s.length⟩)

/-- Parser completeness over the grammar: every grammar derivation is
parsed back to exactly its tree. -/
theorem parse_complete {cat s r t} (g : Gen cat s r t) : ParseOK cat s t := by
  induction g with
  | @exprSingle s r t g ih =>
    intro pre rest fuel hfuel hfollow
    obtain ⟨c0, s0, hs, h1, h2, h3, h4, h5⟩ := gen_first g
    cases fuel with
    | zero =>
      exfalso; subst hs
      simp only [List.length_cons] at hfuel; omega
    | succ F =>
      rw [expr_succ]
      rw [ih pre rest F
        (by subst hs; simp only [List.length_cons] at hfuel ⊢; omega)
        (fun c hc => Or.inl (hfollow c hc))]
      simp only [exc_bind_ok]
      have hcond : (hasMoreChars ⟨pre ++ s ++ rest, pre.length + s.length⟩ &&
          (peek ⟨pre ++ s ++ rest, pre.length + s.length⟩ = some '|')) = false := by
        cases rest with
        | nil =>
          have hst : (⟨pre ++ s ++ [], pre.length + s.length⟩ : ParserState) =
              ⟨pre ++ s, (pre ++ s).length⟩ := by simp
          rw [hst, hasMore_end, Bool.false_and]
        | cons c rest' =>
          have hc := hfollow c rfl
          subst hc
          have hst : (⟨pre ++ s ++ ')' :: rest', pre.length + s.length⟩ : ParserState) =
              ⟨(pre ++ s) ++ ')' :: rest', (pre ++ s).length⟩ := by simp
          rw [hst, hasMore_at2, peek_at2]
          decide
      rw [hcond]
      rw [if_neg Bool.false_ne_true]
      rfl
  | @exprAlt s1 r1 t1 s2 r2 t2 g1 g2 ih1 ih2 =>
    intro pre rest fuel hfuel hfollow
    obtain ⟨c0, s0, hs1, -⟩ := gen_first g1
    cases fuel with
    | zero =>
      exfalso; subst hs1
      simp only [List.length_append, List.length_cons] at hfuel; omega
    | succ F =>
      rw [expr_succ]
      have hst : (⟨pre ++ (s1 ++ '|' :: s2) ++ rest, pre.length⟩ : ParserState) =
          ⟨pre ++ s1 ++ ('|' :: (s2 ++ rest)), pre.length⟩ := by simp
      rw [hst]
      rw [ih1 pre ('|' :: (s2 ++ rest)) F
        (by subst hs1; simp only [List.length_append, List.length_cons] at hfuel ⊢; omega)
        (fun c hc => Or.inr (Option.some.inj hc).symm)]
      simp only [exc_bind_ok]
      have hst1 : (⟨pre ++ s1 ++ ('|' :: (s2 ++ rest)), pre.length + s1.length⟩ :
          ParserState) = ⟨(pre ++ s1) ++ '|' :: (s2 ++ rest), (pre ++ s1).length⟩ := by
        simp
      rw [hst1, hasMore_at2, peek_at2]
      rw [if_pos (by decide)]
      rw [matchTok_at2]
      simp only [exc_bind_ok]
      have hst2 : (⟨(pre ++ s1) ++ '|' :: (s2 ++ rest), (pre ++ s1).length + 1⟩ :
          ParserState) = ⟨(pre ++ s1 ++ ['|']) ++ s2 ++ rest,
            (pre ++ s1 ++ ['|']).length⟩ :=
        pstate_eq (by simp)
          (by simp only [List.length_append, List.length_cons, List.length_nil] <;> omega)
      rw [hst2]
      rw [ih2 (pre ++ s1 ++ ['|']) rest F
        (by obtain ⟨d0, d1, hs2, -⟩ := gen_first g2
            subst hs1 hs2
            simp only [List.length_append, List.length_cons] at hfuel ⊢
            omega)
        hfollow]
      simp only [exc_bind_ok, exc_pure_def]
      exact ok_pair_eq rfl (pstate_eq (by simp)
        (by simp only [List.length_append, List.length_cons, List.length_nil] <;>
            omega))
  | @termSingle s r t g ih =>
    intro pre rest fuel hfuel hfollow
    obtain ⟨c0, s0, hs, -⟩ := gen_first g
    cases fuel with
    | zero =>
      exfalso; subst hs
      simp only [List.length_cons] at hfuel; omega
    | succ F =>
      rw [term_succ]
      rw [ih pre rest F
        (by subst hs; simp only [List.length_cons] at hfuel ⊢; omega)
        (fun c hc => by
          rcases hfollow c hc with rfl | rfl
          · exact ⟨by decide, by decide, by decide⟩
          · exact ⟨by decide, by decide, by decide⟩)]
      simp only [exc_bind_ok]
      rw [if_neg (by
        cases rest with
        | nil =>
          have hst : (⟨pre ++ s ++ [], pre.length + s.length⟩ : ParserState) =
              ⟨pre ++ s, (pre ++ s).length⟩ := by simp
          rw [hst, hasMore_end]
          simp
        | cons c rest' =>
          have hst : (⟨pre ++ s ++ c :: rest', pre.length + s.length⟩ : ParserState) =
              ⟨(pre ++ s) ++ c :: rest', (pre ++ s).length⟩ := by simp
          rw [hst, hasMore_at2, peek_at2]
          rcases hfollow c rfl with rfl | rfl
          · decide
          · decide)]
      rfl
  | @termCat s1 r1 t1 s2 r2 t2 g1 g2 ih1 ih2 =>
    intro pre rest fuel hfuel hfollow
    obtain ⟨c1, s1', hs1, -⟩ := gen_first g1
    obtain ⟨c2, s2', hs2, hm1, hm2, hm3, hm4, hm5⟩ := gen_first g2
    cases fuel with
    | zero =>
      exfalso; subst hs1
      simp only [List.length_append, List.length_cons] at hfuel; omega
    | succ F =>
      rw [term_succ]
      have hst : (⟨pre ++ (s1 ++ s2) ++ rest, pre.length⟩ : ParserState) =
          ⟨pre ++ s1 ++ (s2 ++ rest), pre.length⟩ := by simp
      rw [hst]
      rw [ih1 pre (s2 ++ rest) F
        (by subst hs1 hs2; simp only [List.length_append, List.length_cons] at hfuel ⊢; omega)
        (fun c hc => by
          rw [hs2] at hc
          obtain rfl := Option.some.inj hc
          exact ⟨hm1, hm2, hm3⟩)]
      simp only [exc_bind_ok]
      have hst1 : (⟨pre ++ s1 ++ (s2 ++ rest), pre.length + s1.length⟩ :
          ParserState) = ⟨(pre ++ s1) ++ c2 :: (s2' ++ rest), (pre ++ s1).length⟩ := by
        subst hs2; simp
      rw [hst1, hasMore_at2, peek_at2]
      rw [if_pos (by simp [hm4, hm5])]
      have hst2 : (⟨(pre ++ s1) ++ c2 :: (s2' ++ rest), (pre ++ s1).length⟩ :
          ParserState) = ⟨(pre ++ s1) ++ s2 ++ rest, (pre ++ s1).length⟩ := by
        subst hs2; simp
      rw [hst2]
      rw [ih2 (pre ++ s1) rest F
        (by subst hs1 hs2; simp only [List.length_append, List.length_cons] at hfuel ⊢; omega)
        hfollow]
      simp only [exc_bind_ok, exc_pure_def]
      exact ok_pair_eq rfl (pstate_eq (by simp)
        (by simp only [List.length_append, List.length_cons, List.length_nil] <;>
            omega))
  | @factorSingle s r t g ih =>
    intro pre rest fuel hfuel hfollow
    obtain ⟨c0, s0, hs, -⟩ := gen_first g
    cases fuel with
    | zero =>
      exfalso; subst hs
      simp only [List.length_cons] at hfuel; omega
    | succ F =>
      rw [factor_succ]
      rw [ih pre rest F
        (by subst hs; simp only [List.length_cons] at hfuel ⊢; omega)]
      simp only [exc_bind_ok]
      have hcond : (hasMoreChars ⟨pre ++ s ++ rest, pre.length + s.length⟩ &&
          isMetaChar (peek ⟨pre ++ s ++ rest, pre.length + s.length⟩)) = false := by
        cases rest with
        | nil =>
          have hst : (⟨pre ++ s ++ [], pre.length + s.length⟩ : ParserState) =
              ⟨pre ++ s, (pre ++ s).length⟩ := by simp
          rw [hst, hasMore_end, Bool.false_and]
        | cons c rest' =>
          obtain ⟨n1, n2, n3⟩ := hfollow c rfl
          have hst : (⟨pre ++ s ++ c :: rest', pre.length + s.length⟩ : ParserState) =
              ⟨(pre ++ s) ++ c :: rest', (pre ++ s).length⟩ := by simp
          rw [hst, hasMore_at2, peek_at2, isMeta_false_of n1 n2 n3, Bool.and_false]
      rw [hcond, if_neg Bool.false_ne_true]
      rfl
  | @factorStar s r t g ih =>
    intro pre rest fuel hfuel hfollow
    obtain ⟨c0, s0, hs, -⟩ := gen_first g
    cases fuel with
    | zero =>
      exfalso; subst hs
      simp only [List.length_append, List.length_cons, List.length_nil] at hfuel; omega
    | succ F =>
      rw [factor_succ]
      have hst : (⟨pre ++ (s ++ ['*']) ++ rest, pre.length⟩ : ParserState) =
          ⟨pre ++ s ++ ('*' :: rest), pre.length⟩ := by simp
      rw [hst]
      rw [ih pre ('*' :: rest) F
        (by subst hs; simp only [List.length_append, List.length_cons,
          List.length_nil] at hfuel ⊢; omega)]
      simp only [exc_bind_ok]
      have hst1 : (⟨pre ++ s ++ ('*' :: rest), pre.length + s.length⟩ : ParserState) =
          ⟨(pre ++ s) ++ '*' :: rest, (pre ++ s).length⟩ := by simp
      rw [hst1, hasMore_at2, peek_at2]
      rw [if_pos (by decide)]
      rw [next_at2]
      simp only [exc_bind_ok, exc_pure_def]
      exact ok_pair_eq rfl (pstate_eq (by simp)
        (by simp only [List.length_append, List.length_cons, List.length_nil] <;>
            omega))
  | @factorPlus s r t g ih =>
    intro pre rest fuel hfuel hfollow
    obtain ⟨c0, s0, hs, -⟩ := gen_first g
    cases fuel with
    | zero =>
      exfalso; subst hs
      simp only [List.length_append, List.length_cons, List.length_nil] at hfuel; omega
    | succ F =>
      rw [factor_succ]
      have hst : (⟨pre ++ (s ++ ['+']) ++ rest, pre.length⟩ : ParserState) =
          ⟨pre ++ s ++ ('+' :: rest), pre.length⟩ := by simp
      rw [hst]
      rw [ih pre ('+' :: rest) F
        (by subst hs; simp only [List.length_append, List.length_cons,
          List.length_nil] at hfuel ⊢; omega)]
      simp only [exc_bind_ok]
      have hst1 : (⟨pre ++ s ++ ('+' :: rest), pre.length + s.length⟩ : ParserState) =
          ⟨(pre ++ s) ++ '+' :: rest, (pre ++ s).length⟩ := by simp
      rw [hst1, hasMore_at2, peek_at2]
      rw [if_pos (by decide)]
      rw [next_at2]
      simp only [exc_bind_ok, exc_pure_def]
      exact ok_pair_eq rfl (pstate_eq (by simp)
        (by simp only [List.length_append, List.length_cons, List.length_nil] <;>
            omega))
  | @factorOpt s r t g ih =>
    intro pre rest fuel hfuel hfollow
    obtain ⟨c0, s0, hs, -⟩ := gen_first g
    cases fuel with
    | zero =>
      exfalso; subst hs
      simp only [List.length_append, List.length_cons, List.length_nil] at hfuel; omega
    | succ F =>
      rw [factor_succ]
      have hst : (⟨pre ++ (s ++ ['?']) ++ rest, pre.length⟩ : ParserState) =
          ⟨pre ++ s ++ ('?' :: rest), pre.length⟩ := by simp
      rw [hst]
      rw [ih pre ('?' :: rest) F
        (by subst hs; simp only [List.length_append, List.length_cons,
          List.length_nil] at hfuel ⊢; omega)]
      simp only [exc_bind_ok]
      have hst1 : (⟨pre ++ s ++ ('?' :: rest), pre.length + s.length⟩ : ParserState) =
          ⟨(pre ++ s) ++ '?' :: rest, (pre ++ s).length⟩ := by simp
      rw [hst1, hasMore_at2, peek_at2]
      rw [if_pos (by decide)]
      rw [next_at2]
      simp only [exc_bind_ok, exc_pure_def]
      exact ok_pair_eq rfl (pstate_eq (by simp)
        (by simp only [List.length_append, List.length_cons, List.length_nil] <;>
            omega))
  | @atomChar s r t g ih =>
    intro pre rest fuel hfuel
    obtain ⟨c0, s0, hs, hne⟩ := gen_chr_first g
    cases fuel with
    | zero =>
      exfalso; subst hs
      simp only [List.length_cons] at hfuel; omega
    | succ F =>
      have hpeek : peek ⟨pre ++ s ++ rest, pre.length⟩ = some c0 := by
        subst hs
        have hst : (⟨pre ++ (c0 :: s0) ++ rest, pre.length⟩ : ParserState) =
            ⟨pre ++ c0 :: (s0 ++ rest), pre.length⟩ := by simp
        rw [hst, peek_at2]
      rw [atom_succ, if_neg (by rw [hpeek]; simp [hne])]
      rw [ih pre rest]
      simp only [exc_bind_ok]
      rfl
  | @atomGroup s r t g ih =>
    intro pre rest fuel hfuel
    cases fuel with
    | zero =>
      exfalso
      simp only [List.length_cons, List.length_append, List.length_nil] at hfuel; omega
    | succ F =>
      rw [atom_succ]
      have hst0 : (⟨pre ++ ('(' :: s ++ [')']) ++ rest, pre.length⟩ : ParserState) =
          ⟨pre ++ '(' :: (s ++ ')' :: rest), pre.length⟩ := by simp
      rw [hst0, peek_at2]
      rw [if_pos rfl]
      rw [matchTok_at2]
      simp only [exc_bind_ok]
      have hst1 : (⟨pre ++ '(' :: (s ++ ')' :: rest), pre.length + 1⟩ : ParserState) =
          ⟨(pre ++ ['(']) ++ s ++ (')' :: rest), (pre ++ ['(']).length⟩ := by simp
      rw [hst1]
      rw [ih (pre ++ ['(']) (')' :: rest) F
        (by simp only [List.length_cons, List.length_append, List.length_nil]
              at hfuel ⊢; omega)
        (fun c hc => (Option.some.inj hc).symm)]
      simp only [exc_bind_ok]
      have hst2 : (⟨(pre ++ ['(']) ++ s ++ (')' :: rest),
          (pre ++ ['(']).length + s.length⟩ : ParserState) =
          ⟨(pre ++ ['('] ++ s) ++ ')' :: rest, (pre ++ ['('] ++ s).length⟩ :=
        pstate_eq (by simp)
          (by simp only [List.length_append, List.length_cons, List.length_nil] <;> omega)
      rw [hst2, matchTok_at2]
      simp only [exc_bind_ok, exc_pure_def]
      exact ok_pair_eq rfl (pstate_eq (by simp)
        (by simp only [List.length_append, List.length_cons, List.length_nil] <;>
            omega))
  | @chrLit c hc =>
    intro pre rest
    rw [char, peek_at pre c [] rest]
    rw [not_meta_of_not_special hc]
    rw [if_neg Bool.false_ne_true]
    rw [if_neg (by
      intro h
      obtain rfl : c = '\\' := Option.some.inj h
      exact hc (by decide))]
    rw [next_at pre c [] rest]
    simp only [exc_bind_ok]
    rfl
  | chrEsc c =>
    intro pre rest
    rw [char, peek_at pre '\\' [c] rest]
    rw [show isMetaChar (some '\\') = false from rfl]
    rw [if_neg Bool.false_ne_true]
    rw [if_pos rfl]
    rw [matchTok_at pre '\\' [c] rest]
    simp only [exc_bind_ok]
    rw [state_shift pre '\\' [c] rest]
    rw [next_at (pre ++ ['\\']) c [] rest]
    simp only [exc_bind_ok, exc_pure_def]
    exact ok_pair_eq rfl (pstate_eq (by simp)
      (by simp only [List.length_append, List.length_cons, List.length_nil] <;>
          omega))

/-! ## The tree compiler computes the standard semantics on the grammar -/

/-- Fuel sufficient for `toNFAfromParseTree` on the tree generated for a
string of the given length in the given category. -/
def compileNeed : RCat → Nat → Nat
  | .chr, _ => 1
  | .atom, n => 4 * n - 2
  | .factor, n => 4 * n - 1
  | .term, n => 4 * n
  | .expr, n => 4 * n + 1

theorem parts_congr {P Q : List Char → Prop} (h : ∀ u, P u ↔ Q u) (w : List Char) :
    (∃ parts : List (List Char), parts ≠ [] ∧ w = parts.join ∧ ∀ u ∈ parts, P u) ↔
    (∃ parts : List (List Char), parts ≠ [] ∧ w = parts.join ∧ ∀ u ∈ parts, Q u) := by
  constructor
  · rintro ⟨parts, hne, rfl, hall⟩
    exact ⟨parts, hne, rfl, fun u hu => (h u).mp (hall u hu)⟩
  · rintro ⟨parts, hne, rfl, hall⟩
    exact ⟨parts, hne, rfl, fun u hu => (h u).mpr (hall u hu)⟩

theorem cat_congr {P1 Q1 P2 Q2 : List Char → Prop} (h1 : ∀ u, P1 u ↔ Q1 u)
    (h2 : ∀ u, P2 u ↔ Q2 u) (w : List Char) :
    (∃ u v, w = u ++ v ∧ P1 u ∧ P2 v) ↔ (∃ u v, w = u ++ v ∧ Q1 u ∧ Q2 v) := by
  constructor
  · rintro ⟨u, v, rfl, hu, hv⟩
    exact ⟨u, v, rfl, (h1 u).mp hu, (h2 v).mp hv⟩
  · rintro ⟨u, v, rfl, hu, hv⟩
    exact ⟨u, v, rfl, (h1 u).mpr hu, (h2 v).mpr hv⟩

/-- On every grammar-generated parse tree, with fuel covering the tree,
the compiler succeeds from any well-formed arena and the fragment's
language is the standard denotation of the derived regex. -/
theorem compile_gen {cat s r t} (g : Gen cat s r t) :
    ∀ (fuel : Nat), compileNeed cat s.length ≤ fuel →
    ∀ (σ : Arena), GoodArena σ →
    ∃ σ' f, toNFAfromParseTree fuel σ t = some (σ', f) ∧
      ∀ w, FragLang σ' (Finset.Ico σ.length σ'.length) f w ↔ RSem r w := by
  induction g with
  | @exprSingle s r t g ih =>
    intro fuel hfuel σ hG
    obtain ⟨c0, s0, hs, -⟩ := gen_first g
    cases fuel with
    | zero => exfalso; simp only [compileNeed] at hfuel; omega
    | succ F =>
      obtain ⟨σ', f, hcomp, hlang⟩ := ih F
        (by subst hs; simp only [compileNeed, List.length_cons] at hfuel ⊢; omega) σ hG
      refine ⟨σ', f, ?_, hlang⟩
      rw [toNFAfromParseTree_node_cons, if_pos rfl, hcomp]
      rfl
  | @exprAlt s1 r1 t1 s2 r2 t2 g1 g2 ih1 ih2 =>
    intro fuel hfuel σ hG
    obtain ⟨c1, s1', hs1, -⟩ := gen_first g1
    obtain ⟨c2, s2', hs2, -⟩ := gen_first g2
    cases fuel with
    | zero => exfalso; simp only [compileNeed] at hfuel; omega
    | succ F =>
      obtain ⟨σ1, f1, hcomp1, hlang1⟩ := ih1 F
        (by subst hs1 hs2
            simp only [compileNeed, List.length_append, List.length_cons] at hfuel ⊢
            omega) σ hG
      obtain ⟨hL1x, hG1x, hU1x, hF1x⟩ := compile_frag F t1 σ hG (σ1, f1) hcomp1
      have hL1 : σ.length + 2 ≤ σ1.length := hL1x
      have hG1 : GoodArena σ1 := hG1x
      have hU1 : ∀ i < σ.length, getSt σ1 i = getSt σ i := hU1x
      have hF1 : IsFrag σ1 (Finset.Ico σ.length σ1.length) f1 := hF1x
      obtain ⟨σ2, f2, hcomp2, hlang2⟩ := ih2 F
        (by subst hs1 hs2
            simp only [compileNeed, List.length_append, List.length_cons] at hfuel ⊢
            omega) σ1 hG1
      obtain ⟨hL2x, hG2x, hU2x, hF2x⟩ := compile_frag F t2 σ1 hG1 (σ2, f2) hcomp2
      have hL2 : σ1.length + 2 ≤ σ2.length := hL2x
      have hG2 : GoodArena σ2 := hG2x
      have hU2 : ∀ i < σ1.length, getSt σ2 i = getSt σ1 i := hU2x
      have hF2 : IsFrag σ2 (Finset.Ico σ1.length σ2.length) f2 := hF2x
      have hF1' : IsFrag σ2 (Finset.Ico σ.length σ1.length) f1 :=
        frag_transport_Ico hF1 (by omega) hU2
      have hag : ∀ i ∈ Finset.Ico σ.length σ1.length, getSt σ2 i = getSt σ1 i :=
        fun i hi => hU2 i (Finset.mem_Ico.mp hi).2
      have hlang1' : ∀ w, FragLang σ2 (Finset.Ico σ.length σ1.length) f1 w ↔
          RSem r1 w :=
        fun w => (FragLang.transportLang hag).symm.trans (hlang1 w)
      obtain ⟨huL, huRes, huG, huU, huF, huLang⟩ :=
        union_spec σ2 f1 f2 hG2 hF1' hF2 (Ico_disjoint_consec _ _ _)
      refine ⟨(union σ2 f1 f2).1, (union σ2 f1 f2).2, ?_, ?_⟩
      · rw [toNFAfromParseTree_node_cons, if_pos rfl, hcomp1]
        show (do
          let (σ2', n2) ← toNFAfromParseTree F σ1 t2
          return union σ2' f1 n2) = some ((union σ2 f1 f2).1, (union σ2 f1 f2).2)
        rw [hcomp2]
        rfl
      · intro w
        have hreg : Finset.Ico σ.length (union σ2 f1 f2).1.length =
            Finset.Ico σ.length σ1.length ∪ Finset.Ico σ1.length σ2.length ∪
              {σ2.length, σ2.length + 1} := by
          rw [huL, Finset.Ico_union_Ico_eq_Ico (by omega) (by omega),
            Ico_snoc_two _ _ (by omega)]
        rw [hreg]
        exact (huLang w).trans (or_congr (hlang1' w) (hlang2 w))
  | @termSingle s r t g ih =>
    intro fuel hfuel σ hG
    obtain ⟨c0, s0, hs, -⟩ := gen_first g
    cases fuel with
    | zero => exfalso; subst hs; simp only [compileNeed, List.length_cons] at hfuel; omega
    | succ F =>
      obtain ⟨σ', f, hcomp, hlang⟩ := ih F
        (by subst hs; simp only [compileNeed, List.length_cons] at hfuel ⊢; omega) σ hG
      refine ⟨σ', f, ?_, hlang⟩
      rw [toNFAfromParseTree_node_cons, if_neg (by decide), if_pos rfl, hcomp]
      rfl
  | @termCat s1 r1 t1 s2 r2 t2 g1 g2 ih1 ih2 =>
    intro fuel hfuel σ hG
    obtain ⟨c1, s1', hs1, -⟩ := gen_first g1
    obtain ⟨c2, s2', hs2, -⟩ := gen_first g2
    cases fuel with
    | zero =>
      exfalso; subst hs1
      simp only [compileNeed, List.length_append, List.length_cons] at hfuel; omega
    | succ F =>
      obtain ⟨σ1, f1, hcomp1, hlang1⟩ := ih1 F
        (by subst hs1 hs2
            simp only [compileNeed, List.length_append, List.length_cons] at hfuel ⊢
            omega) σ hG
      obtain ⟨hL1x, hG1x, hU1x, hF1x⟩ := compile_frag F t1 σ hG (σ1, f1) hcomp1
      have hL1 : σ.length + 2 ≤ σ1.length := hL1x
      have hG1 : GoodArena σ1 := hG1x
      have hU1 : ∀ i < σ.length, getSt σ1 i = getSt σ i := hU1x
      have hF1 : IsFrag σ1 (Finset.Ico σ.length σ1.length) f1 := hF1x
      obtain ⟨σ2, f2, hcomp2, hlang2⟩ := ih2 F
        (by subst hs1 hs2
            simp only [compileNeed, List.length_append, List.length_cons] at hfuel ⊢
            omega) σ1 hG1
      obtain ⟨hL2x, hG2x, hU2x, hF2x⟩ := compile_frag F t2 σ1 hG1 (σ2, f2) hcomp2
      have hL2 : σ1.length + 2 ≤ σ2.length := hL2x
      have hG2 : GoodArena σ2 := hG2x
      have hU2 : ∀ i < σ1.length, getSt σ2 i = getSt σ1 i := hU2x
      have hF2 : IsFrag σ2 (Finset.Ico σ1.length σ2.length) f2 := hF2x
      have hF1' : IsFrag σ2 (Finset.Ico σ.length σ1.length) f1 :=
        frag_transport_Ico hF1 (by omega) hU2
      have hag : ∀ i ∈ Finset.Ico σ.length σ1.length, getSt σ2 i = getSt σ1 i :=
        fun i hi => hU2 i (Finset.mem_Ico.mp hi).2
      have hlang1' : ∀ w, FragLang σ2 (Finset.Ico σ.length σ1.length) f1 w ↔
          RSem r1 w :=
        fun w => (FragLang.transportLang hag).symm.trans (hlang1 w)
      obtain ⟨hcL, hcRes, hcG, hcU, hcF, hcLang⟩ :=
        concat_spec σ2 f1 f2 hG2 hF1' hF2 (Ico_disjoint_consec _ _ _)
      refine ⟨(concat σ2 f1 f2).1, (concat σ2 f1 f2).2, ?_, ?_⟩
      · rw [toNFAfromParseTree_node_cons, if_neg (by decide), if_pos rfl, hcomp1]
        show (do
          let (σ2', n2) ← toNFAfromParseTree F σ1 t2
          return concat σ2' f1 n2) = some ((concat σ2 f1 f2).1, (concat σ2 f1 f2).2)
        rw [hcomp2]
        rfl
      · intro w
        have hreg : Finset.Ico σ.length (concat σ2 f1 f2).1.length =
            Finset.Ico σ.length σ1.length ∪ Finset.Ico σ1.length σ2.length := by
          rw [hcL, Finset.Ico_union_Ico_eq_Ico (by omega) (by omega)]
        rw [hreg]
        exact (hcLang w).trans (cat_congr (fun u => hlang1' u) (fun u => hlang2 u) w)
  | @factorSingle s r t g ih =>
    intro fuel hfuel σ hG
    obtain ⟨c0, s0, hs, -⟩ := gen_first g
    cases fuel with
    | zero => exfalso; subst hs; simp only [compileNeed, List.length_cons] at hfuel; omega
    | succ F =>
      obtain ⟨σ', f, hcomp, hlang⟩ := ih F
        (by subst hs; simp only [compileNeed, List.length_cons] at hfuel ⊢; omega) σ hG
      refine ⟨σ', f, ?_, hlang⟩
      rw [toNFAfromParseTree_node_cons, if_neg (by decide), if_neg (by decide),
        if_pos rfl, hcomp]
      rfl
  | @factorStar s r t g ih =>
    intro fuel hfuel σ hG
    obtain ⟨c0, s0, hs, -⟩ := gen_first g
    cases fuel with
    | zero =>
      exfalso; subst hs
      simp only [compileNeed, List.length_append, List.length_cons,
        List.length_nil] at hfuel
      omega
    | succ F =>
      obtain ⟨σ1, f1, hcomp1, hlang1⟩ := ih F
        (by subst hs
            simp only [compileNeed, List.length_append, List.length_cons,
              List.length_nil] at hfuel ⊢
            omega) σ hG
      obtain ⟨hL1x, hG1x, hU1x, hF1x⟩ := compile_frag F t σ hG (σ1, f1) hcomp1
      have hL1 : σ.length + 2 ≤ σ1.length := hL1x
      have hG1 : GoodArena σ1 := hG1x
      have hU1 : ∀ i < σ.length, getSt σ1 i = getSt σ i := hU1x
      have hF1 : IsFrag σ1 (Finset.Ico σ.length σ1.length) f1 := hF1x
      obtain ⟨hoL, hoRes, hoG, hoU, hoF, hoLang⟩ := closure_spec σ1 f1 hG1 hF1
      refine ⟨(closure σ1 f1).1, (closure σ1 f1).2, ?_, ?_⟩
      · rw [toNFAfromParseTree_node_cons, if_neg (by decide), if_neg (by decide),
          if_pos rfl, hcomp1]
        rfl
      · intro w
        have hreg : Finset.Ico σ.length (closure σ1 f1).1.length =
            Finset.Ico σ.length σ1.length ∪ {σ1.length, σ1.length + 1} := by
          rw [hoL, Ico_snoc_two _ _ (by omega)]
        rw [hreg]
        exact (hoLang w).trans (or_congr Iff.rfl (parts_congr (fun u => hlang1 u) w))
  | @factorPlus s r t g ih =>
    intro fuel hfuel σ hG
    obtain ⟨c0, s0, hs, -⟩ := gen_first g
    cases fuel with
    | zero =>
      exfalso; subst hs
      simp only [compileNeed, List.length_append, List.length_cons,
        List.length_nil] at hfuel
      omega
    | succ F =>
      obtain ⟨σ1, f1, hcomp1, hlang1⟩ := ih F
        (by subst hs
            simp only [compileNeed, List.length_append, List.length_cons,
              List.length_nil] at hfuel ⊢
            omega) σ hG
      obtain ⟨hL1x, hG1x, hU1x, hF1x⟩ := compile_frag F t σ hG (σ1, f1) hcomp1
      have hL1 : σ.length + 2 ≤ σ1.length := hL1x
      have hG1 : GoodArena σ1 := hG1x
      have hU1 : ∀ i < σ.length, getSt σ1 i = getSt σ i := hU1x
      have hF1 : IsFrag σ1 (Finset.Ico σ.length σ1.length) f1 := hF1x
      obtain ⟨hoL, hoRes, hoG, hoU, hoF, hoLang⟩ := oneOrMore_spec σ1 f1 hG1 hF1
      refine ⟨(oneOrMore σ1 f1).1, (oneOrMore σ1 f1).2, ?_, ?_⟩
      · rw [toNFAfromParseTree_node_cons, if_neg (by decide), if_neg (by decide),
          if_pos rfl, hcomp1]
        rfl
      · intro w
        have hreg : Finset.Ico σ.length (oneOrMore σ1 f1).1.length =
            Finset.Ico σ.length σ1.length ∪ {σ1.length, σ1.length + 1} := by
          rw [hoL, Ico_snoc_two _ _ (by omega)]
        rw [hreg]
        exact (hoLang w).trans (parts_congr (fun u => hlang1 u) w)
  | @factorOpt s r t g ih =>
    intro fuel hfuel σ hG
    obtain ⟨c0, s0, hs, -⟩ := gen_first g
    cases fuel with
    | zero =>
      exfalso; subst hs
      simp only [compileNeed, List.length_append, List.length_cons,
        List.length_nil] at hfuel
      omega
    | succ F =>
      obtain ⟨σ1, f1, hcomp1, hlang1⟩ := ih F
        (by subst hs
            simp only [compileNeed, List.length_append, List.length_cons,
              List.length_nil] at hfuel ⊢
            omega) σ hG
      obtain ⟨hL1x, hG1x, hU1x, hF1x⟩ := compile_frag F t σ hG (σ1, f1) hcomp1
      have hL1 : σ.length + 2 ≤ σ1.length := hL1x
      have hG1 : GoodArena σ1 := hG1x
      have hU1 : ∀ i < σ.length, getSt σ1 i = getSt σ i := hU1x
      have hF1 : IsFrag σ1 (Finset.Ico σ.length σ1.length) f1 := hF1x
      obtain ⟨hoL, hoRes, hoG, hoU, hoF, hoLang⟩ := zeroOrOne_spec σ1 f1 hG1 hF1
      refine ⟨(zeroOrOne σ1 f1).1, (zeroOrOne σ1 f1).2, ?_, ?_⟩
      · rw [toNFAfromParseTree_node_cons, if_neg (by decide), if_neg (by decide),
          if_pos rfl, hcomp1]
        rfl
      · intro w
        have hreg : Finset.Ico σ.length (zeroOrOne σ1 f1).1.length =
            Finset.Ico σ.length σ1.length ∪ {σ1.length, σ1.length + 1} := by
          rw [hoL, Ico_snoc_two _ _ (by omega)]
        rw [hreg]
        exact (hoLang w).trans (or_congr Iff.rfl (hlang1 w))
  | @atomChar s r t g ih =>
    intro fuel hfuel σ hG
    obtain ⟨c0, s0, hs, -⟩ := gen_first g
    cases fuel with
    | zero => exfalso; subst hs; simp only [compileNeed, List.length_cons] at hfuel; omega
    | succ F =>
      obtain ⟨σ', f, hcomp, hlang⟩ := ih F
        (by subst hs; simp only [compileNeed, List.length_cons] at hfuel ⊢; omega) σ hG
      refine ⟨σ', f, ?_, hlang⟩
      rw [show toNFAfromParseTree (F + 1) σ (.node (some "Atom") [t]) =
        toNFAfromParseTree F σ t from rfl]
      exact hcomp
  | @atomGroup s r t g ih =>
    intro fuel hfuel σ hG
    cases fuel with
    | zero =>
      exfalso
      simp only [compileNeed, List.length_cons, List.length_append,
        List.length_nil] at hfuel
      omega
    | succ F =>
      obtain ⟨σ', f, hcomp, hlang⟩ := ih F
        (by simp only [compileNeed, List.length_cons, List.length_append,
              List.length_nil] at hfuel ⊢
            omega) σ hG
      refine ⟨σ', f, ?_, hlang⟩
      rw [show toNFAfromParseTree (F + 1) σ
        (.node (some "Atom") [.leaf (some "("), t, .leaf (some ")")]) =
        toNFAfromParseTree F σ t from rfl]
      exact hcomp
  | @chrLit c hc =>
    intro fuel hfuel σ hG
    cases fuel with
    | zero => exfalso; simp only [compileNeed] at hfuel; omega
    | succ F =>
      obtain ⟨fsL, fsRes, fsG, fsU, fsF, fsLang⟩ :=
        fromSymbol_spec σ (String.singleton c) hG
      refine ⟨(fromSymbol σ (String.singleton c)).1,
        (fromSymbol σ (String.singleton c)).2, rfl, ?_⟩
      intro w
      have hreg : Finset.Ico σ.length (fromSymbol σ (String.singleton c)).1.length =
          Finset.Ico σ.length (σ.length + 2) := by rw [fsL]
      rw [hreg, fsLang w]
      constructor
      · rintro ⟨c', rfl, hc'⟩
        show [c'] = [c]
        rw [singleton_inj hc']
      · intro hw
        have hw' : w = [c] := hw
        subst hw'
        exact ⟨c, rfl, rfl⟩
  | chrEsc c =>
    intro fuel hfuel σ hG
    cases fuel with
    | zero => exfalso; simp only [compileNeed] at hfuel; omega
    | succ F =>
      obtain ⟨fsL, fsRes, fsG, fsU, fsF, fsLang⟩ :=
        fromSymbol_spec σ (String.singleton c) hG
      refine ⟨(fromSymbol σ (String.singleton c)).1,
        (fromSymbol σ (String.singleton c)).2, rfl, ?_⟩
      intro w
      have hreg : Finset.Ico σ.length (fromSymbol σ (String.singleton c)).1.length =
          Finset.Ico σ.length (σ.length + 2) := by rw [fsL]
      rw [hreg, fsLang w]
      constructor
      · rintro ⟨c', rfl, hc'⟩
        show [c'] = [c]
        rw [singleton_inj hc']
      · intro hw
        have hw' : w = [c] := hw
        subst hw'
        exact ⟨c, rfl, rfl⟩

/-! ## The postfix machine computes the standard semantics on postfix forms -/

theorem fromSymbol_lit_lang {σ : Arena} (hG : GoodArena σ) (c : Char) (w : List Char) :
    (FragLang (fromSymbol σ (String.singleton c)).1
      (Finset.Ico σ.length (σ.length + 2)) (fromSymbol σ (String.singleton c)).2 w ↔
    RSem (.lit c) w) := by
  obtain ⟨fsL, fsRes, fsG, fsU, fsF, fsLang⟩ := fromSymbol_spec σ (String.singleton c) hG
  rw [fsLang w]
  constructor
  · rintro ⟨c', rfl, hc'⟩
    show [c'] = [c]
    rw [singleton_inj hc']
  · intro hw
    have hw' : w = [c] := hw
    subst hw'
    exact ⟨c, rfl, rfl⟩

/-- Folding the postfix form of a regex through the stack machine, from
any well-formed arena and fragment stack, pushes exactly one new
fragment whose language is the regex's denotation, leaving the old
stack intact over its own regions. -/
theorem toNFA_fold : ∀ (r : RE), RE.okLits r →
    ∀ (s' : List Char) (σ : Arena) (stack : List NFA) (Rs : List (Finset Nat)),
    GoodArena σ → List.Forall₂ (IsFrag σ) Rs stack → Rs.Pairwise Disjoint →
    ∃ σ' f,
      (postfixOf r ++ s').foldl pushToken (σ, stack) =
        s'.foldl pushToken (σ', f :: stack) ∧
      σ.length + 2 ≤ σ'.length ∧ GoodArena σ' ∧
      (∀ i < σ.length, getSt σ' i = getSt σ i) ∧
      List.Forall₂ (IsFrag σ') Rs stack ∧
      IsFrag σ' (Finset.Ico σ.length σ'.length) f ∧
      ((Finset.Ico σ.length σ'.length) :: Rs).Pairwise Disjoint ∧
      ∀ w, FragLang σ' (Finset.Ico σ.length σ'.length) f w ↔ RSem r w := by
  intro r
  induction r with
  | lit c =>
    intro hok s' σ stack Rs hG hF hD
    obtain ⟨h1, h2, h3, h4, h5⟩ := hok
    have heq : pushToken (σ, stack) c =
        ((fromSymbol σ (String.singleton c)).1,
         (fromSymbol σ (String.singleton c)).2 :: stack) := by
      simp only [pushToken, if_neg h1, if_neg h2, if_neg h3, if_neg h4, if_neg h5]
    obtain ⟨fsL, fsRes, fsG, fsU, fsF, fsLang⟩ :=
      fromSymbol_spec σ (String.singleton c) hG
    refine ⟨(fromSymbol σ (String.singleton c)).1,
      (fromSymbol σ (String.singleton c)).2, ?_, by omega, fsG, fsU, ?_, ?_, ?_, ?_⟩
    · show (c :: s').foldl pushToken (σ, stack) = _
      rw [List.foldl_cons, heq]
    · refine forall2_transport_off (e := σ.length) (by omega)
        (fun i hi _ => fsU i hi) hF ?_
      intro R hR he
      exact absurd (forall2_bound hF R hR _ he) (by omega)
    · rw [fsL]
      exact fsF
    · rw [fsL, List.pairwise_cons]
      exact ⟨fun R hR => disjoint_Ico_fresh (forall2_bound hF R hR), hD⟩
    · intro w
      rw [fsL]
      exact fromSymbol_lit_lang hG c w
  | alt r1 r2 ih1 ih2 =>
    intro hok s' σ stack Rs hG hF hD
    obtain ⟨σ1, f1, heq1, hL1, hG1, hU1, hFa1, hIF1, hPW1, hlang1⟩ :=
      ih1 hok.1 (postfixOf r2 ++ ('|' :: s')) σ stack Rs hG hF hD
    obtain ⟨σ2, f2, heq2, hL2, hG2, hU2, hFa2, hIF2, hPW2, hlang2⟩ :=
      ih2 hok.2 ('|' :: s') σ1 (f1 :: stack)
        (Finset.Ico σ.length σ1.length :: Rs) hG1 (.cons hIF1 hFa1) hPW1
    cases hFa2 with
    | cons hIF1' hFa2' =>
      have hag : ∀ i ∈ Finset.Ico σ.length σ1.length, getSt σ2 i = getSt σ1 i :=
        fun i hi => hU2 i (Finset.mem_Ico.mp hi).2
      have hlang1' : ∀ w, FragLang σ2 (Finset.Ico σ.length σ1.length) f1 w ↔
          RSem r1 w :=
        fun w => (FragLang.transportLang hag).symm.trans (hlang1 w)
      obtain ⟨huL, huRes, huG, huU, huF, huLang⟩ :=
        union_spec σ2 f1 f2 hG2 hIF1' hIF2 (Ico_disjoint_consec _ _ _)
      obtain ⟨hfa, hpw⟩ := stack_binary_union hIF1' hIF2 hFa2' hPW2 (by omega) huU huF
      have hreg : Finset.Ico σ.length σ1.length ∪ Finset.Ico σ1.length σ2.length ∪
          {σ2.length, σ2.length + 1} = Finset.Ico σ.length (σ2.length + 2) := by
        rw [Finset.Ico_union_Ico_eq_Ico (by omega) (by omega),
          Ico_snoc_two _ _ (by omega)]
      cases hfa with
      | cons hIFnew hfarest =>
        refine ⟨(union σ2 f1 f2).1, (union σ2 f1 f2).2, ?_, by omega, huG, ?_, ?_,
          ?_, ?_, ?_⟩
        · have hassoc : postfixOf (.alt r1 r2) ++ s' =
              postfixOf r1 ++ (postfixOf r2 ++ ('|' :: s')) := by
            simp [postfixOf]
          rw [hassoc, heq1, heq2, List.foldl_cons]
          rfl
        · intro i hi
          have hf1e := hIF1'.2.2.1
          have hf2e := hIF2.2.2.1
          rw [Finset.mem_Ico] at hf1e hf2e
          rw [huU i (by omega) (by omega) (by omega), hU2 i (by omega), hU1 i hi]
        · exact hfarest
        · rw [huL, show Finset.Ico σ.length (σ2.length + 2) =
            Finset.Ico σ.length σ1.length ∪ Finset.Ico σ1.length σ2.length ∪
              {σ2.length, σ2.length + 1} from hreg.symm]
          exact hIFnew
        · rw [huL, show Finset.Ico σ.length (σ2.length + 2) =
            Finset.Ico σ.length σ1.length ∪ Finset.Ico σ1.length σ2.length ∪
              {σ2.length, σ2.length + 1} from hreg.symm]
          exact hpw
        · intro w
          rw [huL, show Finset.Ico σ.length (σ2.length + 2) =
            Finset.Ico σ.length σ1.length ∪ Finset.Ico σ1.length σ2.length ∪
              {σ2.length, σ2.length + 1} from hreg.symm]
          exact (huLang w).trans (or_congr (hlang1' w) (hlang2 w))
  | cat r1 r2 ih1 ih2 =>
    intro hok s' σ stack Rs hG hF hD
    obtain ⟨σ1, f1, heq1, hL1, hG1, hU1, hFa1, hIF1, hPW1, hlang1⟩ :=
      ih1 hok.1 (postfixOf r2 ++ ('.' :: s')) σ stack Rs hG hF hD
    obtain ⟨σ2, f2, heq2, hL2, hG2, hU2, hFa2, hIF2, hPW2, hlang2⟩ :=
      ih2 hok.2 ('.' :: s') σ1 (f1 :: stack)
        (Finset.Ico σ.length σ1.length :: Rs) hG1 (.cons hIF1 hFa1) hPW1
    cases hFa2 with
    | cons hIF1' hFa2' =>
      have hag : ∀ i ∈ Finset.Ico σ.length σ1.length, getSt σ2 i = getSt σ1 i :=
        fun i hi => hU2 i (Finset.mem_Ico.mp hi).2
      have hlang1' : ∀ w, FragLang σ2 (Finset.Ico σ.length σ1.length) f1 w ↔
          RSem r1 w :=
        fun w => (FragLang.transportLang hag).symm.trans (hlang1 w)
      obtain ⟨hcL, hcRes, hcG, hcU, hcF, hcLang⟩ :=
        concat_spec σ2 f1 f2 hG2 hIF1' hIF2 (Ico_disjoint_consec _ _ _)
      obtain ⟨hfa, hpw⟩ := stack_binary_concat hIF1' hIF2 hFa2' hPW2 (by omega)
        (fun i _ hne => hcU i hne) hcF
      have hreg : Finset.Ico σ.length σ1.length ∪ Finset.Ico σ1.length σ2.length =
          Finset.Ico σ.length σ2.length :=
        Finset.Ico_union_Ico_eq_Ico (by omega) (by omega)
      cases hfa with
      | cons hIFnew hfarest =>
        refine ⟨(concat σ2 f1 f2).1, (concat σ2 f1 f2).2, ?_, by omega, hcG, ?_, ?_,
          ?_, ?_, ?_⟩
        · have hassoc : postfixOf (.cat r1 r2) ++ s' =
              postfixOf r1 ++ (postfixOf r2 ++ ('.' :: s')) := by
            simp [postfixOf]
          rw [hassoc, heq1, heq2, List.foldl_cons]
          rfl
        · intro i hi
          have hf1e := hIF1'.2.2.1
          rw [Finset.mem_Ico] at hf1e
          rw [hcU i (by omega), hU2 i (by omega), hU1 i hi]
        · exact hfarest
        · rw [hcL, show Finset.Ico σ.length σ2.length =
            Finset.Ico σ.length σ1.length ∪ Finset.Ico σ1.length σ2.length
              from hreg.symm]
          exact hIFnew
        · rw [hcL, show Finset.Ico σ.length σ2.length =
            Finset.Ico σ.length σ1.length ∪ Finset.Ico σ1.length σ2.length
              from hreg.symm]
          exact hpw
        · intro w
          rw [hcL, show Finset.Ico σ.length σ2.length =
            Finset.Ico σ.length σ1.length ∪ Finset.Ico σ1.length σ2.length
              from hreg.symm]
          exact (hcLang w).trans (cat_congr (fun u => hlang1' u) (fun u => hlang2 u) w)
  | star r1 ih =>
    intro hok s' σ stack Rs hG hF hD
    obtain ⟨σ1, f1, heq1, hL1, hG1, hU1, hFa1, hIF1, hPW1, hlang1⟩ :=
      ih hok ('*' :: s') σ stack Rs hG hF hD
    obtain ⟨hoL, hoRes, hoG, hoU, hoF, hoLang⟩ := closure_spec σ1 f1 hG1 hIF1
    obtain ⟨hfa, hpw⟩ := stack_unary hIF1 hFa1 hPW1 (by omega) hoU hoF
    have hreg : Finset.Ico σ.length σ1.length ∪ {σ1.length, σ1.length + 1} =
        Finset.Ico σ.length (σ1.length + 2) :=
      Ico_snoc_two _ _ (by omega)
    cases hfa with
    | cons hIFnew hfarest =>
      refine ⟨(closure σ1 f1).1, (closure σ1 f1).2, ?_, by omega, hoG, ?_, ?_,
        ?_, ?_, ?_⟩
      · have hassoc : postfixOf (.star r1) ++ s' = postfixOf r1 ++ ('*' :: s') := by
          simp [postfixOf]
        rw [hassoc, heq1, List.foldl_cons]
        rfl
      · intro i hi
        have hf1e := hIF1.2.2.1
        rw [Finset.mem_Ico] at hf1e
        rw [hoU i (by omega) (by omega), hU1 i hi]
      · exact hfarest
      · rw [hoL, show Finset.Ico σ.length (σ1.length + 2) =
          Finset.Ico σ.length σ1.length ∪ {σ1.length, σ1.length + 1} from hreg.symm]
        exact hIFnew
      · rw [hoL, show Finset.Ico σ.length (σ1.length + 2) =
          Finset.Ico σ.length σ1.length ∪ {σ1.length, σ1.length + 1} from hreg.symm]
        exact hpw
      · intro w
        rw [hoL, show Finset.Ico σ.length (σ1.length + 2) =
          Finset.Ico σ.length σ1.length ∪ {σ1.length, σ1.length + 1} from hreg.symm]
        exact (hoLang w).trans (or_congr Iff.rfl (parts_congr (fun u => hlang1 u) w))
  | plus r1 ih =>
    intro hok s' σ stack Rs hG hF hD
    obtain ⟨σ1, f1, heq1, hL1, hG1, hU1, hFa1, hIF1, hPW1, hlang1⟩ :=
      ih hok ('+' :: s') σ stack Rs hG hF hD
    obtain ⟨hoL, hoRes, hoG, hoU, hoF, hoLang⟩ := oneOrMore_spec σ1 f1 hG1 hIF1
    obtain ⟨hfa, hpw⟩ := stack_unary hIF1 hFa1 hPW1 (by omega) hoU hoF
    have hreg : Finset.Ico σ.length σ1.length ∪ {σ1.length, σ1.length + 1} =
        Finset.Ico σ.length (σ1.length + 2) :=
      Ico_snoc_two _ _ (by omega)
    cases hfa with
    | cons hIFnew hfarest =>
      refine ⟨(oneOrMore σ1 f1).1, (oneOrMore σ1 f1).2, ?_, by omega, hoG, ?_, ?_,
        ?_, ?_, ?_⟩
      · have hassoc : postfixOf (.plus r1) ++ s' = postfixOf r1 ++ ('+' :: s') := by
          simp [postfixOf]
        rw [hassoc, heq1, List.foldl_cons]
        rfl
      · intro i hi
        have hf1e := hIF1.2.2.1
        rw [Finset.mem_Ico] at hf1e
        rw [hoU i (by omega) (by omega), hU1 i hi]
      · exact hfarest
      · rw [hoL, show Finset.Ico σ.length (σ1.length + 2) =
          Finset.Ico σ.length σ1.length ∪ {σ1.length, σ1.length + 1} from hreg.symm]
        exact hIFnew
      · rw [hoL, show Finset.Ico σ.length (σ1.length + 2) =
          Finset.Ico σ.length σ1.length ∪ {σ1.length, σ1.length + 1} from hreg.symm]
        exact hpw
      · intro w
        rw [hoL, show Finset.Ico σ.length (σ1.length + 2) =
          Finset.Ico σ.length σ1.length ∪ {σ1.length, σ1.length + 1} from hreg.symm]
        exact (hoLang w).trans (parts_congr (fun u => hlang1 u) w)
  | opt r1 ih =>
    intro hok s' σ stack Rs hG hF hD
    obtain ⟨σ1, f1, heq1, hL1, hG1, hU1, hFa1, hIF1, hPW1, hlang1⟩ :=
      ih hok ('?' :: s') σ stack Rs hG hF hD
    obtain ⟨hoL, hoRes, hoG, hoU, hoF, hoLang⟩ := zeroOrOne_spec σ1 f1 hG1 hIF1
    obtain ⟨hfa, hpw⟩ := stack_unary hIF1 hFa1 hPW1 (by omega) hoU hoF
    have hreg : Finset.Ico σ.length σ1.length ∪ {σ1.length, σ1.length + 1} =
        Finset.Ico σ.length (σ1.length + 2) :=
      Ico_snoc_two _ _ (by omega)
    cases hfa with
    | cons hIFnew hfarest =>
      refine ⟨(zeroOrOne σ1 f1).1, (zeroOrOne σ1 f1).2, ?_, by omega, hoG, ?_, ?_,
        ?_, ?_, ?_⟩
      · have hassoc : postfixOf (.opt r1) ++ s' = postfixOf r1 ++ ('?' :: s') := by
          simp [postfixOf]
        rw [hassoc, heq1, List.foldl_cons]
        rfl
      · intro i hi
        have hf1e := hIF1.2.2.1
        rw [Finset.mem_Ico] at hf1e
        rw [hoU i (by omega) (by omega), hU1 i hi]
      · exact hfarest
      · rw [hoL, show Finset.Ico σ.length (σ1.length + 2) =
          Finset.Ico σ.length σ1.length ∪ {σ1.length, σ1.length + 1} from hreg.symm]
        exact hIFnew
      · rw [hoL, show Finset.Ico σ.length (σ1.length + 2) =
          Finset.Ico σ.length σ1.length ∪ {σ1.length, σ1.length + 1} from hreg.symm]
        exact hpw
      · intro w
        rw [hoL, show Finset.Ico σ.length (σ1.length + 2) =
          Finset.Ico σ.length σ1.length ∪ {σ1.length, σ1.length + 1} from hreg.symm]
        exact (hoLang w).trans (or_congr Iff.rfl (hlang1 w))

/-- `toParseTree` parses every grammar-generated pattern to exactly its
generated tree: the wrapper fuel `7 * length + 1` dominates the
completeness bound `4 * length`. -/
theorem toParseTree_complete {s : List Char} {r : RE} {t : TreeNode}
    (g : Gen .expr s r t) : toParseTree s = .ok t := by
  have h := parse_complete g [] [] (7 * s.length + 1) (by omega)
    (fun c hc => Option.noConfusion hc)
  rw [toParseTree]
  have hstate : (⟨s, 0⟩ : ParserState) =
      ⟨[] ++ s ++ [], ([] : List Char).length⟩ := by simp
  rw [hstate, h]
  rfl

theorem postfixOf_ne_nil (r : RE) : postfixOf r ≠ [] := by
  cases r <;> simp [postfixOf]

/-! ## Claim C4: union is observationally a disjunction -/

/-- C4: for all NFA fragments A and B as they stand immediately after
construction (well-formed fragments over disjoint regions of a
well-formed arena, not yet consumed by any composition) and every word
w, matching the composite `union(A,B)` against w returns true if and
only if matching A against w returns true or matching B against w
returns true. -/
theorem C4_union_matches (σ : Arena) (A B : NFA) (RA RB : Finset Nat)
    (hG : GoodArena σ) (hA : IsFrag σ RA A) (hB : IsFrag σ RB B)
    (hD : Disjoint RA RB) (w : List Char) :
    recognize (union σ A B).1 (union σ A B).2 w
      = (recognize σ A w || recognize σ B w) := by
  obtain ⟨hlen, hres, hG', hold, hF', hlang⟩ := union_spec σ A B hG hA hB hD
  have h1 : recognize (union σ A B).1 (union σ A B).2 w = true ↔
      FragLang σ RA A w ∨ FragLang σ RB B w := by
    rw [recognize, search_iff hG' hF' w]
    exact hlang w
  have h2 : recognize σ A w = true ↔ FragLang σ RA A w := by
    rw [recognize]
    exact search_iff hG hA w
  have h3 : recognize σ B w = true ↔ FragLang σ RB B w := by
    rw [recognize]
    exact search_iff hG hB w
  have hiff : recognize (union σ A B).1 (union σ A B).2 w = true ↔
      (recognize σ A w || recognize σ B w) = true := by
    rw [Bool.or_eq_true, h1, h2, h3]
  cases h : recognize (union σ A B).1 (union σ A B).2 w
  · cases h' : (recognize σ A w || recognize σ B w)
    · rfl
    · exact absurd (hiff.mpr h') (by simp [h])
  · exact (hiff.mp h).symm

/-- Witness for C4 at a concrete input: two single-symbol fragments in
one arena, word "a". -/
theorem C4_union_matches_witness :
    recognize (union (fromSymbol (fromSymbol [] "a").1 "b").1
        (fromSymbol [] "a").2 (fromSymbol (fromSymbol [] "a").1 "b").2).1
      (union (fromSymbol (fromSymbol [] "a").1 "b").1
        (fromSymbol [] "a").2 (fromSymbol (fromSymbol [] "a").1 "b").2).2 ['a']
      = (recognize (fromSymbol (fromSymbol [] "a").1 "b").1
          (fromSymbol [] "a").2 ['a'] ||
        recognize (fromSymbol (fromSymbol [] "a").1 "b").1
          (fromSymbol (fromSymbol [] "a").1 "b").2 ['a']) :=
  C4_union_matches (fromSymbol (fromSymbol [] "a").1 "b").1
    (fromSymbol [] "a").2 (fromSymbol (fromSymbol [] "a").1 "b").2
    {0, 1} {2, 3} (by decide) (by decide) (by decide) (by decide) ['a']

/-! ## Claim C5: closure matches iterated concatenations -/

/-- C5: for every NFA fragment A as it stands immediately after
construction and every word w, matching `closure(A)` against w returns
true if and only if w is empty or w splits into one or more consecutive
substrings each matched by A. -/
theorem C5_closure_matches (σ : Arena) (A : NFA) (RA : Finset Nat)
    (hG : GoodArena σ) (hA : IsFrag σ RA A) (w : List Char) :
    recognize (closure σ A).1 (closure σ A).2 w = true ↔
      (w = [] ∨ ∃ parts : List (List Char), parts ≠ [] ∧ w = parts.join ∧
        ∀ u ∈ parts, recognize σ A u = true) := by
  obtain ⟨hlen, hres, hG', hold, hF', hlang⟩ := closure_spec σ A hG hA
  rw [recognize, search_iff hG' hF' w]
  constructor
  · intro hp
    rcases (hlang w).mp hp with h | ⟨parts, hne, hjoin, hall⟩
    · exact Or.inl h
    · refine Or.inr ⟨parts, hne, hjoin, fun u hu => ?_⟩
      rw [recognize]
      exact (search_iff hG hA u).mpr (hall u hu)
  · intro h
    apply (hlang w).mpr
    rcases h with h | ⟨parts, hne, hjoin, hall⟩
    · exact Or.inl h
    · refine Or.inr ⟨parts, hne, hjoin, fun u hu => ?_⟩
      have hu' := hall u hu
      rw [recognize] at hu'
      exact (search_iff hG hA u).mp hu'

/-- Witness for C5 at a concrete input: the closure of a single-symbol
fragment, word "aa". -/
theorem C5_closure_matches_witness :
    recognize (closure (fromSymbol [] "a").1 (fromSymbol [] "a").2).1
        (closure (fromSymbol [] "a").1 (fromSymbol [] "a").2).2 ['a', 'a'] = true ↔
      (['a', 'a'] = ([] : List Char) ∨
        ∃ parts : List (List Char), parts ≠ [] ∧ ['a', 'a'] = parts.join ∧
          ∀ u ∈ parts, recognize (fromSymbol [] "a").1 (fromSymbol [] "a").2 u = true) :=
  C5_closure_matches (fromSymbol [] "a").1 (fromSymbol [] "a").2 {0, 1}
    (by decide) (by decide) ['a', 'a']

/-! ## Claim C6: single accepting state per fragment -/

/-- C6: every composition operator that consumes a fragment's end state
clears that state's accept flag, and in the composed fragment's region
exactly one state — the new fragment's end state — has `isEnd` set, so
each fragment has exactly one accepting state at every point during
construction. -/
theorem C6_single_accept :
    (∀ (σ : Arena) (A B : NFA) (RA RB : Finset Nat), GoodArena σ →
      IsFrag σ RA A → IsFrag σ RB B → Disjoint RA RB →
      (getSt (concat σ A B).1 A.endState).isEnd = false ∧
      ∀ i ∈ RA ∪ RB,
        ((getSt (concat σ A B).1 i).isEnd = true ↔ i = (concat σ A B).2.endState)) ∧
    (∀ (σ : Arena) (A B : NFA) (RA RB : Finset Nat), GoodArena σ →
      IsFrag σ RA A → IsFrag σ RB B → Disjoint RA RB →
      ((getSt (union σ A B).1 A.endState).isEnd = false ∧
        (getSt (union σ A B).1 B.endState).isEnd = false) ∧
      ∀ i ∈ RA ∪ RB ∪ {σ.length, σ.length + 1},
        ((getSt (union σ A B).1 i).isEnd = true ↔ i = (union σ A B).2.endState)) ∧
    (∀ (σ : Arena) (A : NFA) (RA : Finset Nat), GoodArena σ → IsFrag σ RA A →
      (getSt (closure σ A).1 A.endState).isEnd = false ∧
      ∀ i ∈ RA ∪ {σ.length, σ.length + 1},
        ((getSt (closure σ A).1 i).isEnd = true ↔ i = (closure σ A).2.endState)) ∧
    (∀ (σ : Arena) (A : NFA) (RA : Finset Nat), GoodArena σ → IsFrag σ RA A →
      (getSt (zeroOrOne σ A).1 A.endState).isEnd = false ∧
      ∀ i ∈ RA ∪ {σ.length, σ.length + 1},
        ((getSt (zeroOrOne σ A).1 i).isEnd = true ↔ i = (zeroOrOne σ A).2.endState)) ∧
    (∀ (σ : Arena) (A : NFA) (RA : Finset Nat), GoodArena σ → IsFrag σ RA A →
      (getSt (oneOrMore σ A).1 A.endState).isEnd = false ∧
      ∀ i ∈ RA ∪ {σ.length, σ.length + 1},
        ((getSt (oneOrMore σ A).1 i).isEnd = true ↔ i = (oneOrMore σ A).2.endState)) := by
  have unique_of_frag : ∀ (σ' : Arena) (R' : Finset Nat) (f' : NFA),
      IsFrag σ' R' f' → ∀ i ∈ R',
      ((getSt σ' i).isEnd = true ↔ i = f'.endState) := by
    intro σ' R' f' hF i hi
    obtain ⟨-, -, he, -, -, -, hacc, huniq⟩ := hF
    constructor
    · exact huniq i hi
    · rintro rfl
      exact hacc
  have cleared : ∀ (σ' : Arena) (R' : Finset Nat) (f' : NFA),
      IsFrag σ' R' f' → ∀ x ∈ R', x ≠ f'.endState →
      (getSt σ' x).isEnd = false := by
    intro σ' R' f' hF x hx hne
    rcases h : (getSt σ' x).isEnd with _ | _
    · rfl
    · exact absurd ((unique_of_frag σ' R' f' hF x hx).mp h) hne
  refine ⟨?_, ?_, ?_, ?_, ?_⟩
  · intro σ A B RA RB hG hA hB hD
    obtain ⟨hlen, hres, hG', hold, hF', hlang⟩ := concat_spec σ A B hG hA hB hD
    have hAe : A.endState ∈ RA ∪ RB := Finset.mem_union_left _ hA.2.2.1
    have hne : A.endState ≠ (concat σ A B).2.endState := by
      rw [hres]
      intro h
      exact (Finset.disjoint_left.mp hD hA.2.2.1) (h ▸ hB.2.2.1)
    exact ⟨cleared _ _ _ hF' A.endState hAe hne, unique_of_frag _ _ _ hF'⟩
  · intro σ A B RA RB hG hA hB hD
    obtain ⟨hlen, hres, hG', hold, hF', hlang⟩ := union_spec σ A B hG hA hB hD
    have hAe : A.endState ∈ RA ∪ RB ∪ {σ.length, σ.length + 1} :=
      Finset.mem_union_left _ (Finset.mem_union_left _ hA.2.2.1)
    have hBe : B.endState ∈ RA ∪ RB ∪ {σ.length, σ.length + 1} :=
      Finset.mem_union_left _ (Finset.mem_union_right _ hB.2.2.1)
    have hAlt : A.endState < σ.length := hA.1 _ hA.2.2.1
    have hBlt : B.endState < σ.length := hB.1 _ hB.2.2.1
    have hneA : A.endState ≠ (union σ A B).2.endState := by
      rw [hres]
      intro h
      simp only at h
      omega
    have hneB : B.endState ≠ (union σ A B).2.endState := by
      rw [hres]
      intro h
      simp only at h
      omega
    exact ⟨⟨cleared _ _ _ hF' A.endState hAe hneA,
      cleared _ _ _ hF' B.endState hBe hneB⟩, unique_of_frag _ _ _ hF'⟩
  · intro σ A RA hG hA
    obtain ⟨hlen, hres, hG', hold, hF', hlang⟩ := closure_spec σ A hG hA
    have hAe : A.endState ∈ RA ∪ {σ.length, σ.length + 1} :=
      Finset.mem_union_left _ hA.2.2.1
    have hAlt : A.endState < σ.length := hA.1 _ hA.2.2.1
    have hne : A.endState ≠ (closure σ A).2.endState := by
      rw [hres]
      intro h
      simp only at h
      omega
    exact ⟨cleared _ _ _ hF' A.endState hAe hne, unique_of_frag _ _ _ hF'⟩
  · intro σ A RA hG hA
    obtain ⟨hlen, hres, hG', hold, hF', hlang⟩ := zeroOrOne_spec σ A hG hA
    have hAe : A.endState ∈ RA ∪ {σ.length, σ.length + 1} :=
      Finset.mem_union_left _ hA.2.2.1
    have hAlt : A.endState < σ.length := hA.1 _ hA.2.2.1
    have hne : A.endState ≠ (zeroOrOne σ A).2.endState := by
      rw [hres]
      intro h
      simp only at h
      omega
    exact ⟨cleared _ _ _ hF' A.endState hAe hne, unique_of_frag _ _ _ hF'⟩
  · intro σ A RA hG hA
    obtain ⟨hlen, hres, hG', hold, hF', hlang⟩ := oneOrMore_spec σ A hG hA
    have hAe : A.endState ∈ RA ∪ {σ.length, σ.length + 1} :=
      Finset.mem_union_left _ hA.2.2.1
    have hAlt : A.endState < σ.length := hA.1 _ hA.2.2.1
    have hne : A.endState ≠ (oneOrMore σ A).2.endState := by
      rw [hres]
      intro h
      simp only at h
      omega
    exact ⟨cleared _ _ _ hF' A.endState hAe hne, unique_of_frag _ _ _ hF'⟩

/-- Witness for C6 at a concrete input: concatenating two single-symbol
fragments clears the first end state and leaves the second as the
unique accepting state of the composed region. -/
theorem C6_single_accept_witness :
    (getSt (concat (fromSymbol (fromSymbol [] "a").1 "b").1
        (fromSymbol [] "a").2 (fromSymbol (fromSymbol [] "a").1 "b").2).1
      ((fromSymbol [] "a").2).endState).isEnd = false ∧
    ∀ i ∈ ({0, 1} ∪ {2, 3} : Finset Nat),
      ((getSt (concat (fromSymbol (fromSymbol [] "a").1 "b").1
          (fromSymbol [] "a").2 (fromSymbol (fromSymbol [] "a").1 "b").2).1 i).isEnd = true
        ↔ i = (concat (fromSymbol (fromSymbol [] "a").1 "b").1
            (fromSymbol [] "a").2
            (fromSymbol (fromSymbol [] "a").1 "b").2).2.endState) :=
  C6_single_accept.1 (fromSymbol (fromSymbol [] "a").1 "b").1
    (fromSymbol [] "a").2 (fromSymbol (fromSymbol [] "a").1 "b").2
    {0, 1} {2, 3} (by decide) (by decide) (by decide) (by decide)

/-! ## Claim C3: end-of-input handling in the parser -/

/-- C3 (amended): there is no distinct end-of-input condition.  Past the
end of the pattern `next()` silently succeeds: the lookahead is the
undefined value (`none`), `match` compares it against itself, and the
scan position advances past the end.  Consequently `parse("(a")` fails
with the generic `Unexpected symbol )` error of `match(')')` — the same
error a mismatched non-exhausted input produces — not with a dedicated
"unexpected end of input" error. -/
theorem C3_end_of_input (s : ParserState) (h : s.pattern.length ≤ s.pos) :
    next s = .ok (none, { pattern := s.pattern, pos := s.pos + 1 }) ∧
    toParseTree ['(', 'a'] = .error (.unexpectedSymbol (some ')')) := by
  constructor
  · have hp : peek s = none := by
      simp [peek, List.getElem?_eq_none_iff]
      omega
    simp [next, matchTok, hp]
  · rfl

/-- Witness for C3 at a concrete input: reading past the end of the
one-character pattern "a" silently yields `none` and advances. -/
theorem C3_end_of_input_witness :
    next ⟨['a'], 1⟩ = .ok (none, ⟨['a'], 2⟩) ∧
    toParseTree ['(', 'a'] = .error (.unexpectedSymbol (some ')')) :=
  C3_end_of_input ⟨['a'], 1⟩ (by decide)

/-- C3 counterexample to the specified behavior: `parse("(a")` does not
fail with a distinct, detectable end-of-input condition — it reports
exactly the same error value as `parse("(a]")`, whose input is not
exhausted at the point of failure; and the trailing backslash of "a\"
makes `next()` silently match the undefined out-of-bounds lookahead, so
the parse succeeds and the tree carries a `none`-labelled leaf. -/
theorem C3_end_of_input_cex :
    toParseTree ['(', 'a'] = .error (.unexpectedSymbol (some ')')) ∧
    toParseTree ['(', 'a', ']'] = .error (.unexpectedSymbol (some ')')) ∧
    toParseTree ['a', '\\'] =
      .ok (.node (some "Expr") [.node (some "Term")
        [.node (some "Factor") [.node (some "Atom")
          [.node (some "Char") [.leaf (some "a")]]],
         .node (some "Term") [.node (some "Factor") [.node (some "Atom")
          [.node (some "Char") [.leaf (some "\\"), .leaf none]]]]]]) :=
  ⟨rfl, rfl, rfl⟩

/-! ## Claim C9: the postfix stack machine never throws -/

/-- C9: `toNFA` handles operand underflow without throwing: a quantifier
token popped against an empty stack, or an alternation or concatenation
token with fewer than two operands, is silently skipped (the pops having
discarded any lone operand) and the fold continues; on the single-token
stream "*" the final `stack.pop()` therefore yields `undefined` (`none`)
rather than an NFA, while compilation after a skipped token still
succeeds ("*a" compiles to the automaton for "a"). -/
theorem C9_toNFA_silent_skip :
    (∀ σ : Arena, pushToken (σ, []) '*' = (σ, []) ∧ pushToken (σ, []) '?' = (σ, []) ∧
      pushToken (σ, []) '+' = (σ, []) ∧ pushToken (σ, []) '|' = (σ, []) ∧
      pushToken (σ, []) '.' = (σ, [])) ∧
    (∀ (σ : Arena) (f : NFA), pushToken (σ, [f]) '|' = (σ, []) ∧
      pushToken (σ, [f]) '.' = (σ, [])) ∧
    toNFA [] ['*'] = ([], none) ∧
    (toNFA [] ['*', 'a']).2 = some { start := 0, endState := 1 } :=
  ⟨fun _ => ⟨rfl, rfl, rfl, rfl, rfl⟩, fun _ _ => ⟨rfl, rfl⟩, rfl, rfl⟩

/-! ## Claim C8: epsilon / symbol separation -/

theorem good_all {σ : Arena} (hG : GoodArena σ) :
    ∀ i : Nat, (epsOf σ i).length ≤ 2 ∧ (epsOf σ i ≠ [] → transOf σ i = []) := by
  intro i
  by_cases hi : i < σ.length
  · exact ⟨(hG i hi).2.2, (hG i hi).2.1⟩
  · have h0 : getSt σ i = ⟨false, [], []⟩ := getSt_oob (by omega)
    rw [epsOf, transOf, h0]
    exact ⟨by simp, fun _ => rfl⟩

/-- C8: in every automaton either compiler produces, every state has at
most two epsilon targets and a state with an epsilon transition carries
no symbol transition; and the epsilon-closure walk `addNextState` adds
only epsilon-free states to the closure set it builds. -/
theorem C8_eps_symbol_separation :
    (∀ (e : List Char) (σ : Arena) (f : NFA), toNFAFromInfixExp e = some (σ, f) →
      ∀ i : Nat, (epsOf σ i).length ≤ 2 ∧ (epsOf σ i ≠ [] → transOf σ i = [])) ∧
    (∀ (s : List Char) (i : Nat),
      (epsOf (toNFA [] s).1 i).length ≤ 2 ∧
      (epsOf (toNFA [] s).1 i ≠ [] → transOf (toNFA [] s).1 i = [])) ∧
    (∀ (σ : Arena) (fuel i : Nat) (vis : List Nat) (j : Nat),
      j ∈ (addNextState σ fuel i [] vis).1 → epsOf σ j = []) := by
  refine ⟨?_, ?_, ?_⟩
  · intro e σ f h
    by_cases he : e = []
    · subst he
      have h' : some (fromEpsilon []) = some (σ, f) := h
      have h2 : (fromEpsilon []).1 = σ := congrArg Prod.fst (Option.some.inj h')
      subst h2
      exact good_all (fromEpsilon_spec [] (by decide)).2.2.1
    · have h' : (match toParseTree e with
          | .ok t => toNFAfromParseTree (7 * e.length + 1) [] t
          | .error _ => none) = some (σ, f) := by
        rw [toNFAFromInfixExp, if_neg he] at h
        exact h
      cases hpt : toParseTree e with
      | error err =>
        rw [hpt] at h'
        exact Option.noConfusion h'
      | ok t =>
        rw [hpt] at h'
        have h'' : toNFAfromParseTree (7 * e.length + 1) [] t = some (σ, f) := h'
        exact good_all
          (compile_frag (7 * e.length + 1) t [] (by decide) (σ, f) h'').2.1
  · intro s i
    by_cases hs : s = []
    · subst hs
      exact good_all (fromEpsilon_spec [] (by decide)).2.2.1 i
    · have heq : (toNFA [] s).1 = (s.foldl pushToken ([], [])).1 := by
        simp only [toNFA, if_neg hs]
      rw [heq]
      obtain ⟨Rs', hG', _, _⟩ := foldl_pushToken_ok s [] [] [] (by decide) .nil .nil
      exact good_all hG' i
  · intro σ fuel i vis j hj
    rcases (ans_sound σ fuel).1 i [] vis j hj with h | h
    · simp at h
    · exact h.2

/-- Witness for C8 at concrete inputs: the two-state automaton compiled
from the pattern "a", inspected at its start state, and one concrete
epsilon-closure walk. -/
theorem C8_eps_symbol_separation_witness :
    ((epsOf [⟨false, [("a", 1)], []⟩, ⟨true, [], []⟩] 0).length ≤ 2 ∧
      (epsOf [⟨false, [("a", 1)], []⟩, ⟨true, [], []⟩] 0 ≠ [] →
        transOf [⟨false, [("a", 1)], []⟩, ⟨true, [], []⟩] 0 = [])) ∧
    epsOf [(⟨false, [], [1]⟩ : FA_State), ⟨true, [], []⟩] 1 = [] :=
  ⟨C8_eps_symbol_separation.1 ['a'] [⟨false, [("a", 1)], []⟩, ⟨true, [], []⟩]
      ⟨0, 1⟩ rfl 0,
    C8_eps_symbol_separation.2.2 [⟨false, [], [1]⟩, ⟨true, [], []⟩]
      3 0 [] 1
      ((mem_closureL (by decide) (by decide) 1).mpr
        ⟨Path.eps trivial (by decide) (.refl 1), rfl⟩)⟩

/-- Compiling any grammar pattern from infix succeeds, and the language
of the produced automaton under the matcher is the standard denotation.
Shared backbone of the claims about the infix pipeline. -/
theorem infix_lang {s : List Char} {r : RE} {t : TreeNode} (g : Gen .expr s r t) :
    ∃ σ f, toNFAFromInfixExp s = some (σ, f) ∧
      ∀ w, (recognize σ f w = true ↔ RSem r w) := by
  obtain ⟨c0, s0, hs, -⟩ := gen_first g
  have hne : s ≠ [] := by subst hs; simp
  obtain ⟨σ', f, hcomp, hlang⟩ := compile_gen g (7 * s.length + 1)
    (by subst hs; simp only [compileNeed, List.length_cons]; omega) [] (by decide)
  obtain ⟨hL, hGp, hU, hFp⟩ :=
    compile_frag (7 * s.length + 1) t [] (by decide) (σ', f) hcomp
  have hGp' : GoodArena σ' := hGp
  have hFp' : IsFrag σ' (Finset.Ico ([] : Arena).length σ'.length) f := hFp
  have hinfix : toNFAFromInfixExp s = some (σ', f) := by
    rw [toNFAFromInfixExp, if_neg hne, toParseTree_complete g]
    exact hcomp
  refine ⟨σ', f, hinfix, ?_⟩
  intro w
  rw [recognize, search_iff hGp' hFp' w]
  exact hlang w

/-! ## Claim C1: the compiled matcher decides the standard semantics -/

/-- C1: for every pattern of the accepted regex surface (a grammar
derivation of the surface string `s`, denoting the regex `r`) and every
word w, compiling from infix succeeds and the matcher accepts w exactly
when w lies in the standard denotation of the pattern. -/
theorem C1_matches_standard_semantics (s : List Char) (r : RE) (t : TreeNode)
    (g : Gen .expr s r t) (w : List Char) :
    ∃ σ f, toNFAFromInfixExp s = some (σ, f) ∧
      (recognize σ f w = true ↔ RSem r w) := by
  obtain ⟨σ, f, hinfix, hiff⟩ := infix_lang g
  exact ⟨σ, f, hinfix, hiff w⟩

/-- Witness for C1 at a concrete input: the one-character pattern "a"
and the word "a". -/
theorem C1_matches_standard_semantics_witness :
    ∃ σ f, toNFAFromInfixExp ['a'] = some (σ, f) ∧
      (recognize σ f ['a'] = true ↔ RSem (.lit 'a') ['a']) :=
  C1_matches_standard_semantics ['a'] (.lit 'a')
    (.node (some "Expr") [.node (some "Term") [.node (some "Factor")
      [.node (some "Atom") [.node (some "Char")
        [.leaf (some (String.singleton 'a'))]]]]])
    (Gen.exprSingle (Gen.termSingle (Gen.factorSingle (Gen.atomChar
      (Gen.chrLit (by decide))))))
    ['a']

/-! ## Claim C7: backslash escapes the next character into a literal -/

/-- C7: compiling the infix pattern "a\*" succeeds and the resulting
automaton matches exactly the two-character word "a*" — in particular
it does not match "aaaa", "a", or the empty word. -/
theorem C7_escape_literal :
    ∃ σ f, toNFAFromInfixExp ['a', '\\', '*'] = some (σ, f) ∧
      ∀ w, (recognize σ f w = true ↔ w = ['a', '*']) := by
  have g : Gen .expr (['a'] ++ ['\\', '*']) (.cat (.lit 'a') (.lit '*'))
      (.node (some "Expr") [.node (some "Term")
        [.node (some "Factor") [.node (some "Atom") [.node (some "Char")
          [.leaf (some (String.singleton 'a'))]]],
         .node (some "Term") [.node (some "Factor") [.node (some "Atom")
          [.node (some "Char") [.leaf (some "\\"),
            .leaf (some (String.singleton '*'))]]]]]]) :=
    .exprSingle (.termCat (.factorSingle (.atomChar (.chrLit (by decide))))
      (.termSingle (.factorSingle (.atomChar (.chrEsc '*')))))
  obtain ⟨σ, f, hinfix, hiff⟩ := infix_lang g
  refine ⟨σ, f, hinfix, ?_⟩
  intro w
  rw [hiff w]
  constructor
  · rintro ⟨u, v, rfl, hu, hv⟩
    have hu' : u = ['a'] := hu
    have hv' : v = ['*'] := hv
    subst hu' hv'
    rfl
  · rintro rfl
    exact ⟨['a'], ['*'], rfl, rfl, rfl⟩

/-! ## Claim C2: the two compilers are observationally equivalent -/

/-- C2: the tree-driven compiler on the parse tree of an infix pattern
and the postfix stack machine on the pattern's postfix form (with '.'
the explicit concatenation operator) produce observationally equivalent
automata: both succeed, and the matcher returns the same boolean on
both, for every word.  The pattern is given as a grammar derivation of
surface string `s` denoting `r`, whose postfix form is `postfixOf r`;
`r.okLits` says no literal of the pattern is itself a postfix operator
token, which is what makes the postfix form express the same regex. -/
theorem C2_compilers_agree (r : RE) (hok : RE.okLits r) (s : List Char)
    (t : TreeNode) (g : Gen .expr s r t) (w : List Char) :
    ∃ σ1 f1 f2,
      toNFAFromInfixExp s = some (σ1, f1) ∧
      (toNFA [] (postfixOf r)).2 = some f2 ∧
      recognize σ1 f1 w = recognize (toNFA [] (postfixOf r)).1 f2 w := by
  obtain ⟨σ1, f1, hinfix, hiff1⟩ := infix_lang g
  obtain ⟨σ2, f2, heq, hL2, hG2, hU2, -, hIF2, -, hlang2⟩ :=
    toNFA_fold r hok [] [] [] [] (by decide) .nil .nil
  have heq' : (postfixOf r).foldl pushToken ([], []) = (σ2, [f2]) := by
    rw [List.append_nil] at heq
    exact heq
  have htoNFA : toNFA [] (postfixOf r) = (σ2, some f2) := by
    rw [toNFA, if_neg (postfixOf_ne_nil r), heq']
    rfl
  have hiff2 : recognize σ2 f2 w = true ↔ RSem r w := by
    rw [recognize, search_iff hG2 hIF2 w]
    exact hlang2 w
  refine ⟨σ1, f1, f2, hinfix, by rw [htoNFA], ?_⟩
  rw [htoNFA]
  show recognize σ1 f1 w = recognize σ2 f2 w
  cases hh1 : recognize σ1 f1 w with
  | false =>
    cases hh2 : recognize σ2 f2 w with
    | false => rfl
    | true => exact absurd ((hiff1 w).mpr (hiff2.mp hh2)) (by simp [hh1])
  | true =>
    cases hh2 : recognize σ2 f2 w with
    | false => exact absurd (hiff2.mpr ((hiff1 w).mp hh1)) (by simp [hh2])
    | true => rfl

/-- Witness for C2 at a concrete input: the pattern "b", its postfix
form, and the word "b". -/
theorem C2_compilers_agree_witness :
    ∃ σ1 f1 f2,
      toNFAFromInfixExp ['b'] = some (σ1, f1) ∧
      (toNFA [] (postfixOf (.lit 'b'))).2 = some f2 ∧
      recognize σ1 f1 ['b'] =
        recognize (toNFA [] (postfixOf (.lit 'b'))).1 f2 ['b'] :=
  C2_compilers_agree (.lit 'b')
    ⟨by decide, by decide, by decide, by decide, by decide⟩ ['b']
    (.node (some "Expr") [.node (some "Term") [.node (some "Factor")
      [.node (some "Atom") [.node (some "Char")
        [.leaf (some (String.singleton 'b'))]]]]])
    (Gen.exprSingle (Gen.termSingle (Gen.factorSingle (Gen.atomChar
      (Gen.chrLit (by decide))))))
    ['b']

end Automata
